import Mathlib

/-!
Item manager of m3m3 (`utils/item_manager.go`)

A shallow embedding of the bounded ranked feed: the items live in a heap
addressed by natural numbers (the Go pointers), the rank index is the
left-leaning red-black tree of the imported package `GoLLRB/llrb`, the two
identity indexes are Go maps.  A Go panic is an `Except.error`.
-/

namespace ItemManager

/-! ## Machine arithmetic -/

/-- Two's-complement wrap-around of a 64-bit signed integer (`int64`, and `int` on a
64-bit platform). -/
def wrap64 (x : Int) : Int :=
  (x + 9223372036854775808) % 18446744073709551616 - 9223372036854775808

/-- The ways a call can panic. -/
inductive Fault where
  /-- A nil pointer is dereferenced. -/
  | nilDeref
  /-- Raised by `panic("rotating a black link")`. -/
  | blackLink
  /-- Raised by `panic("logic")` in `llrb.delete`. -/
  | logic
  /-- The type assertion `DeleteMin().(*Item)` on a nil interface -/
  | nilItem
  /-- Slice index out of range in `refreshJson`. -/
  | indexRange
  /-- Raised by `panic("manager lists have different lengths!!")`. -/
  | lengthMismatch
  /-- The recursion budget of the embedding ran out (never the case with the budgets used). -/
  | fuel
deriving DecidableEq, Repr

/-- Variable `max_items`. -/
def max_items : Nat := 100

/-- Variable `mill_hour`, a float64 holding an integer -/
def mill_hour : Nat := 1000 * 60 * 60

/-- Variable `mill_day`, a float64 holding an integer -/
def mill_day : Nat := mill_hour * 24

/-! ## float64 arithmetic on non-negative values

A finite non-negative float64 is a natural number `m * 2 ^ s` scaled by a fixed
power of two; rounding is to nearest, ties to even, on 53 significant bits. -/

/-- Bit length with a recursion budget. -/
def bitLenAux : Nat → Nat → Nat
  | 0, _ => 0
  | fuel + 1, n => if n = 0 then 0 else bitLenAux fuel (n / 2) + 1

/-- Number of binary digits of `n`. -/
def bitLen (n : Nat) : Nat := bitLenAux n n

/-- Nearest integer to `v / 2 ^ s` (plus a positive amount below one unit of `v` when
`sticky`), ties to even. -/
def roundShift (v s : Nat) (sticky : Bool) : Nat :=
  if s = 0 then v
  else if 2 ^ (s - 1) < v % 2 ^ s ∨
      (v % 2 ^ s = 2 ^ (s - 1) ∧ (sticky = true ∨ v / 2 ^ s % 2 = 1)) then
    v / 2 ^ s + 1
  else v / 2 ^ s

/-- Rounding of `v` (plus the sticky amount) to 53 significant bits. -/
def round53 (v : Nat) (sticky : Bool) : Nat :=
  roundShift v (bitLen v - 53) sticky * 2 ^ (bitLen v - 53)

/-- Binary digit-by-digit integer square root: the bits `k-1 .. 0` are tried in turn. -/
def isqrtAux : Nat → Nat → Nat → Nat
  | 0, _, r => r
  | k + 1, n, r => if (r + 2 ^ k) * (r + 2 ^ k) ≤ n then isqrtAux k n (r + 2 ^ k) else isqrtAux k n r

/-- Floor of the square root. -/
def isqrt (n : Nat) : Nat := isqrtAux (bitLen n) n 0

/-- Conversion `float64(n)` for `0 ≤ n`: the nearest float64, an integer. -/
def float64OfNat (n : Nat) : Nat := round53 n false

/-- Value of `math.Sqrt(x)` of a float64 holding the integer `x`, scaled by `2 ^ 64`: the correctly
rounded square root. -/
def sqrt64 (x : Nat) : Nat :=
  round53 (isqrt (x * 2 ^ 128)) (decide (isqrt (x * 2 ^ 128) * isqrt (x * 2 ^ 128) ≠ x * 2 ^ 128))

/-- Value of `int64(math.Sqrt(float64(n))*mill_day/2)` for `0 ≤ n`: product rounded to float64, the
halving exact, the conversion truncating. -/
def sqrtTermNat (n : Nat) : Nat :=
  round53 (sqrt64 (float64OfNat n) * mill_day) false / 2 ^ 65

/-- The value of `int64(NaN)` (amd64: the conversion instruction returns the minimum). -/
def nanInt64 : Int := -9223372036854775808

/-- Value of `int64(math.Sqrt(float64(x))*mill_day/2)` for an `int` `x`; the square root of a
negative number is NaN. -/
def sqrtTerm (x : Int) : Int :=
  if x < 0 then nanInt64 else (sqrtTermNat x.toNat : Int)

/-! ## Data model -/

/-- Modelled from the spec: the `Comment` type, declared in a file of package `utils`
that is not among the sources; the fields are those of the spec's comment summary (id, text,
author, like count) and the `Item_id` that `NotifyComment` reads. -/
structure Comment where
  Id : Int
  Item_id : Int
  Text : String
  Author : String
  Likes : Int
deriving DecidableEq, Repr

/-- Type `Item`: an image (a piece of news) shown in the feeds page. -/
structure Item where
  Img_url : String
  Id : Int
  Title : String
  Ncomments : Int
  BestComment : Option Comment
  time : Int
  score : Int
deriving DecidableEq, Repr

/-- Function `Item.updateScore` -/
def updateScore (item : Item) : Item :=
  let result := wrap64 (item.time + sqrtTerm item.Ncomments)
  match item.BestComment with
  | some c => { item with score := wrap64 (result + sqrtTerm c.Likes) }
  | none => { item with score := result }

/-- Function `Item.Less` on two pointers into the heap. -/
def less (heap : Nat → Item) (a b : Nat) : Bool :=
  decide ((heap a).score < (heap b).score)

/-! ## The imported package `github.com/petar/GoLLRB/llrb`

The rank index is an external dependency of the repository; its functions are embedded
from the package (2-3 variant, the package default). -/

/-- Type `llrb.Node`: an item, two children and the colour of the link from the parent. -/
inductive Node (α : Type) where
  | nil : Node α
  | node (Item : α) (Left Right : Node α) (Black : Bool) : Node α
deriving Repr

/-- Type `llrb.LLRB`: the tree with its item counter. -/
structure LLRB (α : Type) where
  count : Int
  root : Node α

namespace Node

variable {α : Type}

/-- Number of nodes. -/
def size : Node α → Nat
  | nil => 0
  | node _ l r _ => size l + size r + 1

/-- In-order sequence of the items. -/
def toList : Node α → List α
  | nil => []
  | node x l r _ => toList l ++ x :: toList r

/-- Function `llrb.isRed` -/
def isRed : Node α → Bool
  | nil => false
  | node _ _ _ b => !b

/-- Function `llrb.rotateLeft` -/
def rotateLeft : Node α → Except Fault (Node α)
  | node a l (node b rl rr false) hb => .ok (node b (node a l rl false) rr hb)
  | node _ _ (node _ _ _ true) _ => .error .blackLink
  | _ => .error .nilDeref

/-- Function `llrb.rotateRight` -/
def rotateRight : Node α → Except Fault (Node α)
  | node a (node b ll lr false) r hb => .ok (node b ll (node a lr r false) hb)
  | node _ (node _ _ _ true) _ _ => .error .blackLink
  | _ => .error .nilDeref

/-- Function `llrb.flip`: both children must be present. -/
def flip : Node α → Except Fault (Node α)
  | node a (node b ll lr lb) (node c rl rr rb) hb =>
    .ok (node a (node b ll lr (!lb)) (node c rl rr (!rb)) (!hb))
  | _ => .error .nilDeref

/-- The left child (`h.Left`). -/
def left : Node α → Node α
  | nil => nil
  | node _ l _ _ => l

/-- The right child (`h.Right`). -/
def right : Node α → Node α
  | nil => nil
  | node _ _ r _ => r

/-- Function `llrb.moveRedLeft` -/
def moveRedLeft (h : Node α) : Except Fault (Node α) :=
  match flip h with
  | .error e => .error e
  | .ok (node a l r b) =>
    if isRed (left r) then
      match rotateRight r with
      | .error e => .error e
      | .ok r1 =>
        match rotateLeft (node a l r1 b) with
        | .error e => .error e
        | .ok h2 => flip h2
    else .ok (node a l r b)
  | .ok nil => .error .nilDeref

/-- Function `llrb.moveRedRight` -/
def moveRedRight (h : Node α) : Except Fault (Node α) :=
  match flip h with
  | .error e => .error e
  | .ok h1 =>
    if isRed (left (left h1)) then
      match rotateRight h1 with
      | .error e => .error e
      | .ok h2 => flip h2
    else .ok h1

/-- Function `llrb.fixUp` -/
def fixUp (h : Node α) : Except Fault (Node α) :=
  match (if isRed (right h) then rotateLeft h else .ok h) with
  | .error e => .error e
  | .ok h1 =>
    match (if isRed (left h1) && isRed (left (left h1)) then rotateRight h1 else .ok h1) with
    | .error e => .error e
    | .ok h2 => if isRed (left h2) && isRed (right h2) then flip h2 else .ok h2

/-- Function `llrb.walkUpRot23` -/
def walkUpRot23 (h : Node α) : Except Fault (Node α) :=
  match (if isRed (right h) && !isRed (left h) then rotateLeft h else .ok h) with
  | .error e => .error e
  | .ok h1 =>
    match (if isRed (left h1) && isRed (left (left h1)) then rotateRight h1 else .ok h1) with
    | .error e => .error e
    | .ok h2 => if isRed (left h2) && isRed (right h2) then flip h2 else .ok h2

/-- Function `LLRB.insertNoReplace` (`walkDownRot23` is the identity). -/
def insertNoReplace (lt : α → α → Bool) : Node α → α → Except Fault (Node α)
  | nil, item => .ok (node item nil nil false)
  | node x l r b, item =>
    if lt item x then
      match insertNoReplace lt l item with
      | .error e => .error e
      | .ok l1 => walkUpRot23 (node x l1 r b)
    else
      match insertNoReplace lt r item with
      | .error e => .error e
      | .ok r1 => walkUpRot23 (node x l r1 b)

/-- Function `llrb.deleteMin`; the first argument bounds the recursion depth. -/
def deleteMin : Nat → Node α → Except Fault (Node α × Option α)
  | 0, _ => .error .fuel
  | _ + 1, nil => .ok (nil, none)
  | _ + 1, node x nil _ _ => .ok (nil, some x)
  | fuel + 1, node x (node y ll lr lb) r b =>
    match (if !isRed (node y ll lr lb) && !isRed ll then moveRedLeft (node x (node y ll lr lb) r b)
           else .ok (node x (node y ll lr lb) r b)) with
    | .error e => .error e
    | .ok nil => .error .nilDeref
    | .ok (node x1 l1 r1 b1) =>
      match deleteMin fuel l1 with
      | .error e => .error e
      | .ok (l2, deleted) =>
        match fixUp (node x1 l2 r1 b1) with
        | .error e => .error e
        | .ok h2 => .ok (h2, deleted)

/-- Function `LLRB.delete`; the first argument bounds the recursion depth. -/
def delete (lt : α → α → Bool) : Nat → Node α → α → Except Fault (Node α × Option α)
  | 0, _, _ => .error .fuel
  | _ + 1, nil, _ => .ok (nil, none)
  | fuel + 1, node x l r b, item =>
    if lt item x then
      match l with
      | nil => .ok (node x l r b, none)
      | node y ll lr lb =>
        match (if !isRed (node y ll lr lb) && !isRed ll then
                 moveRedLeft (node x (node y ll lr lb) r b)
               else .ok (node x (node y ll lr lb) r b)) with
        | .error e => .error e
        | .ok nil => .error .nilDeref
        | .ok (node x1 l1 r1 b1) =>
          match delete lt fuel l1 item with
          | .error e => .error e
          | .ok (l2, deleted) =>
            match fixUp (node x1 l2 r1 b1) with
            | .error e => .error e
            | .ok h2 => .ok (h2, deleted)
    else
      match (if isRed l then rotateRight (node x l r b) else .ok (node x l r b)) with
      | .error e => .error e
      | .ok nil => .error .nilDeref
      | .ok (node x1 l1 r1 b1) =>
        match r1 with
        | nil =>
          if !lt x1 item then .ok (nil, some x1)
          else
            match delete lt fuel nil item with
            | .error e => .error e
            | .ok (r2, deleted) =>
              match fixUp (node x1 l1 r2 b1) with
              | .error e => .error e
              | .ok h2 => .ok (h2, deleted)
        | node z rl rr rb =>
          match (if !isRed (node z rl rr rb) && !isRed rl then
                   moveRedRight (node x1 l1 (node z rl rr rb) b1)
                 else .ok (node x1 l1 (node z rl rr rb) b1)) with
          | .error e => .error e
          | .ok nil => .error .nilDeref
          | .ok (node x2 l2 r2 b2) =>
            if !lt x2 item then
              match deleteMin fuel r2 with
              | .error e => .error e
              | .ok (_, none) => .error .logic
              | .ok (r3, some sub) =>
                match fixUp (node sub l2 r3 b2) with
                | .error e => .error e
                | .ok h3 => .ok (h3, some x2)
            else
              match delete lt fuel r2 item with
              | .error e => .error e
              | .ok (r3, deleted) =>
                match fixUp (node x2 l2 r3 b2) with
                | .error e => .error e
                | .ok h3 => .ok (h3, deleted)

/-- Function `LLRB.ascendGreaterOrEqual`: `belowPivot x` is `less(x, pivot)`; the iterator threads
its state and may panic. -/
def ascendGreaterOrEqual {σ : Type} (belowPivot : α → Bool)
    (iterator : σ → α → Except Fault (σ × Bool)) : Node α → σ → Except Fault (σ × Bool)
  | nil, s => .ok (s, true)
  | node x l r _, s =>
    if !belowPivot x then
      match ascendGreaterOrEqual belowPivot iterator l s with
      | .error e => .error e
      | .ok (s1, false) => .ok (s1, false)
      | .ok (s1, true) =>
        match iterator s1 x with
        | .error e => .error e
        | .ok (s2, false) => .ok (s2, false)
        | .ok (s2, true) => ascendGreaterOrEqual belowPivot iterator r s2
    else ascendGreaterOrEqual belowPivot iterator r s

/-- The items an ascent from a pivot hands to its iterator, in order: a node below the pivot
is skipped together with its left subtree. -/
def visited (belowPivot : α → Bool) : Node α → List α
  | nil => []
  | node x l r _ =>
    if !belowPivot x then visited belowPivot l ++ x :: visited belowPivot r
    else visited belowPivot r

/-- The root with `Black = true` (`t.root.Black = true` when the root is not nil). -/
def blacken : Node α → Node α
  | nil => nil
  | node x l r _ => node x l r true

/-- Validity of a tree: `LL t n` says that `t` is a left-leaning red-black 2-3 tree of black height `n`: no red right
link, no two red links in a row, `n` black links on every path to a leaf. -/
def LL : Node α → Nat → Prop
  | nil, n => n = 0
  | node _ l r false, n => LL l n ∧ LL r n ∧ isRed l = false ∧ isRed r = false
  | node _ _ _ true, 0 => False
  | node _ l r true, n + 1 => LL l n ∧ LL r n ∧ isRed r = false

/-- The in-order sequence after a deletion: the same when nothing was deleted, else the old
sequence without one occurrence of the deleted item, the order kept. -/
def Removed (d : Option α) (before after : List α) : Prop :=
  match d with
  | none => after = before
  | some y => ∃ l1 l2, before = l1 ++ y :: l2 ∧ after = l1 ++ l2

/-- The items are in non-decreasing order of `key`. -/
def Sorted (key : α → Int) (t : Node α) : Prop :=
  (toList t).Pairwise (fun a b => key a ≤ key b)

end Node

namespace LLRB

variable {α : Type}

/-- Function `llrb.New` -/
def New : LLRB α := { count := 0, root := Node.nil }

/-- Function `LLRB.Len` -/
def Len (t : LLRB α) : Int := t.count

/-- Function `LLRB.InsertNoReplace` -/
def InsertNoReplace (lt : α → α → Bool) (t : LLRB α) (item : α) : Except Fault (LLRB α) :=
  match Node.insertNoReplace lt t.root item with
  | .error e => .error e
  | .ok r => .ok { count := t.count + 1, root := Node.blacken r }

/-- Function `LLRB.DeleteMin` -/
def DeleteMin (t : LLRB α) : Except Fault (LLRB α × Option α) :=
  match Node.deleteMin (t.root.size + 1) t.root with
  | .error e => .error e
  | .ok (r, none) => .ok ({ count := t.count, root := Node.blacken r }, none)
  | .ok (r, some d) => .ok ({ count := t.count - 1, root := Node.blacken r }, some d)

/-- Function `LLRB.Delete` -/
def Delete (lt : α → α → Bool) (t : LLRB α) (key : α) : Except Fault (LLRB α × Option α) :=
  match Node.delete lt (t.root.size + 1) t.root key with
  | .error e => .error e
  | .ok (r, none) => .ok ({ count := t.count, root := Node.blacken r }, none)
  | .ok (r, some d) => .ok ({ count := t.count - 1, root := Node.blacken r }, some d)

end LLRB

/-! ## Go maps -/

/-- Map lookup `m[k]` with the comma-ok form. -/
def mapGet {κ ν : Type} [DecidableEq κ] : List (κ × ν) → κ → Option ν
  | [], _ => none
  | (k1, v) :: rest, k => if k1 = k then some v else mapGet rest k

/-- Map deletion `delete(m, k)`. -/
def mapDelete {κ ν : Type} [DecidableEq κ] (m : List (κ × ν)) (k : κ) : List (κ × ν) :=
  m.filter (fun e => decide (e.1 ≠ k))

/-- Map assignment `m[k] = v`. -/
def mapSet {κ ν : Type} [DecidableEq κ] (m : List (κ × ν)) (k : κ) (v : ν) : List (κ × ν) :=
  (k, v) :: mapDelete m k

/-! ## The manager -/

/-- The exported fields of an item, the ones `json.Marshal` writes. -/
structure JsonItem where
  img_url : String
  id : Int
  title : String
  n_comm : Int
  b_comm : Option Comment
deriving DecidableEq, Repr

/-- The serialized view of the item at an address. -/
def toJson (heap : Nat → Item) (p : Nat) : JsonItem :=
  { img_url := (heap p).Img_url, id := (heap p).Id, title := (heap p).Title,
    n_comm := (heap p).Ncomments, b_comm := (heap p).BestComment }

/-- Type `IManager` without its mutex.  `heap` holds the items the pointers refer to, `next`
is the first unused address.  `json` is the sequence `json.Marshal` last serialized (`none`:
the empty string of a manager never refreshed), `json_zipped` the one last compressed. -/
structure IManager where
  heap : Nat → Item
  next : Nat
  sortedItems : LLRB Nat
  itemsByUrl : List (String × Nat)
  itemsById : List (Int × Nat)
  json : Option (List (Option JsonItem))
  json_zipped : Option (List (Option JsonItem))

/-- Function `NewManager` -/
def NewManager : IManager :=
  { heap := fun _ => { Img_url := "", Id := 0, Title := "", Ncomments := 0, BestComment := none,
                       time := 0, score := 0 },
    next := 0, sortedItems := LLRB.New, itemsByUrl := [], itemsById := [],
    json := none, json_zipped := none }

/-- The callback of `refreshJson`: `ary[l-1] = i; l--; return true`. -/
def fillBack (st : List (Option Nat) × Nat) (i : Nat) :
    Except Fault ((List (Option Nat) × Nat) × Bool) :=
  if st.2 = 0 ∨ st.1.length < st.2 then .error .indexRange
  else .ok ((st.1.set (st.2 - 1) (some i), st.2 - 1), true)

/-- The callback of `refreshJson` applied to a sequence of items in turn. -/
def fillList : List Nat → List (Option Nat) × Nat → Except Fault (List (Option Nat) × Nat)
  | [], st => .ok st
  | i :: rest, st =>
    match fillBack st i with
    | .error e => .error e
    | .ok (st1, _) => fillList rest st1

/-- The slice `ary` that `refreshJson` fills and serializes; the pivot `&Item{}` has score 0. -/
def rankedArray (m : IManager) : Except Fault (List (Option Nat)) :=
  match Node.ascendGreaterOrEqual (fun p => decide ((m.heap p).score < 0)) fillBack
      m.sortedItems.root (List.replicate m.itemsByUrl.length none, m.itemsByUrl.length) with
  | .error e => .error e
  | .ok (st, _) => .ok st.1

/-- Function `IManager.refreshJson` (`json.Marshal` of items and comment summaries succeeds). -/
def refreshJson (m : IManager) : Except Fault IManager :=
  match rankedArray m with
  | .error e => .error e
  | .ok ary =>
    .ok { m with json := some (ary.map (Option.map (toJson m.heap))),
                 json_zipped := some (ary.map (Option.map (toJson m.heap))) }

/-- Function `IManager.RefreshJson` -/
def RefreshJson (m : IManager) : Except Fault IManager := refreshJson m

/-- The loop of `removeTail`: `n` rounds of `DeleteMin` and the two `delete`s. -/
def removeTailLoop : Nat → IManager → Except Fault IManager
  | 0, m => .ok m
  | n + 1, m =>
    match LLRB.DeleteMin m.sortedItems with
    | .error e => .error e
    | .ok (_, none) => .error .nilItem
    | .ok (t, some min) =>
      removeTailLoop n { m with sortedItems := t,
                                itemsByUrl := mapDelete m.itemsByUrl (m.heap min).Img_url,
                                itemsById := mapDelete m.itemsById (m.heap min).Id }

/-- Function `IManager.removeTail` -/
def removeTail (m : IManager) : Except Fault IManager :=
  if m.itemsByUrl.length ≤ max_items then .ok m
  else
    match removeTailLoop (m.itemsByUrl.length - max_items) m with
    | .error e => .error e
    | .ok m1 =>
      if m1.sortedItems.Len ≠ (m1.itemsByUrl.length : Int) then .error .lengthMismatch
      else .ok m1

/-- The item as `Insert` stores it: `item.time = time.Now().UnixNano()/1000000 +
rand.Int63n(1000)`, then `item.updateScore()`. -/
def storedItem (item : Item) (now : Int) (jitter : Fin 1000) : Item :=
  updateScore { item with time := wrap64 (Int.tdiv (wrap64 now) 1000000 + (jitter.val : Int)) }

/-- Function `IManager.Insert`.  `item` is the content of the caller's item, which the manager
stores at a fresh address; `now` is `time.Now().UnixNano()`, `jitter` is
`rand.Int63n(1000)`. -/
def Insert (m : IManager) (item : Item) (now : Int) (jitter : Fin 1000) :
    Except Fault (IManager × Bool) :=
  match mapGet m.itemsByUrl item.Img_url with
  | some _ => .ok (m, false)
  | none =>
    let heap1 := Function.update m.heap m.next (storedItem item now jitter)
    match LLRB.InsertNoReplace (less heap1) m.sortedItems m.next with
    | .error e => .error e
    | .ok t =>
      match removeTail { m with heap := heap1, next := m.next + 1, sortedItems := t,
                                itemsByUrl := mapSet m.itemsByUrl item.Img_url m.next } with
      | .error e => .error e
      | .ok m1 => .ok (m1, true)

/-- The best-comment rule and the increment of `NotifyComment`, then `updateScore`. -/
def applyComment (item : Item) (comment : Comment) : Item :=
  let item1 : Item :=
    match item.BestComment with
    | none => { item with BestComment := some comment }
    | some prev => if prev.Likes = 0 then { item with BestComment := some comment } else item
  updateScore { item1 with Ncomments := wrap64 (item1.Ncomments + 1) }

/-- Function `IManager.NotifyComment` -/
def NotifyComment (m : IManager) (comment : Comment) : Except Fault IManager :=
  match mapGet m.itemsById comment.Item_id with
  | none => .ok m
  | some p =>
    match LLRB.Delete (less m.heap) m.sortedItems p with
    | .error e => .error e
    | .ok (t1, _) =>
      let heap1 := Function.update m.heap p (applyComment (m.heap p) comment)
      match LLRB.InsertNoReplace (less heap1) t1 p with
      | .error e => .error e
      | .ok t2 => refreshJson { m with heap := heap1, sortedItems := t2 }

/-- Function `IManager.NotifyItemId` -/
def NotifyItemId (m : IManager) (url : String) (id : Int) : IManager :=
  match mapGet m.itemsByUrl url with
  | none => m
  | some p =>
    { m with heap := Function.update m.heap p { m.heap p with Id := id },
             itemsById := mapSet m.itemsById id p }

/-- Function `IManager.IsManaged` -/
def IsManaged (m : IManager) (item : Item) : Bool :=
  match mapGet m.itemsByUrl item.Img_url with
  | some _ => true
  | none => (mapGet m.itemsById item.Id).isSome

/-- Function `IManager.GetItemByUrl` -/
def GetItemByUrl (m : IManager) (img_url : String) : Option Nat :=
  mapGet m.itemsByUrl img_url

/-- Function `IManager.GetJson` -/
def GetJson (m : IManager) : Option (List (Option JsonItem)) := m.json

/-- Function `IManager.GetZippedJson` -/
def GetZippedJson (m : IManager) : Option (List (Option JsonItem)) := m.json_zipped

/-! ## Well-formed states -/

/-- The rank of the item at an address. -/
def rank (m : IManager) (p : Nat) : Int := (m.heap p).score

/-- The addresses of the resident items (the values of the key map). -/
def residents (m : IManager) : List Nat := m.itemsByUrl.map Prod.snd

/-- A state whose rank index and key map hold the same items: the index is a balanced
tree with a black root, ordered by the current ranks, its counter is its size, it holds
exactly the values of the key map, and the key map files each item under its own key. -/
structure WF (m : IManager) : Prop where
  balanced : ∃ n, Node.LL m.sortedItems.root n
  blackRoot : Node.isRed m.sortedItems.root = false
  sorted : Node.Sorted (rank m) m.sortedItems.root
  count_eq : m.sortedItems.count = (m.sortedItems.root.size : Int)
  same : (Node.toList m.sortedItems.root).Perm (residents m)
  keys : ∀ e ∈ m.itemsByUrl, (m.heap e.2).Img_url = e.1
  keysNodup : (m.itemsByUrl.map Prod.fst).Nodup
  fresh : ∀ e ∈ m.itemsByUrl, e.2 < m.next

/-- Every item of the heap has a time stamp in the range that `Insert` draws from the clock
and a rank that `updateScore` computed from its fields. -/
def Scored (m : IManager) : Prop :=
  ∀ p, (-4611686018427387904 ≤ (m.heap p).time ∧ (m.heap p).time ≤ 4611686018427387904) ∧
    (m.heap p).score = (updateScore (m.heap p)).score

/-! ## Call sequences -/

/-- One call of a mutating operation. -/
inductive Call where
  | insert (item : Item) (now : Int) (jitter : Fin 1000)
  | notifyItemId (url : String) (id : Int)
  | notifyComment (comment : Comment)

/-- One call applied to a manager. -/
def step (m : IManager) : Call → Except Fault IManager
  | .insert item now jitter =>
    match Insert m item now jitter with
    | .error e => .error e
    | .ok (m1, _) => .ok m1
  | .notifyItemId url id => .ok (NotifyItemId m url id)
  | .notifyComment c => NotifyComment m c

/-- A sequence of calls, stopping at the first panic. -/
def run : IManager → List Call → Except Fault IManager
  | m, [] => .ok m
  | m, c :: cs =>
    match step m c with
    | .error e => .error e
    | .ok m1 => run m1 cs

/-- The rank index can tell the item of the call apart: every call but a `NotifyComment`
whose id leads to an item that is not resident under its key, or whose rank another resident
item shares. -/
def Call.untied (m : IManager) : Call → Bool
  | .notifyComment c =>
    match mapGet m.itemsById c.Item_id with
    | none => true
    | some p => decide (mapGet m.itemsByUrl (m.heap p).Img_url = some p) &&
        (residents m).all (fun q => decide (q = p) || decide (rank m q ≠ rank m p))
  | _ => true

/-- Every call of the run, up to its first panic, is untied in the state it finds. -/
def untiedRun : IManager → List Call → Bool
  | _, [] => true
  | m, c :: cs =>
    c.untied m && (match step m c with
      | .ok m1 => untiedRun m1 cs
      | .error _ => true)

/-- The keys that a sequence of calls hands to `NotifyItemId`. -/
def boundKeys : List Call → List String
  | [] => []
  | .notifyItemId url _ :: cs => url :: boundKeys cs
  | .insert _ _ _ :: cs => boundKeys cs
  | .notifyComment _ :: cs => boundKeys cs

/-- The invariant behind the containment of the id map in the key map, for a state reached
by calls that handed the keys `H` to `NotifyItemId`: an id entry leads to an item that is
resident under its key, carries that id and was bound through its key; an item of the index
that is not resident under its key has a key that was bound and that no id entry leads to; an
item that is in the index twice was bound; addresses in use are below `next`. -/
structure IdInv (m : IManager) (H : List String) : Prop where
  bound : ∀ id p, mapGet m.itemsById id = some p →
    mapGet m.itemsByUrl (m.heap p).Img_url = some p ∧ (m.heap p).Id = id ∧
      (m.heap p).Img_url ∈ H
  stale : ∀ p ∈ Node.toList m.sortedItems.root,
    mapGet m.itemsByUrl (m.heap p).Img_url ≠ some p →
      (m.heap p).Img_url ∈ H ∧
        ∀ id q, mapGet m.itemsById id = some q → (m.heap q).Img_url ≠ (m.heap p).Img_url
  twice : ∀ p, 2 ≤ (Node.toList m.sortedItems.root).count p → (m.heap p).Img_url ∈ H
  treeFresh : ∀ p ∈ Node.toList m.sortedItems.root, p < m.next
  keyed : ∀ k p, mapGet m.itemsByUrl k = some p → p < m.next ∧ (m.heap p).Img_url = k

/-! ## Observations and concrete scenarios -/

/-- The calls of a sequence of inserts, each with its clock and jitter. -/
def insertCalls (ins : List (Item × Int × Fin 1000)) : List Call :=
  ins.map (fun t => Call.insert t.1 t.2.1 t.2.2)

/-- A call that is not `NotifyComment`. -/
def Call.isStructural : Call → Bool
  | .notifyComment _ => false
  | _ => true

/-- The run ended with this panic. -/
def failsWith {α : Type} : Except Fault α → Fault → Bool
  | .error e, f => decide (e = f)
  | .ok _, _ => false

/-- The run ended without a panic. -/
def succeeds {α : Type} : Except Fault α → Bool
  | .error _ => false
  | .ok _ => true

/-- The state a run ends in (the start state if it panics). -/
def runState (m : IManager) (calls : List Call) : IManager :=
  match run m calls with
  | .ok m1 => m1
  | .error _ => m

/-- An item as a caller hands it over: a key and a comment count, no id, no best comment. -/
def plainItem (url : String) (n : Int) : Item :=
  { Img_url := url, Id := 0, Title := "", Ncomments := n, BestComment := none,
    time := 0, score := 0 }

/-- Distinct keys `k`, `kk`, `kkk`, ... -/
def keyOf (i : Nat) : String := String.mk (List.replicate (i + 1) 'k')

/-- A run of `n` inserts of fresh keys, one millisecond apart from `start` (nanoseconds), every item
with `ncomm` comments. -/
def fillCalls (n : Nat) (start : Int) (ncomm : Int) : List Call :=
  (List.range n).map (fun i => Call.insert (plainItem (keyOf i) ncomm) (start + 1000000 * i) 0)

/-- A comment with a like count on the item of an id. -/
def commentOn (id : Int) (likes : Int) : Comment :=
  { Id := 7, Item_id := id, Text := "", Author := "", Likes := likes }

/-- Two items that draw the same time stamp (1000 ms + 5 and 1003 ms + 2), the second one
bound to id 1 and then commented. -/
def tieCalls : List Call :=
  [ .insert (plainItem "a" 0) 1000000000 5, .insert (plainItem "b" 0) 1003000000 2,
    .notifyItemId "b" 1, .notifyComment (commentOn 1 0) ]

/-- An item bound to id 1 and then to id 2, followed by a hundred later inserts. -/
def rebindCalls : List Call :=
  [ .insert (plainItem "a" 0) 1000000000 0, .notifyItemId "a" 1, .notifyItemId "a" 2 ] ++
    fillCalls 100 1000000000000000 0

/-- An item with the largest comment count an `int` holds, bound to id 1. -/
def maxCountCalls : List Call :=
  [ .insert (plainItem "a" 9223372036854775807) 1000000000 0, .notifyItemId "a" 1 ]

/-- An item with three comments, inserted and bound to id 1. -/
def boundCalls : List Call :=
  [ .insert (plainItem "a" 3) 1000000000 0, .notifyItemId "a" 1 ]

/-- An item with three comments, inserted, bound to id 1 and commented. -/
def commentedCalls : List Call :=
  boundCalls ++ [Call.notifyComment (commentOn 1 2)]

/-- The rank index holds exactly the resident items, each once. -/
def sameItems (m : IManager) : Bool :=
  decide ((Node.toList m.sortedItems.root).length = (residents m).length) &&
    decide (Node.toList m.sortedItems.root).Nodup &&
    (Node.toList m.sortedItems.root).all (fun p => (residents m).contains p)

/-- Non-decreasing order. -/
def ascending : List Int → Bool
  | a :: b :: rest => decide (a ≤ b) && ascending (b :: rest)
  | _ => true

/-- The in-order sequence of the rank index is in non-decreasing order of the current ranks. -/
def rankOrdered (m : IManager) : Bool :=
  ascending ((Node.toList m.sortedItems.root).map (rank m))

/-- Three items that draw the same time stamp (1000 ms + 3, 1001 ms + 2, 1002 ms + 1) and a
fourth that draws an earlier one (1002 ms + 0), bound to the ids 1 to 4; then one comment on the
third, the second, the first and the fourth. -/
def driftCalls : List Call :=
  [ .insert (plainItem "a" 0) 1000000000 3, .insert (plainItem "b" 0) 1001000000 2,
    .insert (plainItem "c" 0) 1002000000 1, .insert (plainItem "d" 0) 1002000000 0,
    .notifyItemId "a" 1, .notifyItemId "b" 2, .notifyItemId "c" 3, .notifyItemId "d" 4,
    .notifyComment (commentOn 3 0), .notifyComment (commentOn 2 0),
    .notifyComment (commentOn 1 0), .notifyComment (commentOn 4 0) ]

/-- The two tied items of `tieCalls` after the comment on the second, the first one then bound
to id 5. -/
def tiedBoundCalls : List Call :=
  tieCalls ++ [Call.notifyItemId "a" 5]

/-- Three inserts, the last two drawing the same time stamp, and a comment on the first item,
bound to id 1. -/
def feedCalls : List Call :=
  [ .insert (plainItem "a" 0) 1000000000 0, .insert (plainItem "b" 0) 2000000000 5,
    .insert (plainItem "c" 0) 2003000000 2, .notifyItemId "a" 1,
    .notifyComment (commentOn 1 3) ]

/-- Six items inserted within three milliseconds, the first two drawing the same time stamp
(1900) and the last three another (1500), bound to the ids 1 to 6; then comments on the items
of the ids 5, 1, 4, 3, 5 and 6. -/
def unsortedCalls : List Call :=
  [ .insert (plainItem "a" 0) 1000000000 900, .insert (plainItem "b" 0) 1000000000 900,
    .insert (plainItem "c" 0) 1000000000 0, .insert (plainItem "d" 0) 1000000000 500,
    .insert (plainItem "e" 0) 1001000000 499, .insert (plainItem "f" 0) 1002000000 498,
    .notifyItemId "a" 1, .notifyItemId "b" 2, .notifyItemId "c" 3, .notifyItemId "d" 4,
    .notifyItemId "e" 5, .notifyItemId "f" 6,
    .notifyComment (commentOn 5 0), .notifyComment (commentOn 1 0),
    .notifyComment (commentOn 4 0), .notifyComment (commentOn 3 0),
    .notifyComment (commentOn 5 0), .notifyComment (commentOn 6 0) ]

/-- What two inserts in a row return and the resident counts they leave. -/
def insertTwice (m : IManager) (i1 : Item) (n1 : Int) (j1 : Fin 1000) (i2 : Item) (n2 : Int)
    (j2 : Fin 1000) : Option (Bool × Nat × Bool × Nat) :=
  match Insert m i1 n1 j1 with
  | .error _ => none
  | .ok (m1, b1) =>
    match Insert m1 i2 n2 j2 with
    | .error _ => none
    | .ok (m2, b2) => some (b1, m1.itemsByUrl.length, b2, m2.itemsByUrl.length)

end ItemManager

namespace ItemManager
namespace Node
variable {α : Type}

theorem size_eq_length (t : Node α) : t.size = t.toList.length := by
  induction t with
  | nil => rfl
  | node x l r b ihl ihr => simp [size, toList, ihl, ihr]; omega

theorem rotateLeft_toList {h h' : Node α} (e : rotateLeft h = .ok h') : toList h' = toList h := by
  rcases h with _ | ⟨a, l, r, hb⟩
  · simp [rotateLeft] at e
  · rcases r with _ | ⟨b, rl, rr, rb⟩
    · simp [rotateLeft] at e
    · cases rb <;> simp [rotateLeft] at e
      subst e; simp [toList]

theorem rotateRight_toList {h h' : Node α} (e : rotateRight h = .ok h') : toList h' = toList h := by
  rcases h with _ | ⟨a, l, r, hb⟩
  · simp [rotateRight] at e
  · rcases l with _ | ⟨b, ll, lr, lb⟩
    · simp [rotateRight] at e
    · cases lb <;> simp [rotateRight] at e
      subst e; simp [toList]

theorem flip_toList {h h' : Node α} (e : flip h = .ok h') : toList h' = toList h := by
  rcases h with _ | ⟨a, l, r, hb⟩
  · simp [flip] at e
  · rcases l with _ | ⟨b, ll, lr, lb⟩ <;> rcases r with _ | ⟨c, rl, rr, rb⟩ <;> simp [flip] at e
    subst e; simp [toList]

theorem moveRedLeft_toList {h h' : Node α} (e : moveRedLeft h = .ok h') : toList h' = toList h := by
  unfold moveRedLeft at e
  split at e
  · simp at e
  · rename_i a l r b hf
    split at e
    · split at e
      · simp at e
      · rename_i r1 hr
        split at e
        · simp at e
        · rename_i h2 hl
          rw [flip_toList e, rotateLeft_toList hl, ← flip_toList hf]
          simp [toList, rotateRight_toList hr]
    · cases e; exact flip_toList hf
  · simp at e

theorem moveRedRight_toList {h h' : Node α} (e : moveRedRight h = .ok h') : toList h' = toList h := by
  unfold moveRedRight at e
  split at e
  · simp at e
  · rename_i h1 hf
    split at e
    · split at e
      · simp at e
      · rename_i h2 hr
        rw [flip_toList e, rotateRight_toList hr, flip_toList hf]
    · cases e; exact flip_toList hf

theorem fixUp_toList {h h' : Node α} (e : fixUp h = .ok h') : toList h' = toList h := by
  unfold fixUp at e
  split at e
  · simp at e
  · rename_i h1 e1
    have t1 : toList h1 = toList h := by
      split at e1
      · exact rotateLeft_toList e1
      · cases e1; rfl
    split at e
    · simp at e
    · rename_i h2 e2
      have t2 : toList h2 = toList h1 := by
        split at e2
        · exact rotateRight_toList e2
        · cases e2; rfl
      split at e
      · rw [flip_toList e, t2, t1]
      · cases e; rw [t2, t1]

theorem walkUpRot23_toList {h h' : Node α} (e : walkUpRot23 h = .ok h') : toList h' = toList h := by
  unfold walkUpRot23 at e
  split at e
  · simp at e
  · rename_i h1 e1
    have t1 : toList h1 = toList h := by
      split at e1
      · exact rotateLeft_toList e1
      · cases e1; rfl
    split at e
    · simp at e
    · rename_i h2 e2
      have t2 : toList h2 = toList h1 := by
        split at e2
        · exact rotateRight_toList e2
        · cases e2; rfl
      split at e
      · rw [flip_toList e, t2, t1]
      · cases e; rw [t2, t1]

end Node
end ItemManager

namespace ItemManager
namespace Node
variable {α : Type}

theorem fixUp_ok (x : α) (l r : Node α) (b : Bool) : ∃ h', fixUp (node x l r b) = .ok h' := by
  rcases r with _ | ⟨c, rl, rr, rb⟩ <;> rcases l with _ | ⟨y, ll, lr, lb⟩ <;>
    (try rcases ll with _ | ⟨u, lll, llr, llb⟩) <;> (try rcases rr with _ | ⟨v, rrl, rrr, rrb⟩)
  all_goals (try cases rb) <;> (try cases lb) <;> (try cases llb) <;> (try cases rrb) <;>
    simp [fixUp, isRed, left, right, rotateLeft, rotateRight, flip]

theorem walkUpRot23_ok (x : α) (l r : Node α) (b : Bool) :
    ∃ h', walkUpRot23 (node x l r b) = .ok h' := by
  rcases r with _ | ⟨c, rl, rr, rb⟩ <;> rcases l with _ | ⟨y, ll, lr, lb⟩ <;>
    (try rcases ll with _ | ⟨u, lll, llr, llb⟩) <;> (try rcases rr with _ | ⟨v, rrl, rrr, rrb⟩)
  all_goals (try cases rb) <;> (try cases lb) <;> (try cases llb) <;> (try cases rrb) <;>
    simp [walkUpRot23, isRed, left, right, rotateLeft, rotateRight, flip]

end Node
end ItemManager

namespace ItemManager
namespace Node
variable {α : Type}

@[simp] theorem LL_nil (n : Nat) : LL (nil : Node α) n ↔ n = 0 := by simp [LL]
@[simp] theorem LL_red (x : α) (l r : Node α) (n : Nat) :
    LL (node x l r false) n ↔ LL l n ∧ LL r n ∧ isRed l = false ∧ isRed r = false := by simp [LL]
@[simp] theorem LL_black_zero (x : α) (l r : Node α) : LL (node x l r true) 0 ↔ False := by simp [LL]
@[simp] theorem LL_black_succ (x : α) (l r : Node α) (n : Nat) :
    LL (node x l r true) (n + 1) ↔ LL l n ∧ LL r n ∧ isRed r = false := by simp [LL]
@[simp] theorem isRed_nil : isRed (nil : Node α) = false := rfl
@[simp] theorem isRed_node (x : α) (l r : Node α) (b : Bool) : isRed (node x l r b) = !b := rfl
@[simp] theorem blacken_nil : blacken (nil : Node α) = nil := rfl
@[simp] theorem blacken_node (x : α) (l r : Node α) (b : Bool) :
    blacken (node x l r b) = node x l r true := rfl

theorem walkUp_black_left {x : α} {l r : Node α} {n : Nat}
    (hl : LL l n ∨ (isRed l = true ∧ LL (blacken l) (n + 1))) (hr : LL r n)
    (hrb : isRed r = false) :
    ∃ h', walkUpRot23 (node x l r true) = .ok h' ∧ LL h' (n + 1) := by
  rcases r with _ | ⟨c, rl, rr, rb⟩ <;> rcases l with _ | ⟨y, ll, lr, lb⟩ <;>
    (try rcases ll with _ | ⟨u, lll, llr, llb⟩)
  all_goals (try cases rb) <;> (try cases lb) <;> (try cases llb) <;>
    (try simp_all [walkUpRot23, left, right, rotateLeft, rotateRight, flip])

theorem walkUp_black_right {x : α} {l r : Node α} {n : Nat} (hl : LL l n) (hr : LL r n) :
    ∃ h', walkUpRot23 (node x l r true) = .ok h' ∧ LL h' (n + 1) := by
  rcases r with _ | ⟨c, rl, rr, rb⟩ <;> rcases l with _ | ⟨y, ll, lr, lb⟩ <;>
    (try rcases ll with _ | ⟨u, lll, llr, llb⟩)
  all_goals (try cases rb) <;> (try cases lb) <;> (try cases llb) <;>
    (try simp_all [walkUpRot23, left, right, rotateLeft, rotateRight, flip]) <;>
    (try (obtain ⟨rfl, _⟩ := hl; simp_all))

theorem walkUp_red_left {x : α} {l r : Node α} {n : Nat} (hl : LL l n) (hr : LL r n)
    (hrb : isRed r = false) :
    ∃ h', walkUpRot23 (node x l r false) = .ok h' ∧ isRed h' = true ∧ LL (blacken h') (n + 1) := by
  rcases r with _ | ⟨c, rl, rr, rb⟩ <;> rcases l with _ | ⟨y, ll, lr, lb⟩ <;>
    (try rcases ll with _ | ⟨u, lll, llr, llb⟩)
  all_goals (try cases rb) <;> (try cases lb) <;> (try cases llb) <;>
    (try simp_all [walkUpRot23, left, right, rotateLeft, rotateRight, flip])

theorem walkUp_red_right {x : α} {l r : Node α} {n : Nat} (hl : LL l n) (hr : LL r n)
    (hlb : isRed l = false) :
    ∃ h', walkUpRot23 (node x l r false) = .ok h' ∧ isRed h' = true ∧ LL (blacken h') (n + 1) := by
  rcases r with _ | ⟨c, rl, rr, rb⟩ <;> rcases l with _ | ⟨y, ll, lr, lb⟩ <;>
    (try rcases ll with _ | ⟨u, lll, llr, llb⟩)
  all_goals (try cases rb) <;> (try cases lb) <;> (try cases llb) <;>
    (try simp_all [walkUpRot23, left, right, rotateLeft, rotateRight, flip])

/-- Insertion keeps the tree balanced: below a black link the result is a valid tree, below a
red link it is a red node whose left child may be red. -/
theorem insertNoReplace_LL (lt : α → α → Bool) (item : α) :
    ∀ (h : Node α) (n : Nat), LL h n →
      ∃ h', insertNoReplace lt h item = .ok h' ∧
        (if isRed h = true then isRed h' = true ∧ LL (blacken h') (n + 1) else LL h' n) := by
  intro h
  induction h with
  | nil => intro n hn; simp_all [insertNoReplace]
  | node x l r b ihl ihr =>
    intro n hn
    cases b
    · -- red node: both children black
      simp only [LL_red] at hn
      obtain ⟨hl, hr, hlb, hrb⟩ := hn
      simp only [insertNoReplace]
      by_cases hlt : lt item x = true
      · obtain ⟨l1, e1, p1⟩ := ihl n hl
        simp only [hlb] at p1
        obtain ⟨h', e, p⟩ := walkUp_red_left (x := x) (by simpa using p1) hr hrb
        exact ⟨h', by simp [hlt, e1, e], by simpa using p⟩
      · obtain ⟨r1, e1, p1⟩ := ihr n hr
        simp only [hrb] at p1
        obtain ⟨h', e, p⟩ := walkUp_red_right (x := x) hl (by simpa using p1) hlb
        exact ⟨h', by simp [hlt, e1, e], by simpa using p⟩
    · cases n with
      | zero => simp at hn
      | succ n =>
        simp only [LL_black_succ] at hn
        obtain ⟨hl, hr, hrb⟩ := hn
        simp only [insertNoReplace]
        by_cases hlt : lt item x = true
        · obtain ⟨l1, e1, p1⟩ := ihl n hl
          have hl1 : LL l1 n ∨ (isRed l1 = true ∧ LL (blacken l1) (n + 1)) := by
            by_cases c : isRed l = true
            · simp only [c, if_true] at p1; exact Or.inr p1
            · simp only [c] at p1; exact Or.inl (by simpa using p1)
          obtain ⟨h', e, p⟩ := walkUp_black_left (x := x) hl1 hr hrb
          exact ⟨h', by simp [hlt, e1, e], by simpa using p⟩
        · obtain ⟨r1, e1, p1⟩ := ihr n hr
          simp only [hrb] at p1
          obtain ⟨h', e, p⟩ := walkUp_black_right (x := x) hl (by simpa using p1)
          exact ⟨h', by simp [hlt, e1, e], by simpa using p⟩

/-- After `InsertNoReplace` the blackened root is a valid tree again. -/
theorem insertNoReplace_root (lt : α → α → Bool) (item : α) (h : Node α) (n : Nat)
    (hn : LL h n) (hb : isRed h = false) :
    ∃ h' m, insertNoReplace lt h item = .ok h' ∧ LL (blacken h') m ∧ isRed (blacken h') = false := by
  obtain ⟨h', e, p⟩ := insertNoReplace_LL lt item h n hn
  simp only [hb] at p
  refine ⟨h', ?_⟩
  rcases h' with _ | ⟨y, l, r, b⟩
  · exact ⟨0, e, by simp, by simp⟩
  · cases b
    · exact ⟨n + 1, e, by simp_all, by simp⟩
    · exact ⟨n, e, by simpa using p, by simp⟩

/-- Insertion never panics, whatever the tree. -/
theorem insertNoReplace_ok (lt : α → α → Bool) (item : α) (h : Node α) :
    ∃ h', insertNoReplace lt h item = .ok h' := by
  induction h with
  | nil => exact ⟨_, rfl⟩
  | node x l r b ihl ihr =>
    simp only [insertNoReplace]
    by_cases hlt : lt item x = true
    · obtain ⟨l1, e1⟩ := ihl
      obtain ⟨h', e⟩ := walkUpRot23_ok x l1 r b
      exact ⟨h', by simp [hlt, e1, e]⟩
    · obtain ⟨r1, e1⟩ := ihr
      obtain ⟨h', e⟩ := walkUpRot23_ok x l r1 b
      exact ⟨h', by simp [hlt, e1, e]⟩

/-- The in-order sequence after an insertion: the item is put at one place of the old
sequence; in a sorted tree, after every item not greater and before every greater item. -/
theorem insertNoReplace_split (key : α → Int) (item : α) :
    ∀ (h h' : Node α), insertNoReplace (fun a b => decide (key a < key b)) h item = .ok h' →
      ∃ l1 l2, toList h = l1 ++ l2 ∧ toList h' = l1 ++ item :: l2 ∧
        (Sorted key h → (∀ y ∈ l1, key y ≤ key item) ∧ (∀ y ∈ l2, key item < key y)) := by
  intro h
  induction h with
  | nil =>
    intro h' e
    simp only [insertNoReplace, Except.ok.injEq] at e
    subst e
    exact ⟨[], [], by simp [toList]⟩
  | node x l r b ihl ihr =>
    intro h' e
    simp only [insertNoReplace] at e
    by_cases hlt : key item < key x
    · have hd : decide (key item < key x) = true := by simpa using hlt
      simp only [hd, ↓reduceIte] at e
      split at e
      · simp at e
      · rename_i l1 e1
        obtain ⟨a1, a2, s1, s2, s3⟩ := ihl l1 e1
        refine ⟨a1, a2 ++ x :: toList r, by simp [toList, s1], ?_, ?_⟩
        · rw [walkUpRot23_toList e]; simp [toList, s2]
        · intro hs
          have hs' : (toList l ++ x :: toList r).Pairwise (fun a b => key a ≤ key b) := hs
          rw [List.pairwise_append] at hs'
          obtain ⟨pl, pr, plr⟩ := hs'
          obtain ⟨q1, q2⟩ := s3 pl
          refine ⟨q1, ?_⟩
          intro y hy
          rcases List.mem_append.1 hy with hy | hy
          · exact q2 y hy
          · rcases List.mem_cons.1 hy with hy | hy
            · subst hy; exact hlt
            · have := (List.pairwise_cons.1 pr).1 y hy
              omega
    · have hd : decide (key item < key x) = false := by simpa using hlt
      simp only [hd, Bool.false_eq_true, ↓reduceIte] at e
      split at e
      · simp at e
      · rename_i r1 e1
        obtain ⟨a1, a2, s1, s2, s3⟩ := ihr r1 e1
        refine ⟨toList l ++ x :: a1, a2, by simp [toList, s1], ?_, ?_⟩
        · rw [walkUpRot23_toList e]; simp [toList, s2]
        · intro hs
          have hs' : (toList l ++ x :: toList r).Pairwise (fun a b => key a ≤ key b) := hs
          rw [List.pairwise_append] at hs'
          obtain ⟨pl, pr, plr⟩ := hs'
          obtain ⟨q1, q2⟩ := s3 (List.pairwise_cons.1 pr).2
          refine ⟨?_, q2⟩
          intro y hy
          rcases List.mem_append.1 hy with hy | hy
          · have := plr y hy x (List.mem_cons_self _ _)
            omega
          · rcases List.mem_cons.1 hy with hy | hy
            · subst hy; omega
            · exact q1 y hy

end Node
end ItemManager

namespace ItemManager
namespace Node
variable {α : Type}

theorem toList_node (x : α) (l r : Node α) (b : Bool) :
    toList (node x l r b) = toList l ++ x :: toList r := rfl

theorem fixUp_id {x : α} {l r : Node α} {b : Bool} (hr : isRed r = false)
    (hl : isRed l = true → isRed (left l) = false) :
    fixUp (node x l r b) = .ok (node x l r b) := by
  rcases l with _ | ⟨y, ll, lr, lb⟩
  · simp_all [fixUp, left, right]
  · cases lb <;> simp_all [fixUp, left, right]

theorem LL_red_left_black {l : Node α} {n : Nat} (h : LL l n) (hr : isRed l = true) :
    isRed (left l) = false := by
  rcases l with _ | ⟨y, ll, lr, lb⟩
  · rfl
  · cases lb <;> simp_all [left]

theorem LL_zero_black {r : Node α} (h : LL r 0) (hr : isRed r = false) : r = nil := by
  rcases r with _ | ⟨y, ll, lr, lb⟩
  · rfl
  · cases lb <;> simp_all

/-- Operation `fixUp` on a black node whose right child is a red node with black children. -/
theorem fixUp_black_redRight {x z : α} {l rl rr : Node α} {k : Nat} (hl : LL l k)
    (hrl : LL rl k) (hrr : LL rr k) (brl : isRed rl = false) (brr : isRed rr = false) :
    ∃ h2, fixUp (node x l (node z rl rr false) true) = .ok h2 ∧ LL h2 (k + 1) := by
  rcases l with _ | ⟨y, ll, lr, lb⟩ <;> (try rcases ll with _ | ⟨u, lll, llr, llb⟩)
  all_goals (try cases lb) <;> (try cases llb) <;>
    (try simp_all [fixUp, left, right, rotateLeft, rotateRight, flip]) <;>
    (try (obtain ⟨rfl, _⟩ := hl; simp_all))

/-- Operation `moveRedLeft` on a red node whose left child is a black 2-node. -/
theorem moveRedLeft_red {x y : α} {ll lr r : Node α} {k : Nat}
    (hv : LL (node x (node y ll lr true) r false) (k + 1)) (hll : isRed ll = false) :
    ∃ h1, moveRedLeft (node x (node y ll lr true) r false) = .ok h1 ∧
      ((isRed h1 = true ∧ LL (left h1) (k + 1) ∧ isRed (left h1) = false ∧
          isRed (left (left h1)) = true ∧ LL (right h1) (k + 1) ∧ isRed (right h1) = false) ∨
       (isRed h1 = false ∧ LL (left h1) k ∧ isRed (left h1) = true ∧
          LL (right h1) k ∧ isRed (right h1) = true)) := by
  rcases r with _ | ⟨z, rl, rr, rb⟩
  · simp_all
  · rcases rl with _ | ⟨w, rll, rlr, rlb⟩
    · cases rb <;> simp_all [moveRedLeft, flip, left, right, rotateLeft, rotateRight]
      obtain ⟨⟨h1, h2, h3⟩, rfl, h4, h5⟩ := hv
      simp_all
    · cases rb <;> cases rlb <;> simp_all [moveRedLeft, flip, left, right, rotateLeft, rotateRight]

/-- Operation `deleteMin` below the root: on a red node, and on a black node with a red left child, it
returns the first item and a valid tree of the same black height. -/
theorem deleteMin_LL : ∀ (fuel : Nat) (h : Node α) (n : Nat), size h < fuel → LL h n →
    (isRed h = true → ∃ h' d, deleteMin fuel h = .ok (h', some d) ∧ LL h' n ∧
        toList h = d :: toList h') ∧
    (isRed h = false → isRed (left h) = true → ∃ h' d, deleteMin fuel h = .ok (h', some d) ∧
        LL h' n ∧ isRed h' = false ∧ toList h = d :: toList h') := by
  intro fuel
  induction fuel with
  | zero => intro h n hs; omega
  | succ fuel ih =>
    intro h n hs hv
    rcases h with _ | ⟨x, l, r, b⟩
    · simp [left]
    · rcases l with _ | ⟨y, ll, lr, lb⟩
      · -- no left child
        cases b
        · simp only [LL_red, LL_nil] at hv
          obtain ⟨rfl, hr, -, hrb⟩ := hv
          have := LL_zero_black hr hrb
          subst this
          refine ⟨fun _ => ⟨nil, x, ?_, by simp, by simp [toList]⟩, by simp⟩
          simp [deleteMin]
        · simp [left]
      · cases b
        · -- red node, black left child
          refine ⟨fun _ => ?_, by simp⟩
          have hlb : lb = true := by simp only [LL_red] at hv; simpa using hv.2.2.1
          subst hlb
          cases n with
          | zero => simp at hv
          | succ k =>
            by_cases hll : isRed ll = true
            · -- the left child is a 3-node
              have hv' := hv
              simp only [LL_red] at hv'
              obtain ⟨hl, hr, -, hrb⟩ := hv'
              have hsl : size (node y ll lr true) < fuel := by simp [size] at hs ⊢; omega
              obtain ⟨l2, d, e, v2, b2, t2⟩ :=
                (ih _ _ hsl hl).2 (by simp) (by simpa [left] using hll)
              have fx : fixUp (node x l2 r false) = .ok (node x l2 r false) :=
                fixUp_id hrb (fun h => by rw [b2] at h; cases h)
              refine ⟨node x l2 r false, d, ?_, ?_, ?_⟩
              · simp only [deleteMin]
                simp [hll, e, fx]
              · simp [v2, hr, b2, hrb]
              · rw [toList_node, t2, toList_node]; simp
            · have hll' : isRed ll = false := by simpa using hll
              obtain ⟨h1, e1, c⟩ := moveRedLeft_red hv hll'
              have hne : h1 ≠ nil := by
                rintro rfl
                rcases c with c | c <;> simp [left] at c
              obtain ⟨x1, l1, r1, b1, rfl⟩ : ∃ x1 l1 r1 b1, h1 = node x1 l1 r1 b1 := by
                rcases h1 with _ | ⟨x1, l1, r1, b1⟩
                · exact absurd rfl hne
                · exact ⟨_, _, _, _, rfl⟩
              simp only [left, right, isRed_node] at c
              have ht := moveRedLeft_toList e1
              have hsz : size (node x1 l1 r1 b1) = size (node x (node y ll lr true) r false) := by
                rw [size_eq_length, size_eq_length, ht]
              have hsl : size l1 < fuel := by simp [size] at hs hsz ⊢; omega
              rcases c with ⟨hb1, v1, bl1, rl1, vr1, br1⟩ | ⟨hb1, v1, rl1, vr1, rr1⟩
              · have hb1' : b1 = false := by simpa using hb1
                subst hb1'
                obtain ⟨l2, d, e, v2, b2, t2⟩ := (ih _ _ hsl v1).2 bl1 rl1
                have fx : fixUp (node x1 l2 r1 false) = .ok (node x1 l2 r1 false) :=
                  fixUp_id br1 (fun h => by rw [b2] at h; cases h)
                refine ⟨node x1 l2 r1 false, d, ?_, ?_, ?_⟩
                · simp only [deleteMin]
                  simp [hll', e1, e, fx]
                · simp [v2, vr1, b2, br1]
                · rw [← ht, toList_node, t2, toList_node]; simp
              · have hb1' : b1 = true := by simpa using hb1
                subst hb1'
                obtain ⟨z, rl, rr, rfl⟩ : ∃ z rl rr, r1 = node z rl rr false := by
                  rcases r1 with _ | ⟨z, rl, rr, rb⟩
                  · simp at rr1
                  · cases rb
                    · exact ⟨_, _, _, rfl⟩
                    · simp at rr1
                simp only [LL_red] at vr1
                obtain ⟨vrl, vrr, brl, brr⟩ := vr1
                obtain ⟨l2, d, e, v2, t2⟩ := (ih _ _ hsl v1).1 rl1
                obtain ⟨h2, e2, v3⟩ := fixUp_black_redRight (x := x1) (z := z) v2 vrl vrr brl brr
                refine ⟨h2, d, ?_, v3, ?_⟩
                · simp only [deleteMin]
                  simp [hll', e1, e, e2]
                · rw [fixUp_toList e2, ← ht, toList_node, t2, toList_node x1 l2]; simp
        · -- black node
          refine ⟨by simp, fun _ hl => ?_⟩
          have hlb : lb = false := by simpa [left] using hl
          subst hlb
          cases n with
          | zero => simp at hv
          | succ k =>
            simp only [LL_black_succ] at hv
            obtain ⟨hl, hr, hrb⟩ := hv
            have hsl : size (node y ll lr false) < fuel := by simp [size] at hs ⊢; omega
            obtain ⟨l2, d, e, v2, t2⟩ := (ih _ _ hsl hl).1 (by simp)
            have fx : fixUp (node x l2 r true) = .ok (node x l2 r true) :=
              fixUp_id hrb (fun h => LL_red_left_black v2 h)
            refine ⟨node x l2 r true, d, ?_, ?_, by simp, ?_⟩
            · simp only [deleteMin]
              simp [e, fx]
            · simp [v2, hr, hrb]
            · rw [toList_node, t2, toList_node]; simp

end Node
end ItemManager

namespace ItemManager
namespace Node
variable {α : Type}

/-- Operation `fixUp` on a red node whose right child is a red node with black children (the root
after `moveRedLeft`). -/
theorem fixUp_red_redRight {x z : α} {l rl rr : Node α} {k : Nat} (hl : LL l k)
    (hrl : LL rl k) (hrr : LL rr k) (brl : isRed rl = false) (brr : isRed rr = false) :
    ∃ h2, fixUp (node x l (node z rl rr false) false) = .ok h2 ∧
      (LL (blacken h2) (k + 1) ∨ LL (blacken h2) (k + 2)) := by
  rcases l with _ | ⟨y, ll, lr, lb⟩ <;> (try rcases ll with _ | ⟨u, lll, llr, llb⟩)
  all_goals (try cases lb) <;> (try cases llb) <;>
    (try simp_all [fixUp, left, right, rotateLeft, rotateRight, flip]) <;>
    (try (obtain ⟨rfl, _⟩ := hl; simp_all))

/-- Operation `moveRedLeft` on a black root whose left child is a black 2-node. -/
theorem moveRedLeft_black {x y : α} {ll lr r : Node α} {k : Nat}
    (hv : LL (node x (node y ll lr true) r true) (k + 2)) (hll : isRed ll = false) :
    ∃ h1, moveRedLeft (node x (node y ll lr true) r true) = .ok h1 ∧
      ((isRed h1 = false ∧ h1 ≠ nil ∧ LL (left h1) (k + 1) ∧ isRed (left h1) = false ∧
          isRed (left (left h1)) = true ∧ LL (right h1) (k + 1) ∧ isRed (right h1) = false) ∨
       (isRed h1 = true ∧ LL (left h1) k ∧ isRed (left h1) = true ∧
          LL (right h1) k ∧ isRed (right h1) = true)) := by
  rcases r with _ | ⟨z, rl, rr, rb⟩
  · simp_all
  · rcases rl with _ | ⟨w, rll, rlr, rlb⟩
    · cases rb <;> simp_all [moveRedLeft, flip, left, right, rotateLeft, rotateRight]
      obtain ⟨⟨h1, h2, h3⟩, rfl, h4, h5⟩ := hv
      simp_all
    · cases rb <;> cases rlb <;> simp_all [moveRedLeft, flip, left, right, rotateLeft, rotateRight]

theorem exists_node_of_ne_nil {h : Node α} (hne : h ≠ nil) :
    ∃ x l r b, h = node x l r b := by
  rcases h with _ | ⟨x, l, r, b⟩
  · exact absurd rfl hne
  · exact ⟨_, _, _, _, rfl⟩

theorem exists_red_node {r : Node α} (h : isRed r = true) : ∃ z rl rr, r = node z rl rr false := by
  rcases r with _ | ⟨z, rl, rr, rb⟩
  · simp at h
  · cases rb
    · exact ⟨_, _, _, rfl⟩
    · simp at h

theorem size_moveRedLeft {h h' : Node α} (e : moveRedLeft h = .ok h') : size h' = size h := by
  rw [size_eq_length, size_eq_length, moveRedLeft_toList e]

/-- Operation `deleteMin` at a black root: the first item comes out and the blackened result is a
valid tree. -/
theorem deleteMin_root (fuel : Nat) (h : Node α) (n : Nat) (hs : size h < fuel) (hv : LL h n)
    (hb : isRed h = false) (hne : h ≠ nil) :
    ∃ h' d m, deleteMin fuel h = .ok (h', some d) ∧ LL (blacken h') m ∧
      toList h = d :: toList h' := by
  obtain ⟨x, l, r, b, rfl⟩ := exists_node_of_ne_nil hne
  have hbt : b = true := by simpa using hb
  subst hbt
  by_cases hlr : isRed l = true
  · obtain ⟨h', d, e, v, b', t⟩ := (deleteMin_LL fuel _ n hs hv).2 hb (by simpa [left] using hlr)
    refine ⟨h', d, n, e, ?_, t⟩
    rcases h' with _ | ⟨x', l', r', c'⟩
    · simpa using v
    · have : c' = true := by simpa using b'
      subst this; simpa using v
  · have hlb : isRed l = false := by simpa using hlr
    cases fuel with
    | zero => omega
    | succ fuel =>
      cases n with
      | zero => simp at hv
      | succ j =>
        simp only [LL_black_succ] at hv
        obtain ⟨hl, hr, hrb⟩ := hv
        rcases l with _ | ⟨y, ll, lr, lb⟩
        · simp only [LL_nil] at hl
          subst hl
          have := LL_zero_black hr hrb
          subst this
          exact ⟨nil, x, 0, by simp [deleteMin], by simp, by simp [toList]⟩
        · have hlbt : lb = true := by simpa using hlb
          subst hlbt
          cases j with
          | zero => simp at hl
          | succ k =>
            by_cases hll : isRed ll = true
            · have hsl : size (node y ll lr true) < fuel := by simp [size] at hs ⊢; omega
              obtain ⟨l2, d, e, v2, b2, t2⟩ :=
                (deleteMin_LL fuel _ _ hsl hl).2 (by simp) (by simpa [left] using hll)
              have fx : fixUp (node x l2 r true) = .ok (node x l2 r true) :=
                fixUp_id hrb (fun h => by rw [b2] at h; cases h)
              refine ⟨node x l2 r true, d, k + 2, ?_, ?_, ?_⟩
              · simp only [deleteMin]
                simp [hll, e, fx]
              · simp [v2, hr, hrb]
              · rw [toList_node, t2, toList_node]; simp
            · have hll' : isRed ll = false := by simpa using hll
              have hv : LL (node x (node y ll lr true) r true) (k + 2) := by
                simp only [LL_black_succ]; exact ⟨by simpa using hl, hr, hrb⟩
              obtain ⟨h1, e1, c⟩ := moveRedLeft_black hv hll'
              have hne1 : h1 ≠ nil := by
                rintro rfl
                rcases c with c | c <;> simp [left] at c
              obtain ⟨x1, l1, r1, b1, rfl⟩ := exists_node_of_ne_nil hne1
              simp only [left, right, isRed_node] at c
              have ht := moveRedLeft_toList e1
              have hsz := size_moveRedLeft e1
              have hsl : size l1 < fuel := by simp [size] at hs hsz ⊢; omega
              rcases c with ⟨hb1, -, v1, bl1, rl1, vr1, br1⟩ | ⟨hb1, v1, rl1, vr1, rr1⟩
              · have hb1' : b1 = true := by simpa using hb1
                subst hb1'
                obtain ⟨l2, d, e, v2, b2, t2⟩ := (deleteMin_LL fuel _ _ hsl v1).2 bl1 rl1
                have fx : fixUp (node x1 l2 r1 true) = .ok (node x1 l2 r1 true) :=
                  fixUp_id br1 (fun h => by rw [b2] at h; cases h)
                refine ⟨node x1 l2 r1 true, d, k + 2, ?_, ?_, ?_⟩
                · simp only [deleteMin]
                  simp [hll', e1, e, fx]
                · simp [v2, vr1, br1]
                · rw [← ht, toList_node, t2, toList_node]; simp
              · have hb1' : b1 = false := by simpa using hb1
                subst hb1'
                obtain ⟨z, rl, rr, rfl⟩ := exists_red_node rr1
                simp only [LL_red] at vr1
                obtain ⟨vrl, vrr, brl, brr⟩ := vr1
                obtain ⟨l2, d, e, v2, t2⟩ := (deleteMin_LL fuel _ _ hsl v1).1 rl1
                obtain ⟨h2, e2, v3⟩ := fixUp_red_redRight (x := x1) (z := z) v2 vrl vrr brl brr
                have e' : deleteMin (fuel + 1) (node x (node y ll lr true) r true) =
                    .ok (h2, some d) := by
                  simp only [deleteMin]
                  simp [hll', e1, e, e2]
                have t' : toList (node x (node y ll lr true) r true) = d :: toList h2 := by
                  rw [fixUp_toList e2, ← ht, toList_node, t2, toList_node x1 l2]; simp
                rcases v3 with v3 | v3
                · exact ⟨h2, d, k + 1, e', v3, t'⟩
                · exact ⟨h2, d, k + 2, e', v3, t'⟩

theorem isRed_blacken (h : Node α) : isRed (blacken h) = false := by
  rcases h with _ | ⟨x, l, r, b⟩ <;> simp

theorem toList_blacken (h : Node α) : toList (blacken h) = toList h := by
  rcases h with _ | ⟨x, l, r, b⟩ <;> simp [toList]

theorem size_blacken (h : Node α) : size (blacken h) = size h := by
  rcases h with _ | ⟨x, l, r, b⟩ <;> simp [size]

end Node
end ItemManager

namespace ItemManager
namespace Node
variable {α : Type}

theorem size_left_lt {h : Node α} (hne : h ≠ nil) : size (left h) < size h := by
  rcases h with _ | ⟨x, l, r, b⟩
  · exact absurd rfl hne
  · simp [left, size]; omega

theorem size_right_lt {h : Node α} (hne : h ≠ nil) : size (right h) < size h := by
  rcases h with _ | ⟨x, l, r, b⟩
  · exact absurd rfl hne
  · simp [right, size]; omega

theorem size_moveRedRight {h h' : Node α} (e : moveRedRight h = .ok h') : size h' = size h := by
  rw [size_eq_length, size_eq_length, moveRedRight_toList e]

theorem size_rotateRight {h h' : Node α} (e : rotateRight h = .ok h') : size h' = size h := by
  rw [size_eq_length, size_eq_length, rotateRight_toList e]

/-- Operation `moveRedLeft` on a node of either colour with black children, the left one a 2-node. -/
theorem moveRedLeft_any {x y : α} {ll lr r : Node α} {k : Nat} (b : Bool)
    (hl : LL (node y ll lr true) (k + 1)) (hll : isRed ll = false)
    (hr : LL r (k + 1)) (hrb : isRed r = false) :
    ∃ h1, moveRedLeft (node x (node y ll lr true) r b) = .ok h1 ∧ h1 ≠ nil ∧
      ((LL (left h1) (k + 1) ∧ isRed (left h1) = false ∧ isRed (left (left h1)) = true) ∨
       (LL (left h1) k ∧ isRed (left h1) = true)) := by
  rcases r with _ | ⟨z, rl, rr, rb⟩
  · simp_all
  · rcases rl with _ | ⟨w, rll, rlr, rlb⟩
    · cases rb <;> simp_all [moveRedLeft, flip, left, right, rotateLeft, rotateRight]
    · cases rb <;> cases rlb <;> simp_all [moveRedLeft, flip, left, right, rotateLeft, rotateRight]

/-- Operation `moveRedRight` on a node of either colour with black children, the right one a 2-node. -/
theorem moveRedRight_any {x z : α} {l rl rr : Node α} {k : Nat} (b : Bool)
    (hl : LL l (k + 1)) (hlb : isRed l = false)
    (hr : LL (node z rl rr true) (k + 1)) (hrl : isRed rl = false) :
    ∃ h2, moveRedRight (node x l (node z rl rr true) b) = .ok h2 ∧ h2 ≠ nil ∧
      ((LL (right h2) k ∧ isRed (right h2) = true) ∨
       (∃ lr, right h2 = node x lr (node z rl rr false) true ∧ LL lr k ∧ isRed lr = false ∧
          LL (node z rl rr false) k)) := by
  rcases l with _ | ⟨y, ll, lr, lb⟩
  · simp_all
  · rcases ll with _ | ⟨u, lll, llr, llb⟩
    · cases lb <;> simp_all [moveRedRight, flip, left, right, rotateLeft, rotateRight]
    · cases lb <;> cases llb <;> simp_all [moveRedRight, flip, left, right, rotateLeft, rotateRight]

/-- Operation `deleteMin` on a black node with a black left child and a red right child (the shape
`moveRedRight` leaves on the right) does not panic. -/
theorem deleteMin_blackRedRight (fuel : Nat) {x z : α} {l rl rr : Node α} {k : Nat}
    (hs : size (node x l (node z rl rr false) true) < fuel)
    (hl : LL l k) (hlb : isRed l = false) (hr : LL (node z rl rr false) k) :
    ∃ h' d, deleteMin fuel (node x l (node z rl rr false) true) = .ok (h', some d) := by
  cases fuel with
  | zero => omega
  | succ fuel =>
    rcases l with _ | ⟨y, ll, lr, lb⟩
    · exact ⟨nil, x, by simp [deleteMin]⟩
    · have hlbt : lb = true := by simpa using hlb
      subst hlbt
      cases k with
      | zero => simp at hl
      | succ j =>
        by_cases hll : isRed ll = true
        · have hsl : size (node y ll lr true) < fuel := by simp [size] at hs ⊢; omega
          obtain ⟨l2, d, e, -⟩ :=
            (deleteMin_LL fuel _ _ hsl hl).2 (by simp) (by simpa [left] using hll)
          obtain ⟨h2, e2⟩ := fixUp_ok x l2 (node z rl rr false) true
          refine ⟨h2, d, ?_⟩
          simp only [deleteMin]
          simp [hll, e, e2]
        · have hll' : isRed ll = false := by simpa using hll
          have hl' : LL (node y ll lr false) j := by
            simp only [LL_black_succ] at hl
            simp only [LL_red]
            exact ⟨hl.1, hl.2.1, hll', hl.2.2⟩
          have hsl : size (node y ll lr false) < fuel := by simp [size] at hs ⊢; omega
          obtain ⟨l2, d, e, -⟩ := (deleteMin_LL fuel _ _ hsl hl').1 (by simp)
          obtain ⟨h2, e2⟩ := fixUp_ok x l2 (node z rl rr true) false
          have hrl : isRed rl = false := by simp only [LL_red] at hr; exact hr.2.2.1
          refine ⟨h2, d, ?_⟩
          simp only [deleteMin]
          simp [hll', moveRedLeft, flip, left, hrl, e, e2]

end Node
end ItemManager

namespace ItemManager
namespace Node
variable {α : Type}

/-- Operation `deleteMin` returns an item on every valid non-empty tree. -/
theorem deleteMin_valid_ok (fuel : Nat) (h : Node α) (n : Nat) (hs : size h < fuel)
    (hv : LL h n) (hne : h ≠ nil) : ∃ h' d, deleteMin fuel h = .ok (h', some d) := by
  by_cases hr : isRed h = true
  · obtain ⟨h', d, e, -⟩ := (deleteMin_LL fuel h n hs hv).1 hr
    exact ⟨h', d, e⟩
  · obtain ⟨h', d, m, e, -⟩ := deleteMin_root fuel h n hs hv (by simpa using hr) hne
    exact ⟨h', d, e⟩

theorem LL_children {x : α} {l r : Node α} {b : Bool} {n : Nat} (hv : LL (node x l r b) n) :
    ∃ k, LL l k ∧ LL r k ∧ isRed r = false ∧ (isRed l = true → b = true) := by
  cases b
  · simp only [LL_red] at hv
    exact ⟨n, hv.1, hv.2.1, hv.2.2.2, fun h => by rw [hv.2.2.1] at h; cases h⟩
  · cases n with
    | zero => simp at hv
    | succ k =>
      simp only [LL_black_succ] at hv
      exact ⟨k, hv.1, hv.2.1, hv.2.2, fun _ => rfl⟩

theorem LL_black_node_pos {y : α} {ll lr : Node α} {k : Nat} (h : LL (node y ll lr true) k) :
    ∃ j, k = j + 1 := by
  cases k with
  | zero => simp at h
  | succ j => exact ⟨j, rfl⟩

/-- Operation `Delete` never panics on a valid tree, whatever the comparison answers; nor on the shape
`moveRedRight` leaves on the right of a node the key is not less than. -/
theorem delete_total (lt : α → α → Bool) (item : α) : ∀ (fuel : Nat) (h : Node α),
    size h < fuel →
    ((∃ n, LL h n) ∨
      (∃ x l z rl rr k, h = node x l (node z rl rr false) true ∧ LL l k ∧ isRed l = false ∧
        LL (node z rl rr false) k ∧ lt item x = false)) →
    ∃ res, delete lt fuel h item = .ok res := by
  intro fuel
  induction fuel with
  | zero => intro h hs; omega
  | succ fuel ih =>
    intro h hs hp
    rcases h with _ | ⟨x, l, r, b⟩
    · exact ⟨_, rfl⟩
    · -- facts shared by both shapes
      have hkids : ∃ k, LL l k ∧ LL r k ∧ (isRed r = false ∨ lt item x = false) ∧
          (isRed l = true → b = true ∧ isRed r = false) := by
        rcases hp with ⟨n, hv⟩ | ⟨x', l', z, rl, rr, k, e, hl, hlb, hr, hlt⟩
        · obtain ⟨k, h1, h2, h3, h4⟩ := LL_children hv
          exact ⟨k, h1, h2, Or.inl h3, fun h => ⟨h4 h, h3⟩⟩
        · cases e
          exact ⟨k, hl, hr, Or.inr hlt, fun h => by rw [hlb] at h; cases h⟩
      obtain ⟨k, hl, hr, hrx, hlr⟩ := hkids
      by_cases hlt : lt item x = true
      · -- the key is less: go left
        have hrb : isRed r = false := by
          rcases hrx with h | h
          · exact h
          · rw [hlt] at h; cases h
        rcases l with _ | ⟨y, ll, lr, lb⟩
        · exact ⟨(node x nil r b, none), by simp [delete, hlt]⟩
        · by_cases c : lb = true ∧ isRed ll = false
          · obtain ⟨hlbt, hll⟩ := c
            subst hlbt
            obtain ⟨j, rfl⟩ := LL_black_node_pos hl
            obtain ⟨h1, e1, hne1, c1⟩ := moveRedLeft_any (x := x) b hl hll hr hrb
            obtain ⟨x1, l1, r1, b1, rfl⟩ := exists_node_of_ne_nil hne1
            have hsz := size_moveRedLeft e1
            have hsl : size l1 < fuel := by simp [size] at hs hsz ⊢; omega
            have hv1 : ∃ n, LL l1 n := by
              rcases c1 with c1 | c1
              · exact ⟨_, c1.1⟩
              · exact ⟨_, c1.1⟩
            obtain ⟨⟨l2, d⟩, e2⟩ := ih l1 hsl (Or.inl hv1)
            obtain ⟨h3, e3⟩ := fixUp_ok x1 l2 r1 b1
            refine ⟨(h3, d), ?_⟩
            simp only [delete]
            simp [hlt, hll, e1, e2, e3]
          · have hsl : size (node y ll lr lb) < fuel := by simp [size] at hs ⊢; omega
            obtain ⟨⟨l2, d⟩, e2⟩ := ih _ hsl (Or.inl ⟨k, hl⟩)
            obtain ⟨h3, e3⟩ := fixUp_ok x l2 r b
            refine ⟨(h3, d), ?_⟩
            simp only [delete]
            simp [hlt, c, e2, e3]
      · -- the key is not less
        have hlt' : lt item x = false := by simpa using hlt
        by_cases hlred : isRed l = true
        · -- rotate the red left child up
          obtain ⟨y, ll, lr, rfl⟩ := exists_red_node hlred
          obtain ⟨hb, hrb⟩ := hlr hlred
          subst hb
          simp only [LL_red] at hl
          obtain ⟨vll, vlr, bll, blr⟩ := hl
          have vr1 : LL (node x lr r false) k := by simp [vlr, hr, blr, hrb]
          have hs1 : size (node x lr r false) < fuel := by simp [size] at hs ⊢; omega
          by_cases heq : lt y item = true
          · obtain ⟨⟨r3, d⟩, e2⟩ := ih _ hs1 (Or.inl ⟨k, vr1⟩)
            obtain ⟨h3, e3⟩ := fixUp_ok y ll r3 true
            refine ⟨(h3, d), ?_⟩
            simp only [delete]
            simp [hlt', rotateRight, heq, e2, e3]
          · obtain ⟨r3, sub, e2, -⟩ := (deleteMin_LL fuel _ _ hs1 vr1).1 (by simp)
            obtain ⟨h3, e3⟩ := fixUp_ok sub ll r3 true
            refine ⟨(h3, some y), ?_⟩
            simp only [delete]
            simp [hlt', rotateRight, heq, e2, e3]
        · have hlb : isRed l = false := by simpa using hlred
          rcases r with _ | ⟨z, rl, rr, rb⟩
          · by_cases heq : lt x item = true
            · cases fuel with
              | zero => simp [size] at hs
              | succ fuel =>
                obtain ⟨h3, e3⟩ := fixUp_ok x l (nil : Node α) b
                refine ⟨(h3, none), ?_⟩
                simp only [delete]
                simp [hlt', hlb, heq, e3]
            · refine ⟨(nil, some x), ?_⟩
              simp only [delete]
              simp [hlt', hlb, heq]
          · by_cases c : rb = true ∧ isRed rl = false
            · obtain ⟨hrbt, hrl⟩ := c
              subst hrbt
              obtain ⟨j, rfl⟩ := LL_black_node_pos hr
              obtain ⟨h2, e1, hne2, c2⟩ := moveRedRight_any (x := x) b hl hlb hr hrl
              obtain ⟨x2, l2, r2, b2, rfl⟩ := exists_node_of_ne_nil hne2
              have hsz := size_moveRedRight e1
              have hsr : size r2 < fuel := by simp [size] at hs hsz ⊢; omega
              simp only [right] at c2
              by_cases heq : lt x2 item = true
              · have hp2 : (∃ n, LL r2 n) ∨
                    (∃ x l z rl rr k, r2 = node x l (node z rl rr false) true ∧ LL l k ∧
                      isRed l = false ∧ LL (node z rl rr false) k ∧ lt item x = false) := by
                  rcases c2 with c2 | ⟨lr', e, v1, v2, v3⟩
                  · exact Or.inl ⟨_, c2.1⟩
                  · exact Or.inr ⟨x, lr', z, rl, rr, j, e, v1, v2, v3, hlt'⟩
                obtain ⟨⟨r3, d⟩, e2⟩ := ih r2 hsr hp2
                obtain ⟨h3, e3⟩ := fixUp_ok x2 l2 r3 b2
                refine ⟨(h3, d), ?_⟩
                simp only [delete]
                simp [hlt', hlb, hrl, e1, heq, e2, e3]
              · have hdm : ∃ r3 sub, deleteMin fuel r2 = .ok (r3, some sub) := by
                  rcases c2 with c2 | ⟨lr', e, v1, v2, v3⟩
                  · obtain ⟨r3, sub, e2, -⟩ := (deleteMin_LL fuel _ _ hsr c2.1).1 c2.2
                    exact ⟨r3, sub, e2⟩
                  · subst e
                    exact deleteMin_blackRedRight fuel hsr v1 v2 v3
                obtain ⟨r3, sub, e2⟩ := hdm
                obtain ⟨h3, e3⟩ := fixUp_ok sub l2 r3 b2
                refine ⟨(h3, some x2), ?_⟩
                simp only [delete]
                simp [hlt', hlb, hrl, e1, heq, e2, e3]
            · have hsr : size (node z rl rr rb) < fuel := by simp [size] at hs ⊢; omega
              by_cases heq : lt x item = true
              · obtain ⟨⟨r3, d⟩, e2⟩ := ih _ hsr (Or.inl ⟨k, hr⟩)
                obtain ⟨h3, e3⟩ := fixUp_ok x l r3 b
                refine ⟨(h3, d), ?_⟩
                simp only [delete]
                simp [hlt', hlb, c, heq, e2, e3]
              · obtain ⟨r3, sub, e2⟩ := deleteMin_valid_ok fuel _ k hsr hr (by simp)
                obtain ⟨h3, e3⟩ := fixUp_ok sub l r3 b
                refine ⟨(h3, some x), ?_⟩
                simp only [delete]
                simp [hlt', hlb, c, heq, e2, e3]

end Node
end ItemManager

namespace ItemManager
namespace Node
variable {α : Type}

/-- Whatever the tree, the item `deleteMin` returns is the first one, and the items of the
result are among the others. -/
theorem deleteMin_list : ∀ (fuel : Nat) (h h' : Node α) (z : α),
    deleteMin fuel h = .ok (h', some z) →
    ∃ rest, toList h = z :: rest ∧ (toList h').Sublist rest := by
  intro fuel
  induction fuel with
  | zero => intro h h' d e; simp [deleteMin] at e
  | succ fuel ih =>
    intro h h' z e
    rcases h with _ | ⟨x, l, r, b⟩
    · simp [deleteMin] at e
    · rcases l with _ | ⟨y, ll, lr, lb⟩
      · simp only [deleteMin, Except.ok.injEq, Prod.mk.injEq, Option.some.injEq] at e
        obtain ⟨rfl, rfl⟩ := e
        exact ⟨toList r, by simp [toList], by simp [toList]⟩
      · simp only [deleteMin] at e
        split at e
        · simp at e
        · simp at e
        · rename_i x1 l1 r1 b1 e1
          have t1 : toList (node x1 l1 r1 b1) = toList (node x (node y ll lr lb) r b) := by
            split at e1
            · exact moveRedLeft_toList e1
            · cases e1; rfl
          split at e
          · simp at e
          · rename_i l2 deleted e2
            split at e
            · simp at e
            · rename_i h2 e3
              simp only [Except.ok.injEq, Prod.mk.injEq] at e
              obtain ⟨rfl, rfl⟩ := e
              obtain ⟨rest, a, s⟩ := ih _ _ _ e2
              have t3 := fixUp_toList e3
              rw [toList_node] at t1 t3
              refine ⟨rest ++ x1 :: toList r1, ?_, ?_⟩
              · rw [← t1, a]; simp
              · rw [t3]; exact List.Sublist.append s (List.Sublist.refl _)

theorem moveRedLeft_left_extends {x : α} {l r : Node α} {b : Bool} {h1 : Node α}
    (e : moveRedLeft (node x l r b) = .ok h1) :
    h1 ≠ nil ∧ ∃ m, toList (left h1) = toList l ++ m := by
  rcases l with _ | ⟨y, ll, lr, lb⟩ <;> rcases r with _ | ⟨z, rl, rr, rb⟩ <;>
    (try (simp [moveRedLeft, flip] at e; done))
  rcases rl with _ | ⟨w, rll, rlr, rlb⟩
  · simp [moveRedLeft, flip, left] at e
    subst e
    exact ⟨by simp, [], by simp [left, toList]⟩
  · cases rlb <;> cases rb <;> simp [moveRedLeft, flip, left, rotateLeft, rotateRight] at e <;>
      subst e
    · exact ⟨by simp, _, by simp only [left, toList]; rfl⟩
    · exact ⟨by simp, [], by simp [left, toList]⟩
    · exact ⟨by simp, [], by simp [left, toList]⟩

theorem Sorted_left {key : α → Int} {x : α} {l r : Node α} {b : Bool}
    (h : Sorted key (node x l r b)) : Sorted key l := by
  unfold Sorted at *
  rw [toList_node] at h
  exact (List.pairwise_append.1 h).1

theorem Sorted_right {key : α → Int} {x : α} {l r : Node α} {b : Bool}
    (h : Sorted key (node x l r b)) : Sorted key r := by
  unfold Sorted at *
  rw [toList_node] at h
  exact (List.pairwise_cons.1 (List.pairwise_append.1 h).2.1).2

theorem Sorted_of_toList {key : α → Int} {h h' : Node α} (e : toList h' = toList h)
    (s : Sorted key h) : Sorted key h' := by
  unfold Sorted at *; rw [e]; exact s

theorem Sorted_le_root {key : α → Int} {x : α} {l r : Node α} {b : Bool}
    (h : Sorted key (node x l r b)) : ∀ y ∈ toList l, key y ≤ key x := by
  unfold Sorted at h
  rw [toList_node] at h
  intro y hy
  exact (List.pairwise_append.1 h).2.2 y hy x (List.mem_cons_self _ _)

theorem Sorted_root_le {key : α → Int} {x : α} {l r : Node α} {b : Bool}
    (h : Sorted key (node x l r b)) : ∀ y ∈ toList r, key x ≤ key y := by
  unfold Sorted at h
  rw [toList_node] at h
  intro y hy
  exact (List.pairwise_cons.1 (List.pairwise_append.1 h).2.1).1 y hy

end Node
end ItemManager

namespace ItemManager
namespace Node
variable {α : Type}

theorem subperm_mid {d a r3 r2 : List α} (h : (d ++ r3).Subperm r2) :
    (d ++ (a ++ r3)).Subperm (a ++ r2) := by
  have p : (d ++ (a ++ r3)).Perm (a ++ (d ++ r3)) := by
    rw [← List.append_assoc, ← List.append_assoc]
    exact List.Perm.append_right _ List.perm_append_comm
  exact p.subperm.trans ((List.subperm_append_left a).2 h)

/-- Whatever the tree and the comparison, `delete` only removes items: the deleted item and
the items of the result are, with multiplicity, among the items of the tree. -/
theorem delete_list (lt : α → α → Bool) (item : α) : ∀ (fuel : Nat) (h h' : Node α)
    (d : Option α), delete lt fuel h item = .ok (h', d) →
    (d.toList ++ toList h').Subperm (toList h) := by
  intro fuel
  induction fuel with
  | zero => intro h h' d e; simp [delete] at e
  | succ fuel ih =>
    intro h h' d e
    rcases h with _ | ⟨x, l, r, b⟩
    · simp only [delete, Except.ok.injEq, Prod.mk.injEq] at e
      obtain ⟨rfl, rfl⟩ := e
      simp [toList]
    · simp only [delete] at e
      split at e
      · -- left branch
        split at e
        · simp only [Except.ok.injEq, Prod.mk.injEq] at e
          obtain ⟨rfl, rfl⟩ := e
          exact List.Subperm.refl _
        · rename_i y ll lr lb
          split at e
          · simp at e
          · simp at e
          · rename_i x1 l1 r1 b1 e1
            have t1 : toList (node x1 l1 r1 b1) = toList (node x (node y ll lr lb) r b) := by
              split at e1
              · exact moveRedLeft_toList e1
              · cases e1; rfl
            split at e
            · simp at e
            · rename_i l2 deleted e2
              split at e
              · simp at e
              · rename_i h2 e3
                simp only [Except.ok.injEq, Prod.mk.injEq] at e
                obtain ⟨rfl, rfl⟩ := e
                have i := ih _ _ _ e2
                rw [fixUp_toList e3, ← t1, toList_node, toList_node, ← List.append_assoc]
                exact (List.subperm_append_right _).2 i
      · -- right branch
        split at e
        · simp at e
        · simp at e
        · rename_i x1 l1 r1 b1 e1
          have t1 : toList (node x1 l1 r1 b1) = toList (node x l r b) := by
            split at e1
            · exact rotateRight_toList e1
            · cases e1; rfl
          rw [← t1]
          split at e
          · -- no right child
            split at e
            · simp only [Except.ok.injEq, Prod.mk.injEq] at e
              obtain ⟨rfl, rfl⟩ := e
              simp only [toList, Option.toList, List.append_nil]
              exact List.Sublist.subperm (List.sublist_append_right _ _)
            · split at e
              · simp at e
              · rename_i r2 deleted e2
                split at e
                · simp at e
                · rename_i h2 e3
                  simp only [Except.ok.injEq, Prod.mk.injEq] at e
                  obtain ⟨rfl, rfl⟩ := e
                  have i := ih _ _ _ e2
                  rw [fixUp_toList e3, toList_node, toList_node]
                  have := subperm_mid (a := toList l1 ++ [x1]) i
                  simpa using this
          · rename_i z rl rr rb
            split at e
            · simp at e
            · simp at e
            · rename_i x2 l2 r2 b2 e4
              have t2 : toList (node x2 l2 r2 b2) = toList (node x1 l1 (node z rl rr rb) b1) := by
                split at e4
                · exact moveRedRight_toList e4
                · cases e4; rfl
              rw [← t2]
              split at e
              · -- the node holds the key: replace by the minimum of the right
                split at e
                · simp at e
                · simp at e
                · rename_i r3 sub e5
                  split at e
                  · simp at e
                  · rename_i h3 e6
                    simp only [Except.ok.injEq, Prod.mk.injEq] at e
                    obtain ⟨rfl, rfl⟩ := e
                    obtain ⟨rest, a, s⟩ := deleteMin_list _ _ _ _ e5
                    rw [fixUp_toList e6, toList_node, toList_node, a]
                    simp only [Option.toList, List.singleton_append]
                    have p : (x2 :: (toList l2 ++ sub :: toList r3)).Perm
                        (toList l2 ++ x2 :: sub :: toList r3) := List.perm_middle.symm
                    refine p.subperm.trans (List.Sublist.subperm ?_)
                    exact List.Sublist.append (List.Sublist.refl _)
                      (List.Sublist.cons₂ _ (List.Sublist.cons₂ _ s))
              · split at e
                · simp at e
                · rename_i r3 deleted e5
                  split at e
                  · simp at e
                  · rename_i h3 e6
                    simp only [Except.ok.injEq, Prod.mk.injEq] at e
                    obtain ⟨rfl, rfl⟩ := e
                    have i := ih _ _ _ e5
                    rw [fixUp_toList e6, toList_node, toList_node]
                    have := subperm_mid (a := toList l2 ++ [x2]) i
                    simpa using this

end Node
end ItemManager

namespace ItemManager
namespace Node
variable {α : Type}

/-- In a sorted tree that holds an item of the key's rank, `delete` removes an item. -/
theorem delete_found (key : α → Int) (item : α) : ∀ (fuel : Nat) (h h' : Node α)
    (d : Option α), delete (fun a b => decide (key a < key b)) fuel h item = .ok (h', d) →
    Sorted key h → (∃ y ∈ toList h, key y = key item) → ∃ x, d = some x := by
  intro fuel
  induction fuel with
  | zero => intro h h' d e; simp [delete] at e
  | succ fuel ih =>
    intro h h' d e hs hex
    obtain ⟨w, hw, hkw⟩ := hex
    rcases h with _ | ⟨x, l, r, b⟩
    · simp [toList] at hw
    · simp only [delete] at e
      split at e
      · -- left branch
        rename_i hlt
        have hlt' : key item < key x := by simpa using hlt
        have hwl : w ∈ toList l := by
          rw [toList_node] at hw
          rcases List.mem_append.1 hw with hw | hw
          · exact hw
          · rcases List.mem_cons.1 hw with hw | hw
            · subst hw; omega
            · have := Sorted_root_le hs w hw; omega
        split at e
        · simp [toList] at hwl
        · rename_i y ll lr lb
          split at e
          · simp at e
          · simp at e
          · rename_i x1 l1 r1 b1 e1
            have t1 : toList (node x1 l1 r1 b1) = toList (node x (node y ll lr lb) r b) ∧
                ∃ m, toList l1 = toList (node y ll lr lb) ++ m := by
              split at e1
              · exact ⟨moveRedLeft_toList e1, by simpa [left] using (moveRedLeft_left_extends e1).2⟩
              · cases e1; exact ⟨rfl, [], by simp⟩
            obtain ⟨t1, m, hm⟩ := t1
            split at e
            · simp at e
            · rename_i l2 deleted e2
              split at e
              · simp at e
              · rename_i h2 e3
                simp only [Except.ok.injEq, Prod.mk.injEq] at e
                obtain ⟨rfl, rfl⟩ := e
                have s1 : Sorted key l1 := Sorted_left (Sorted_of_toList t1 hs)
                exact ih _ _ _ e2 s1 ⟨w, by rw [hm]; exact List.mem_append_left _ hwl, hkw⟩
      · -- right branch
        split at e
        · simp at e
        · simp at e
        · rename_i x1 l1 r1 b1 e1
          have t1 : toList (node x1 l1 r1 b1) = toList (node x l r b) := by
            split at e1
            · exact rotateRight_toList e1
            · cases e1; rfl
          have s1 : Sorted key (node x1 l1 r1 b1) := Sorted_of_toList t1 hs
          rw [← t1] at hw
          split at e
          · -- no right child
            split at e
            · simp only [Except.ok.injEq, Prod.mk.injEq] at e
              exact ⟨x1, e.2.symm⟩
            · rename_i heq
              have heq' : key x1 < key item := by simpa using heq
              exfalso
              rw [toList_node] at hw
              rcases List.mem_append.1 hw with hw | hw
              · have := Sorted_le_root s1 w hw; omega
              · simp [toList] at hw
                subst hw; omega
          · rename_i z rl rr rb
            split at e
            · simp at e
            · simp at e
            · rename_i x2 l2 r2 b2 e4
              have t2 : toList (node x2 l2 r2 b2) = toList (node x1 l1 (node z rl rr rb) b1) := by
                split at e4
                · exact moveRedRight_toList e4
                · cases e4; rfl
              have s2 : Sorted key (node x2 l2 r2 b2) := Sorted_of_toList t2 s1
              rw [← t2] at hw
              split at e
              · split at e
                · simp at e
                · simp at e
                · split at e
                  · simp at e
                  · simp only [Except.ok.injEq, Prod.mk.injEq] at e
                    exact ⟨x2, e.2.symm⟩
              · rename_i heq
                have heq' : key x2 < key item := by simpa using heq
                have hwr : w ∈ toList r2 := by
                  rw [toList_node] at hw
                  rcases List.mem_append.1 hw with hw | hw
                  · have := Sorted_le_root s2 w hw; omega
                  · rcases List.mem_cons.1 hw with hw | hw
                    · subst hw; omega
                    · exact hw
                split at e
                · simp at e
                · rename_i r3 deleted e5
                  split at e
                  · simp at e
                  · simp only [Except.ok.injEq, Prod.mk.injEq] at e
                    obtain ⟨-, rfl⟩ := e
                    exact ih _ _ _ e5 (Sorted_right s2) ⟨w, hwr, hkw⟩

end Node
end ItemManager

namespace ItemManager
namespace Node
variable {α : Type}

theorem visited_sublist (bp : α → Bool) (t : Node α) : (visited bp t).Sublist (toList t) := by
  induction t with
  | nil => simp [visited, toList]
  | node x l r b ihl ihr =>
    simp only [visited, toList]
    split
    · exact List.Sublist.append ihl (List.Sublist.cons₂ _ ihr)
    · exact (List.Sublist.cons _ ihr).trans (List.sublist_append_right _ _)

theorem visited_all (bp : α → Bool) (t : Node α) (h : ∀ x ∈ toList t, bp x = false) :
    visited bp t = toList t := by
  induction t with
  | nil => simp [visited, toList]
  | node x l r b ihl ihr =>
    have hx : bp x = false := h x (by simp [toList])
    simp only [visited, toList, hx]
    rw [ihl (fun y hy => h y (by simp [toList, hy])), ihr (fun y hy => h y (by simp [toList, hy]))]
    simp

end Node

theorem fillList_append (a b : List Nat) (st : List (Option Nat) × Nat) :
    fillList (a ++ b) st =
      match fillList a st with
      | .error e => .error e
      | .ok st1 => fillList b st1 := by
  induction a generalizing st with
  | nil => simp [fillList]
  | cons i rest ih =>
    simp only [List.cons_append, fillList]
    cases fillBack st i with
    | error e => simp
    | ok v => simp [ih]

theorem fillBack_true {st st1 : List (Option Nat) × Nat} {i : Nat} {c : Bool}
    (e : fillBack st i = .ok (st1, c)) : c = true := by
  unfold fillBack at e
  split at e
  · simp at e
  · simp only [Except.ok.injEq, Prod.mk.injEq] at e
    exact e.2.symm

/-- The ascent of `refreshJson` is the callback applied to the visited items in turn. -/
theorem ascend_fillBack (bp : Nat → Bool) : ∀ (t : Node Nat) (st : List (Option Nat) × Nat),
    Node.ascendGreaterOrEqual bp fillBack t st =
      match fillList (Node.visited bp t) st with
      | .error e => .error e
      | .ok st1 => .ok (st1, true) := by
  intro t
  induction t with
  | nil => intro st; simp [Node.ascendGreaterOrEqual, Node.visited, fillList]
  | node x l r b ihl ihr =>
    intro st
    simp only [Node.ascendGreaterOrEqual, Node.visited]
    by_cases hx : bp x = true
    · simp [hx, ihr]
    · have hx' : bp x = false := by simpa using hx
      simp only [hx', Bool.not_false, if_true, ihl, fillList_append]
      cases e1 : fillList (Node.visited bp l) st with
      | error e => simp
      | ok st1 =>
        simp only [fillList]
        cases e2 : fillBack st1 x with
        | error e => simp
        | ok v =>
          obtain ⟨st2, c⟩ := v
          have := fillBack_true e2
          subst this
          simp [ihr]

/-- Filling back to front: with room for all of them, the items land reversed just below
position `l`. -/
theorem fillList_ok : ∀ (vs : List Nat) (ary : List (Option Nat)) (l : Nat),
    vs.length ≤ l → l ≤ ary.length →
    fillList vs (ary, l) =
      .ok (ary.take (l - vs.length) ++ (vs.reverse.map some) ++ ary.drop l, l - vs.length) := by
  intro vs
  induction vs with
  | nil => intro ary l h1 h2; simp [fillList]
  | cons v rest ih =>
    intro ary l h1 h2
    simp only [List.length_cons] at h1
    have hl : ¬(l = 0 ∨ ary.length < l) := by omega
    simp only [fillList, fillBack, hl, if_false]
    rw [ih _ _ (by omega) (by simp; omega)]
    have hset : ary.set (l - 1) (some v) = ary.take (l - 1) ++ some v :: ary.drop l := by
      rw [List.set_eq_take_append_cons_drop]
      have : l - 1 < ary.length := by omega
      simp only [this, if_true]
      congr 3
      omega
    have e1 : (ary.set (l - 1) (some v)).take (l - 1 - rest.length) =
        ary.take (l - (rest.length + 1)) := by
      rw [hset, List.take_append_of_le_length (by simp; omega), List.take_take]
      congr 1
      omega
    have e2 : (ary.set (l - 1) (some v)).drop (l - 1) = some v :: ary.drop l := by
      rw [hset]
      have : (ary.take (l - 1)).length = l - 1 := by simp; omega
      rw [List.drop_append_of_le_length (by omega), List.drop_of_length_le (by omega)]
      simp
    simp only [e1, e2, List.length_cons, List.reverse_cons, List.map_append, List.map_cons,
      List.map_nil, List.append_assoc, List.singleton_append]
    congr 2
    omega

end ItemManager

namespace ItemManager

section maps
variable {κ ν : Type} [DecidableEq κ]

theorem mapDelete_nil (k : κ) : mapDelete ([] : List (κ × ν)) k = [] := rfl

theorem mapDelete_cons_eq (rest : List (κ × ν)) (k : κ) (v : ν) :
    mapDelete ((k, v) :: rest) k = mapDelete rest k := by
  unfold mapDelete
  rw [List.filter_cons_of_neg]
  simp

theorem mapDelete_cons_ne (rest : List (κ × ν)) {a k : κ} (v : ν) (h : a ≠ k) :
    mapDelete ((a, v) :: rest) k = (a, v) :: mapDelete rest k := by
  unfold mapDelete
  rw [List.filter_cons_of_pos]
  simpa using h

theorem mapGet_mapDelete (m : List (κ × ν)) (k k1 : κ) :
    mapGet (mapDelete m k) k1 = if k = k1 then none else mapGet m k1 := by
  induction m with
  | nil => simp [mapDelete_nil, mapGet]
  | cons e rest ih =>
    obtain ⟨a, b⟩ := e
    by_cases ha : a = k
    · subst ha
      rw [mapDelete_cons_eq, ih]
      by_cases h : a = k1
      · simp [h]
      · simp [h, mapGet]
    · rw [mapDelete_cons_ne _ _ ha]
      simp only [mapGet]
      by_cases hb : a = k1
      · subst hb
        have : ¬ k = a := fun c => ha c.symm
        simp [this]
      · simp only [hb, if_false]; exact ih

theorem mapGet_mapSet (m : List (κ × ν)) (k k1 : κ) (v : ν) :
    mapGet (mapSet m k v) k1 = if k = k1 then some v else mapGet m k1 := by
  unfold mapSet
  simp only [mapGet]
  by_cases h : k = k1
  · simp [h]
  · simp only [h, if_false]
    rw [mapGet_mapDelete]
    simp [h]

theorem mapGet_mem {m : List (κ × ν)} {k : κ} {v : ν} (h : mapGet m k = some v) :
    (k, v) ∈ m := by
  induction m with
  | nil => simp [mapGet] at h
  | cons e rest ih =>
    obtain ⟨a, b⟩ := e
    simp only [mapGet] at h
    by_cases ha : a = k
    · simp only [ha, if_true, Option.some.injEq] at h
      subst ha; subst h; exact List.mem_cons_self _ _
    · simp only [ha, if_false] at h
      exact List.mem_cons_of_mem _ (ih h)

theorem mapGet_none {m : List (κ × ν)} {k : κ} (h : mapGet m k = none) :
    k ∉ m.map Prod.fst := by
  induction m with
  | nil => simp
  | cons e rest ih =>
    obtain ⟨a, b⟩ := e
    simp only [mapGet] at h
    by_cases ha : a = k
    · simp [ha] at h
    · simp only [ha, if_false] at h
      simp only [List.map_cons, List.mem_cons, not_or]
      exact ⟨fun c => ha c.symm, ih h⟩

theorem mapGet_of_mem {m : List (κ × ν)} {k : κ} {v : ν} (hn : (m.map Prod.fst).Nodup)
    (h : (k, v) ∈ m) : mapGet m k = some v := by
  induction m with
  | nil => simp at h
  | cons e rest ih =>
    obtain ⟨a, b⟩ := e
    simp only [List.map_cons, List.nodup_cons] at hn
    rcases List.mem_cons.1 h with h | h
    · cases h; simp [mapGet]
    · have : a ≠ k := by
        rintro rfl
        exact hn.1 (List.mem_map.2 ⟨(a, v), h, rfl⟩)
      simp only [mapGet, this, if_false]
      exact ih hn.2 h

theorem mapDelete_absent {m : List (κ × ν)} {k : κ} (h : k ∉ m.map Prod.fst) :
    mapDelete m k = m := by
  unfold mapDelete
  rw [List.filter_eq_self]
  intro e he
  have : e.1 ≠ k := by
    rintro rfl
    exact h (List.mem_map.2 ⟨e, he, rfl⟩)
  simpa using this

/-- Deleting the key of an entry of a map without repeated keys removes that entry and
nothing else. -/
theorem mapDelete_present {m : List (κ × ν)} {k : κ} {v : ν} (hn : (m.map Prod.fst).Nodup)
    (h : (k, v) ∈ m) : ∃ a b, m = a ++ (k, v) :: b ∧ mapDelete m k = a ++ b := by
  induction m with
  | nil => simp at h
  | cons e rest ih =>
    obtain ⟨a, b⟩ := e
    simp only [List.map_cons, List.nodup_cons] at hn
    rcases List.mem_cons.1 h with h | h
    · cases h
      refine ⟨[], rest, rfl, ?_⟩
      rw [mapDelete_cons_eq]
      exact mapDelete_absent hn.1
    · have hak : a ≠ k := by
        rintro rfl
        exact hn.1 (List.mem_map.2 ⟨(a, v), h, rfl⟩)
      obtain ⟨a1, b1, e1, e2⟩ := ih hn.2 h
      refine ⟨(a, b) :: a1, b1, by simp [e1], ?_⟩
      rw [mapDelete_cons_ne _ _ hak, e2]
      rfl

theorem mapDelete_sublist (m : List (κ × ν)) (k : κ) : (mapDelete m k).Sublist m :=
  List.filter_sublist _

end maps

end ItemManager

namespace ItemManager

theorem updateScore_url (item : Item) : (updateScore item).Img_url = item.Img_url := by
  unfold updateScore; split <;> rfl

theorem storedItem_url (item : Item) (now : Int) (jitter : Fin 1000) :
    (storedItem item now jitter).Img_url = item.Img_url := by
  unfold storedItem; rw [updateScore_url]

theorem WF_NewManager : WF NewManager where
  balanced := ⟨0, by simp [NewManager, LLRB.New]⟩
  blackRoot := rfl
  sorted := by simp [NewManager, LLRB.New, Node.Sorted, Node.toList]
  count_eq := rfl
  same := by simp [NewManager, LLRB.New, residents, Node.toList]
  keys := by simp [NewManager]
  keysNodup := by simp [NewManager]
  fresh := by simp [NewManager]

theorem WF.mem_tree_lt {m : IManager} (h : WF m) {p : Nat}
    (hp : p ∈ Node.toList m.sortedItems.root) : p < m.next := by
  have := h.same.subset hp
  obtain ⟨e, he, rfl⟩ := List.mem_map.1 this
  exact h.fresh e he

theorem WF.size_eq_len {m : IManager} (h : WF m) :
    m.sortedItems.root.size = m.itemsByUrl.length := by
  rw [Node.size_eq_length, h.same.length_eq]; simp [residents]

theorem less_eq (heap : Nat → Item) :
    less heap = fun a b => decide ((fun p => (heap p).score) a < (fun p => (heap p).score) b) := by
  funext a b; rfl

/-- The state between the insertion into the two structures and `removeTail`. -/
theorem insertPhase_WF {m : IManager} (hwf : WF m) (item : Item) (now : Int) (jitter : Fin 1000)
    (hnew : mapGet m.itemsByUrl item.Img_url = none) :
    ∃ t, LLRB.InsertNoReplace (less (Function.update m.heap m.next (storedItem item now jitter)))
        m.sortedItems m.next = .ok t ∧
      WF { m with heap := Function.update m.heap m.next (storedItem item now jitter),
                  next := m.next + 1, sortedItems := t,
                  itemsByUrl := mapSet m.itemsByUrl item.Img_url m.next } ∧
      ∃ l1 l2, Node.toList m.sortedItems.root = l1 ++ l2 ∧
        Node.toList t.root = l1 ++ m.next :: l2 ∧
        (∀ y ∈ l1, (m.heap y).score ≤ (storedItem item now jitter).score) ∧
        (∀ y ∈ l2, (storedItem item now jitter).score < (m.heap y).score) := by
  obtain ⟨n, hn⟩ := hwf.balanced
  obtain ⟨r, k, e, v, vb⟩ := Node.insertNoReplace_root
    (less (Function.update m.heap m.next (storedItem item now jitter))) m.next _ n hn hwf.blackRoot
  have e' := e
  rw [less_eq] at e'
  obtain ⟨l1, l2, s1, s2, s3⟩ := Node.insertNoReplace_split _ _ _ _ e'
  have hold : ∀ p ∈ Node.toList m.sortedItems.root,
      Function.update m.heap m.next (storedItem item now jitter) p = m.heap p := by
    intro p hp
    have := hwf.mem_tree_lt hp
    exact Function.update_noteq (by omega) _ _
  have hsorted : Node.Sorted (fun p => (Function.update m.heap m.next
      (storedItem item now jitter) p).score) m.sortedItems.root := by
    have := hwf.sorted
    unfold Node.Sorted at this ⊢
    refine List.Pairwise.imp_of_mem ?_ this
    intro a b ha hb hab
    simp only [hold a ha, hold b hb]
    exact hab
  obtain ⟨q1, q2⟩ := s3 hsorted
  have habs : mapDelete m.itemsByUrl item.Img_url = m.itemsByUrl :=
    mapDelete_absent (mapGet_none hnew)
  refine ⟨{ count := m.sortedItems.count + 1, root := Node.blacken r }, ?_, ?_, l1, l2, s1, ?_, ?_,
    ?_⟩
  · simp [LLRB.InsertNoReplace, e]
  · constructor
    · exact ⟨k, v⟩
    · exact vb
    · show Node.Sorted _ (Node.blacken r)
      unfold Node.Sorted
      rw [Node.toList_blacken, s2]
      have hs0 := hsorted
      unfold Node.Sorted at hs0
      rw [s1, List.pairwise_append] at hs0
      obtain ⟨p1, p2, p12⟩ := hs0
      rw [List.pairwise_append]
      refine ⟨p1, List.pairwise_cons.2 ⟨fun y hy => le_of_lt (q2 y hy), p2⟩, ?_⟩
      intro a ha b hb
      rcases List.mem_cons.1 hb with hb | hb
      · subst hb; exact q1 a ha
      · exact p12 a ha b hb
    · show m.sortedItems.count + 1 = ((Node.blacken r).size : Int)
      rw [Node.size_blacken, Node.size_eq_length, s2, hwf.count_eq, Node.size_eq_length, s1]
      simp
      omega
    · show (Node.toList (Node.blacken r)).Perm
        ((mapSet m.itemsByUrl item.Img_url m.next).map Prod.snd)
      rw [Node.toList_blacken, s2]
      unfold mapSet
      rw [habs]
      simp only [List.map_cons]
      refine List.perm_middle.trans (List.Perm.cons _ ?_)
      rw [← s1]
      exact hwf.same
    · intro e he
      show (Function.update m.heap m.next (storedItem item now jitter) e.2).Img_url = e.1
      unfold mapSet at he
      rw [habs] at he
      rcases List.mem_cons.1 he with he | he
      · subst he
        simp [storedItem_url]
      · have := hwf.fresh e he
        rw [Function.update_noteq (by omega)]
        exact hwf.keys e he
    · show ((mapSet m.itemsByUrl item.Img_url m.next).map Prod.fst).Nodup
      unfold mapSet
      rw [habs]
      simp only [List.map_cons, List.nodup_cons]
      exact ⟨mapGet_none hnew, hwf.keysNodup⟩
    · intro e he
      show e.2 < m.next + 1
      unfold mapSet at he
      rw [habs] at he
      rcases List.mem_cons.1 he with he | he
      · subst he; simp
      · have := hwf.fresh e he; omega
  · show Node.toList (Node.blacken r) = _
    rw [Node.toList_blacken, s2]
  · intro y hy
    have := q1 y hy
    have hy' : y ∈ Node.toList m.sortedItems.root := by rw [s1]; exact List.mem_append_left _ hy
    simp only [hold y hy', Function.update_same] at this
    exact this
  · intro y hy
    have := q2 y hy
    have hy' : y ∈ Node.toList m.sortedItems.root := by rw [s1]; exact List.mem_append_right _ hy
    simp only [hold y hy', Function.update_same] at this
    exact this

end ItemManager

namespace ItemManager

/-- One round of the eviction loop on a well-formed, non-empty state: the first item of
the index goes, out of the index and out of the key map, and the state stays well formed. -/
theorem evict_WF {m : IManager} (hwf : WF m) (hpos : 0 < m.itemsByUrl.length) :
    ∃ (t : LLRB Nat) (min : Nat) (a b : List (String × Nat)),
      LLRB.DeleteMin m.sortedItems = .ok (t, some min) ∧
      Node.toList m.sortedItems.root = min :: Node.toList t.root ∧
      m.itemsByUrl = a ++ ((m.heap min).Img_url, min) :: b ∧
      mapDelete m.itemsByUrl (m.heap min).Img_url = a ++ b ∧
      WF { m with sortedItems := t,
                  itemsByUrl := mapDelete m.itemsByUrl (m.heap min).Img_url,
                  itemsById := mapDelete m.itemsById (m.heap min).Id } := by
  obtain ⟨n, hn⟩ := hwf.balanced
  have hsz := hwf.size_eq_len
  have hne : m.sortedItems.root ≠ Node.nil := by
    intro h; rw [h] at hsz; simp [Node.size] at hsz; omega
  obtain ⟨r, d, k, e, v, tl⟩ := Node.deleteMin_root (m.sortedItems.root.size + 1)
    m.sortedItems.root n (by omega) hn hwf.blackRoot hne
  have hd : d ∈ residents m := hwf.same.subset (by rw [tl]; exact List.mem_cons_self _ _)
  obtain ⟨ent, hent, hent2⟩ := List.mem_map.1 hd
  have hkey := hwf.keys ent hent
  have hmem : ((m.heap d).Img_url, d) ∈ m.itemsByUrl := by
    rw [← hent2, hkey]; exact hent
  obtain ⟨a, b, ha, hb⟩ := mapDelete_present hwf.keysNodup hmem
  refine ⟨{ count := m.sortedItems.count - 1, root := Node.blacken r }, d, a, b, ?_, ?_, ha,
    hb, ?_⟩
  · simp [LLRB.DeleteMin, e]
  · show _ = d :: Node.toList (Node.blacken r)
    rw [Node.toList_blacken, tl]
  · have hsub : (mapDelete m.itemsByUrl (m.heap d).Img_url).Sublist m.itemsByUrl :=
      mapDelete_sublist _ _
    constructor
    · exact ⟨k, v⟩
    · exact Node.isRed_blacken r
    · show Node.Sorted (rank m) (Node.blacken r)
      have := hwf.sorted
      unfold Node.Sorted at this ⊢
      rw [tl] at this
      rw [Node.toList_blacken]
      exact (List.pairwise_cons.1 this).2
    · show m.sortedItems.count - 1 = ((Node.blacken r).size : Int)
      rw [Node.size_blacken, hwf.count_eq, Node.size_eq_length, tl, Node.size_eq_length]
      simp
    · show (Node.toList (Node.blacken r)).Perm
        ((mapDelete m.itemsByUrl (m.heap d).Img_url).map Prod.snd)
      rw [Node.toList_blacken, hb]
      have hs := hwf.same
      unfold residents at hs
      rw [tl, ha] at hs
      simp only [List.map_append, List.map_cons] at hs ⊢
      exact (hs.trans List.perm_middle).cons_inv
    · intro e he
      exact hwf.keys e (hsub.subset he)
    · exact (hwf.keysNodup).sublist (hsub.map Prod.fst)
    · intro e he
      exact hwf.fresh e (hsub.subset he)

/-- The eviction loop on a well-formed state with enough items. -/
theorem removeTailLoop_WF : ∀ (n : Nat) (m : IManager), WF m → n ≤ m.itemsByUrl.length →
    ∃ m1, removeTailLoop n m = .ok m1 ∧ WF m1 ∧ m1.itemsByUrl.length + n = m.itemsByUrl.length ∧
      m1.heap = m.heap ∧ m1.next = m.next ∧ m1.json = m.json ∧ m1.json_zipped = m.json_zipped := by
  intro n
  induction n with
  | zero => intro m hwf _; exact ⟨m, rfl, hwf, rfl, rfl, rfl, rfl, rfl⟩
  | succ n ih =>
    intro m hwf hn
    obtain ⟨t, min, a, b, e, -, ha, hb, hwf1⟩ := evict_WF hwf (by omega)
    have hlen : (mapDelete m.itemsByUrl (m.heap min).Img_url).length + 1 =
        m.itemsByUrl.length := by
      rw [hb, ha]; simp; omega
    obtain ⟨m1, e1, w1, l1, h1, n1, j1, z1⟩ := ih _ hwf1 (by simp only; omega)
    refine ⟨m1, ?_, w1, ?_, h1, n1, j1, z1⟩
    · simp only [removeTailLoop, e]
      exact e1
    · simp only at l1; omega

theorem WF.len_eq {m : IManager} (h : WF m) :
    m.sortedItems.Len = (m.itemsByUrl.length : Int) := by
  unfold LLRB.Len
  rw [h.count_eq, h.size_eq_len]

/-- Operation `removeTail` on a well-formed state: no panic, at most `max_items` items left. -/
theorem removeTail_WF {m : IManager} (hwf : WF m) :
    ∃ m1, removeTail m = .ok m1 ∧ WF m1 ∧
      m1.itemsByUrl.length = min m.itemsByUrl.length max_items ∧
      m1.heap = m.heap ∧ m1.next = m.next ∧ m1.json = m.json ∧ m1.json_zipped = m.json_zipped := by
  unfold removeTail
  by_cases h : m.itemsByUrl.length ≤ max_items
  · simp only [h, if_true]
    exact ⟨m, rfl, hwf, by omega, rfl, rfl, rfl, rfl⟩
  · simp only [h, if_false]
    obtain ⟨m1, e1, w1, l1, h1, n1, j1, z1⟩ :=
      removeTailLoop_WF (m.itemsByUrl.length - max_items) m hwf (by omega)
    refine ⟨m1, ?_, w1, by omega, h1, n1, j1, z1⟩
    simp [e1, w1.len_eq]

/-- Operation `Insert` on a well-formed state: no panic, the state stays well formed and within
capacity. -/
theorem Insert_WF {m : IManager} (hwf : WF m) (item : Item) (now : Int) (jitter : Fin 1000) :
    ∃ m1 b, Insert m item now jitter = .ok (m1, b) ∧ WF m1 ∧
      m1.itemsByUrl.length ≤ max m.itemsByUrl.length max_items ∧
      (m.itemsByUrl.length ≤ max_items → m1.itemsByUrl.length ≤ max_items) := by
  unfold Insert
  cases hg : mapGet m.itemsByUrl item.Img_url with
  | some p => exact ⟨m, false, rfl, hwf, by omega, fun h => h⟩
  | none =>
    obtain ⟨t, e, w, -⟩ := insertPhase_WF hwf item now jitter hg
    obtain ⟨m1, e1, w1, l1, -⟩ := removeTail_WF w
    refine ⟨m1, true, ?_, w1, ?_, ?_⟩
    · simp only [e, e1]
    · rw [l1]; simp only [mapSet, List.length_cons]
      have := (mapDelete_sublist m.itemsByUrl item.Img_url).length_le
      omega
    · intro _; rw [l1]; omega

end ItemManager

namespace ItemManager

/-- The slice of `refreshJson` when the visited items fit: nil entries in front of the
visited items in reverse order. -/
theorem rankedArray_ok (m : IManager)
    (hv : (Node.visited (fun p => decide ((m.heap p).score < 0)) m.sortedItems.root).length ≤
      m.itemsByUrl.length) :
    rankedArray m = .ok
      (List.replicate (m.itemsByUrl.length -
          (Node.visited (fun p => decide ((m.heap p).score < 0)) m.sortedItems.root).length) none ++
        (Node.visited (fun p => decide ((m.heap p).score < 0)) m.sortedItems.root).reverse.map
          some) := by
  have e := fillList_ok _ (List.replicate m.itemsByUrl.length none) m.itemsByUrl.length hv
    (by simp)
  unfold rankedArray
  rw [ascend_fillBack, e]
  simp only [List.take_replicate, List.drop_replicate, Nat.sub_self, List.replicate_zero,
    List.append_nil, Except.ok.injEq]
  congr 2
  omega

/-- Operation `refreshJson` does not panic when the index holds no more items than the key map. -/
theorem refreshJson_ok (m : IManager) (h : m.sortedItems.root.size ≤ m.itemsByUrl.length) :
    ∃ ary, rankedArray m = .ok ary ∧
      refreshJson m = .ok { m with json := some (ary.map (Option.map (toJson m.heap))),
                                   json_zipped := some (ary.map (Option.map (toJson m.heap))) } := by
  have hv : (Node.visited (fun p => decide ((m.heap p).score < 0)) m.sortedItems.root).length ≤
      m.itemsByUrl.length := by
    have := (Node.visited_sublist (fun p => decide ((m.heap p).score < 0))
      m.sortedItems.root).length_le
    rw [← Node.size_eq_length] at this
    omega
  have e := rankedArray_ok m hv
  exact ⟨_, e, by unfold refreshJson; rw [e]⟩

theorem WF.resident_mem_tree {m : IManager} (hwf : WF m) {p : Nat}
    (hres : mapGet m.itemsByUrl (m.heap p).Img_url = some p) :
    p ∈ Node.toList m.sortedItems.root := by
  have : p ∈ residents m := List.mem_map.2 ⟨_, mapGet_mem hres, rfl⟩
  exact hwf.same.symm.subset this

/-- Operation `NotifyComment` for a comment on a bound resident item of a well-formed state: no panic;
the item is rewritten by `applyComment`, nothing else in the heap or the maps changes. -/
theorem NotifyComment_WF_ok {m : IManager} (hwf : WF m) (c : Comment) (p : Nat)
    (hb : mapGet m.itemsById c.Item_id = some p)
    (hres : mapGet m.itemsByUrl (m.heap p).Img_url = some p) :
    ∃ m1, NotifyComment m c = .ok m1 ∧
      m1.heap = Function.update m.heap p (applyComment (m.heap p) c) ∧
      m1.itemsByUrl = m.itemsByUrl ∧ m1.itemsById = m.itemsById ∧ m1.next = m.next := by
  obtain ⟨n, hn⟩ := hwf.balanced
  have hp := hwf.resident_mem_tree hres
  obtain ⟨⟨r, d⟩, e⟩ := Node.delete_total (less m.heap) p (m.sortedItems.root.size + 1)
    m.sortedItems.root (by omega) (Or.inl ⟨n, hn⟩)
  have e' := e
  rw [less_eq] at e'
  obtain ⟨x, rfl⟩ := Node.delete_found _ _ _ _ _ _ e' hwf.sorted ⟨p, hp, rfl⟩
  have hl := (Node.delete_list _ _ _ _ _ _ e).length_le
  simp only [Option.toList, List.singleton_append, List.length_cons] at hl
  rw [← Node.size_eq_length, ← Node.size_eq_length] at hl
  obtain ⟨r2, e2⟩ := Node.insertNoReplace_ok
    (less (Function.update m.heap p (applyComment (m.heap p) c))) p (Node.blacken r)
  have e2' := e2
  rw [less_eq] at e2'
  obtain ⟨l1, l2, s1, s2, -⟩ := Node.insertNoReplace_split _ _ _ _ e2'
  have hsz : (Node.blacken r2).size ≤ m.itemsByUrl.length := by
    rw [Node.size_blacken, Node.size_eq_length, s2]
    rw [Node.toList_blacken] at s1
    have : r.size = (l1 ++ l2).length := by rw [Node.size_eq_length, s1]
    have := hwf.size_eq_len
    simp at *
    omega
  obtain ⟨ary, -, e3⟩ := refreshJson_ok
    { m with heap := Function.update m.heap p (applyComment (m.heap p) c),
             sortedItems := { count := m.sortedItems.count - 1 + 1, root := Node.blacken r2 } }
    hsz
  have key := e3
  have : NotifyComment m c = refreshJson
      { m with heap := Function.update m.heap p (applyComment (m.heap p) c),
               sortedItems := { count := m.sortedItems.count - 1 + 1, root := Node.blacken r2 } } := by
    unfold NotifyComment
    simp only [hb, LLRB.Delete, e, LLRB.InsertNoReplace, e2]
  rw [← this] at key
  exact ⟨_, key, rfl, rfl, rfl, rfl⟩

/-- Operation `NotifyItemId` keeps a state well formed. -/
theorem NotifyItemId_WF {m : IManager} (hwf : WF m) (url : String) (id : Int) :
    WF (NotifyItemId m url id) := by
  unfold NotifyItemId
  cases hg : mapGet m.itemsByUrl url with
  | none => exact hwf
  | some p =>
    have hsc : ∀ q, (Function.update m.heap p { m.heap p with Id := id } q).score =
        (m.heap q).score := by
      intro q
      by_cases h : q = p
      · subst h; simp
      · rw [Function.update_noteq h]
    have hurl : ∀ q, (Function.update m.heap p { m.heap p with Id := id } q).Img_url =
        (m.heap q).Img_url := by
      intro q
      by_cases h : q = p
      · subst h; simp
      · rw [Function.update_noteq h]
    constructor
    · exact hwf.balanced
    · exact hwf.blackRoot
    · have := hwf.sorted
      unfold Node.Sorted rank at this ⊢
      simp only [hsc]
      exact this
    · exact hwf.count_eq
    · exact hwf.same
    · intro e he
      show (Function.update m.heap p { m.heap p with Id := id } e.2).Img_url = e.1
      rw [hurl]; exact hwf.keys e he
    · exact hwf.keysNodup
    · exact hwf.fresh

end ItemManager

namespace ItemManager

theorem bitLenAux_spec : ∀ (fuel n : Nat), n < 2 ^ fuel →
    (n = 0 → bitLenAux fuel n = 0) ∧
    (n ≠ 0 → 2 ^ (bitLenAux fuel n - 1) ≤ n ∧ n < 2 ^ bitLenAux fuel n ∧ 0 < bitLenAux fuel n) := by
  intro fuel
  induction fuel with
  | zero =>
    intro n hn
    simp at hn
    subst hn
    simp [bitLenAux]
  | succ fuel ih =>
    intro n hn
    constructor
    · intro h; simp [bitLenAux, h]
    · intro h
      have h2 : n / 2 < 2 ^ fuel := by
        rw [Nat.div_lt_iff_lt_mul (by norm_num)]
        rw [pow_succ] at hn
        exact hn
      obtain ⟨i0, i1⟩ := ih (n / 2) h2
      simp only [bitLenAux, h, if_false, Nat.add_sub_cancel]
      by_cases hz : n / 2 = 0
      · rw [i0 hz]
        have : n = 1 := by omega
        subst this
        simp
      · obtain ⟨a, b, c⟩ := i1 hz
        refine ⟨?_, ?_, by omega⟩
        · have : 2 ^ bitLenAux fuel (n / 2) = 2 ^ (bitLenAux fuel (n / 2) - 1) * 2 := by
            rw [← pow_succ]; congr 1; omega
          rw [this]
          omega
        · rw [pow_succ]; omega

theorem bitLen_zero : bitLen 0 = 0 := rfl

theorem bitLen_spec {n : Nat} (h : n ≠ 0) :
    2 ^ (bitLen n - 1) ≤ n ∧ n < 2 ^ bitLen n ∧ 0 < bitLen n :=
  (bitLenAux_spec n n (Nat.lt_two_pow n)).2 h

theorem bitLen_mono {a b : Nat} (h : a ≤ b) : bitLen a ≤ bitLen b := by
  by_cases ha : a = 0
  · subst ha; simp [bitLen_zero]
  · have hb : b ≠ 0 := by omega
    obtain ⟨a1, a2, a3⟩ := bitLen_spec ha
    obtain ⟨b1, b2, b3⟩ := bitLen_spec hb
    by_contra hc
    have hlt : bitLen b ≤ bitLen a - 1 := by omega
    have := Nat.pow_le_pow_right (show 0 < 2 by norm_num) hlt
    omega

theorem roundShift_lower (v s : Nat) (st : Bool) : v / 2 ^ s ≤ roundShift v s st := by
  unfold roundShift
  split
  · rename_i h; subst h; simp
  · split <;> omega

theorem roundShift_upper (v s : Nat) (st : Bool) : roundShift v s st ≤ v / 2 ^ s + 1 := by
  unfold roundShift
  split
  · rename_i h; subst h; simp
  · split <;> omega

/-- Rounding at a fixed position is monotone. -/
theorem roundShift_mono {v w : Nat} {a b : Bool} (s : Nat)
    (h : v < w ∨ (v = w ∧ (a = true → b = true))) : roundShift v s a ≤ roundShift w s b := by
  by_cases hs : s = 0
  · subst hs
    simp only [roundShift, if_true]
    omega
  · have hpos : 0 < 2 ^ s := Nat.pow_pos (by norm_num)
    rcases h with h | ⟨rfl, hab⟩
    · have hq : v / 2 ^ s ≤ w / 2 ^ s := Nat.div_le_div_right (le_of_lt h)
      by_cases hqq : v / 2 ^ s = w / 2 ^ s
      · -- same quotient, so the remainder grows
        have hv := Nat.div_add_mod v (2 ^ s)
        have hw := Nat.div_add_mod w (2 ^ s)
        have hr : v % 2 ^ s < w % 2 ^ s := by
          rw [hqq] at hv
          omega
        unfold roundShift
        simp only [hs, if_false]
        rw [hqq]
        split
        · rename_i c
          have : 2 ^ (s - 1) < w % 2 ^ s := by
            rcases c with c | c
            · omega
            · omega
          simp [this]
        · split <;> omega
      · have := roundShift_upper v s a
        have := roundShift_lower w s b
        omega
    · unfold roundShift
      simp only [hs, if_false]
      split
      · rename_i c
        have : 2 ^ (s - 1) < v % 2 ^ s ∨
            v % 2 ^ s = 2 ^ (s - 1) ∧ (b = true ∨ v / 2 ^ s % 2 = 1) := by
          rcases c with c | ⟨c1, c2⟩
          · exact Or.inl c
          · refine Or.inr ⟨c1, ?_⟩
            rcases c2 with c2 | c2
            · exact Or.inl (hab c2)
            · exact Or.inr c2
        simp [this]
      · split <;> omega

theorem round53_zero (st : Bool) : round53 0 st = 0 := by
  simp [round53, bitLen_zero, roundShift]

theorem round53_lower {v : Nat} (h : v ≠ 0) (st : Bool) : 2 ^ (bitLen v - 1) ≤ round53 v st := by
  obtain ⟨a1, a2, a3⟩ := bitLen_spec h
  unfold round53
  have hq := roundShift_lower v (bitLen v - 53) st
  have hpos : 0 < 2 ^ (bitLen v - 53) := Nat.pow_pos (by norm_num)
  have : 2 ^ (bitLen v - 1) = 2 ^ (bitLen v - 1 - (bitLen v - 53)) * 2 ^ (bitLen v - 53) := by
    rw [← pow_add]; congr 1; omega
  rw [this]
  apply Nat.mul_le_mul_right
  refine le_trans ?_ hq
  rw [Nat.le_div_iff_mul_le hpos, ← this]
  exact a1

theorem round53_upper (v : Nat) (st : Bool) : round53 v st ≤ 2 ^ bitLen v := by
  by_cases h : v = 0
  · subst h; simp [round53_zero]
  obtain ⟨a1, a2, a3⟩ := bitLen_spec h
  unfold round53
  have hq := roundShift_upper v (bitLen v - 53) st
  have hpos : 0 < 2 ^ (bitLen v - 53) := Nat.pow_pos (by norm_num)
  have e : 2 ^ bitLen v = 2 ^ (bitLen v - (bitLen v - 53)) * 2 ^ (bitLen v - 53) := by
    rw [← pow_add]; congr 1; omega
  rw [e]
  apply Nat.mul_le_mul_right
  have : v / 2 ^ (bitLen v - 53) < 2 ^ (bitLen v - (bitLen v - 53)) := by
    rw [Nat.div_lt_iff_lt_mul hpos, ← e]
    exact a2
  omega

/-- Rounding to 53 significant bits is monotone. -/
theorem round53_mono {v w : Nat} {a b : Bool}
    (h : v < w ∨ (v = w ∧ (a = true → b = true))) : round53 v a ≤ round53 w b := by
  have hvw : v ≤ w := by rcases h with h | h <;> omega
  by_cases hv : v = 0
  · subst hv; simp [round53_zero]
  have hw : w ≠ 0 := by omega
  have hb := bitLen_mono hvw
  by_cases hbe : bitLen v = bitLen w
  · unfold round53
    rw [hbe]
    exact Nat.mul_le_mul_right _ (roundShift_mono _ h)
  · have h1 := round53_upper v a
    have h2 := round53_lower hw b
    have : 2 ^ bitLen v ≤ 2 ^ (bitLen w - 1) :=
      Nat.pow_le_pow_right (by norm_num) (by omega)
    omega

theorem isqrtAux_spec : ∀ (k n r : Nat), r * r ≤ n → n < (r + 2 ^ k) * (r + 2 ^ k) →
    isqrtAux k n r * isqrtAux k n r ≤ n ∧ n < (isqrtAux k n r + 1) * (isqrtAux k n r + 1) := by
  intro k
  induction k with
  | zero => intro n r h1 h2; simpa [isqrtAux] using ⟨h1, h2⟩
  | succ k ih =>
    intro n r h1 h2
    simp only [isqrtAux]
    split
    · rename_i c
      apply ih _ _ c
      have : r + 2 ^ k + 2 ^ k = r + 2 ^ (k + 1) := by rw [pow_succ]; omega
      rw [this]; exact h2
    · rename_i c
      exact ih _ _ h1 (by omega)

theorem isqrt_eq (n : Nat) : isqrt n = Nat.sqrt n := by
  have h : n < (0 + 2 ^ bitLen n) * (0 + 2 ^ bitLen n) := by
    simp only [Nat.zero_add]
    by_cases hn : n = 0
    · subst hn; simp
    · obtain ⟨-, a2, -⟩ := bitLen_spec hn
      have : 1 ≤ 2 ^ bitLen n := Nat.one_le_two_pow
      calc n < 2 ^ bitLen n := a2
        _ = 2 ^ bitLen n * 1 := by ring
        _ ≤ 2 ^ bitLen n * 2 ^ bitLen n := Nat.mul_le_mul_left _ this
  have := isqrtAux_spec (bitLen n) n 0 (by simp) h
  exact Nat.eq_sqrt.2 this

theorem sqrt64_mono {x y : Nat} (h : x ≤ y) : sqrt64 x ≤ sqrt64 y := by
  unfold sqrt64
  rw [isqrt_eq, isqrt_eq]
  have hm : x * 2 ^ 128 ≤ y * 2 ^ 128 := Nat.mul_le_mul_right _ h
  have hs : Nat.sqrt (x * 2 ^ 128) ≤ Nat.sqrt (y * 2 ^ 128) := Nat.sqrt_le_sqrt hm
  apply round53_mono
  by_cases he : Nat.sqrt (x * 2 ^ 128) = Nat.sqrt (y * 2 ^ 128)
  · right
    refine ⟨he, ?_⟩
    intro hx
    simp only [ne_eq, decide_eq_true_eq, decide_not, Bool.not_eq_true', decide_eq_false_iff_not] at hx ⊢
    have := Nat.sqrt_le (x * 2 ^ 128)
    rw [← he]
    omega
  · left; omega

/-- The square-root term of the score is monotone in the count. -/
theorem sqrtTermNat_mono {a b : Nat} (h : a ≤ b) : sqrtTermNat a ≤ sqrtTermNat b := by
  unfold sqrtTermNat float64OfNat
  apply Nat.div_le_div_right
  apply round53_mono
  have h1 : round53 a false ≤ round53 b false := by
    apply round53_mono
    rcases Nat.lt_or_ge a b with h | h'
    · exact Or.inl h
    · exact Or.inr ⟨by omega, fun x => x⟩
  have h2 := sqrt64_mono h1
  have h3 : sqrt64 (round53 a false) * mill_day ≤ sqrt64 (round53 b false) * mill_day :=
    Nat.mul_le_mul_right _ h2
  rcases Nat.lt_or_ge (sqrt64 (round53 a false) * mill_day)
    (sqrt64 (round53 b false) * mill_day) with h | h'
  · exact Or.inl h
  · exact Or.inr ⟨by omega, fun x => x⟩

theorem sqrtTerm_nonneg {a : Int} (h : 0 ≤ a) : 0 ≤ sqrtTerm a := by
  unfold sqrtTerm
  simp only [not_lt.2 h, if_false]
  exact Int.natCast_nonneg _

theorem sqrtTerm_mono {a b : Int} (ha : 0 ≤ a) (h : a ≤ b) : sqrtTerm a ≤ sqrtTerm b := by
  unfold sqrtTerm
  have hb : 0 ≤ b := le_trans ha h
  simp only [not_lt.2 ha, not_lt.2 hb, if_false]
  exact Int.ofNat_le.2 (sqrtTermNat_mono (Int.toNat_le_toNat h))

theorem sqrtTermNat_max : sqrtTermNat 9223372036854775807 = 131198421598965360 := by decide!

theorem sqrtTerm_le {a : Int} (ha : 0 ≤ a) (h : a < 9223372036854775808) :
    sqrtTerm a ≤ 131198421598965360 := by
  have := sqrtTerm_mono ha (show a ≤ 9223372036854775807 by omega)
  have e : sqrtTerm 9223372036854775807 = 131198421598965360 := by
    unfold sqrtTerm
    simp only [show ¬((9223372036854775807 : Int) < 0) by norm_num, if_false]
    have : (9223372036854775807 : Int).toNat = 9223372036854775807 := by rfl
    rw [this, sqrtTermNat_max]
    rfl
  omega

theorem wrap64_id {x : Int} (h1 : -9223372036854775808 ≤ x) (h2 : x < 9223372036854775808) :
    wrap64 x = x := by
  unfold wrap64
  omega

end ItemManager

namespace ItemManager

theorem IdInv_NewManager : IdInv NewManager [] where
  bound := by simp [NewManager, mapGet]
  stale := by simp [NewManager, LLRB.New, Node.toList]
  twice := by simp [NewManager, LLRB.New, Node.toList]
  treeFresh := by simp [NewManager, LLRB.New, Node.toList]
  keyed := by simp [NewManager, mapGet]

theorem IdInv.mono {m : IManager} {H H' : List String} (h : IdInv m H) (hs : H ⊆ H') :
    IdInv m H' where
  bound := fun id p e => ⟨(h.bound id p e).1, (h.bound id p e).2.1, hs (h.bound id p e).2.2⟩
  stale := fun p hp e => ⟨hs (h.stale p hp e).1, (h.stale p hp e).2⟩
  twice := fun p e => hs (h.twice p e)
  treeFresh := h.treeFresh
  keyed := h.keyed

/-- Operation `InsertNoReplace` adds the item to the items of the index, whatever the tree. -/
theorem LLRB_InsertNoReplace_perm {lt : Nat → Nat → Bool} {t t1 : LLRB Nat} {p : Nat}
    (e : LLRB.InsertNoReplace lt t p = .ok t1) :
    (Node.toList t1.root).Perm (p :: Node.toList t.root) := by
  unfold LLRB.InsertNoReplace at e
  split at e
  · simp at e
  · rename_i r e1
    simp only [Except.ok.injEq] at e
    subst e
    -- the split lemma is stated for a keyed comparison; the permutation needs none
    have : ∀ (h h' : Node Nat), Node.insertNoReplace lt h p = .ok h' →
        (Node.toList h').Perm (p :: Node.toList h) := by
      intro h
      induction h with
      | nil =>
        intro h' e
        simp only [Node.insertNoReplace, Except.ok.injEq] at e
        subst e
        simp [Node.toList]
      | node x l r b ihl ihr =>
        intro h' e
        simp only [Node.insertNoReplace] at e
        split at e
        · split at e
          · simp at e
          · rename_i l1 e1
            rw [Node.walkUpRot23_toList e, Node.toList_node, Node.toList_node]
            exact (List.Perm.append_right _ (ihl l1 e1))
        · split at e
          · simp at e
          · rename_i r1 e1
            rw [Node.walkUpRot23_toList e, Node.toList_node, Node.toList_node]
            have := ihr r1 e1
            refine (List.Perm.append_left _ (List.Perm.cons x this)).trans ?_
            refine (List.Perm.append_left _ (List.Perm.swap p x _)).trans ?_
            exact List.perm_middle
    rw [Node.toList_blacken]
    exact this _ _ e1

/-- Operation `DeleteMin` only takes items away, `min` among them, whatever the tree. -/
theorem LLRB_DeleteMin_sublist {t t1 : LLRB Nat} {min : Nat}
    (e : LLRB.DeleteMin t = .ok (t1, some min)) :
    (min :: Node.toList t1.root).Sublist (Node.toList t.root) := by
  unfold LLRB.DeleteMin at e
  split at e
  · simp at e
  · simp at e
  · rename_i r d e1
    simp only [Except.ok.injEq, Prod.mk.injEq, Option.some.injEq] at e
    obtain ⟨rfl, rfl⟩ := e
    obtain ⟨rest, a, s⟩ := Node.deleteMin_list _ _ _ _ e1
    rw [Node.toList_blacken, a]
    exact List.Sublist.cons₂ _ s

/-- Operation `Delete` only takes items away, whatever the tree. -/
theorem LLRB_Delete_subperm {lt : Nat → Nat → Bool} {t t1 : LLRB Nat} {p : Nat} {d : Option Nat}
    (e : LLRB.Delete lt t p = .ok (t1, d)) :
    (Node.toList t1.root).Subperm (Node.toList t.root) := by
  unfold LLRB.Delete at e
  split at e
  · simp at e
  · rename_i r e1
    simp only [Except.ok.injEq, Prod.mk.injEq] at e
    obtain ⟨rfl, rfl⟩ := e
    have := Node.delete_list _ _ _ _ _ _ e1
    rw [Node.toList_blacken]
    simpa using this
  · rename_i r d e1
    simp only [Except.ok.injEq, Prod.mk.injEq] at e
    obtain ⟨rfl, rfl⟩ := e
    have := Node.delete_list _ _ _ _ _ _ e1
    rw [Node.toList_blacken]
    simp only [Option.toList, List.singleton_append] at this
    exact (List.Sublist.subperm (List.sublist_cons_self _ _)).trans this

end ItemManager

namespace ItemManager

theorem IdInv.congr {m m1 : IManager} {H : List String} (h : IdInv m H)
    (hu : ∀ q, (m1.heap q).Img_url = (m.heap q).Img_url)
    (hi : ∀ q, (m1.heap q).Id = (m.heap q).Id)
    (ht : Node.toList m1.sortedItems.root = Node.toList m.sortedItems.root)
    (h1 : m1.itemsByUrl = m.itemsByUrl) (h2 : m1.itemsById = m.itemsById)
    (hn : m1.next = m.next) : IdInv m1 H where
  bound := by
    intro id p e
    rw [h2] at e
    rw [h1, hu, hi]
    exact h.bound id p e
  stale := by
    intro p hp e
    rw [ht] at hp
    rw [h1, hu] at e
    rw [hu]
    refine ⟨(h.stale p hp e).1, ?_⟩
    intro id q eq
    rw [h2] at eq
    rw [hu]
    exact (h.stale p hp e).2 id q eq
  twice := by
    intro p hp
    rw [ht] at hp
    rw [hu]
    exact h.twice p hp
  treeFresh := by
    intro p hp
    rw [ht] at hp
    rw [hn]
    exact h.treeFresh p hp
  keyed := by
    intro k p e
    rw [h1] at e
    rw [hn, hu]
    exact h.keyed k p e

/-- One round of the eviction loop keeps the invariant, whatever the shape of the index. -/
theorem IdInv_evict {m : IManager} {H : List String} (h : IdInv m H) {t : LLRB Nat} {min : Nat}
    (e : LLRB.DeleteMin m.sortedItems = .ok (t, some min)) :
    IdInv { m with sortedItems := t,
                   itemsByUrl := mapDelete m.itemsByUrl (m.heap min).Img_url,
                   itemsById := mapDelete m.itemsById (m.heap min).Id } H := by
  have hsub := LLRB_DeleteMin_sublist e
  have hmin : min ∈ Node.toList m.sortedItems.root := hsub.subset (List.mem_cons_self _ _)
  have hsub' : (Node.toList t.root).Sublist (Node.toList m.sortedItems.root) :=
    (List.sublist_cons_self _ _).trans hsub
  -- an id entry that survives does not lead to an item under the evicted key
  have hkey : ∀ id q, id ≠ (m.heap min).Id → mapGet m.itemsById id = some q →
      (m.heap q).Img_url ≠ (m.heap min).Img_url := by
    intro id q hid eq hurl
    obtain ⟨b1, b2, -⟩ := h.bound id q eq
    by_cases hres : mapGet m.itemsByUrl (m.heap min).Img_url = some min
    · rw [hurl, hres] at b1
      simp only [Option.some.injEq] at b1
      subst b1
      exact hid b2.symm
    · exact (h.stale min hmin hres).2 id q eq hurl
  constructor
  · intro id q eq
    simp only [mapGet_mapDelete] at eq ⊢
    split at eq
    · simp at eq
    · rename_i hid
      obtain ⟨b1, b2, b3⟩ := h.bound id q eq
      have hne : ¬ (m.heap min).Img_url = (m.heap q).Img_url :=
        fun c => hkey id q (fun c => hid c.symm) eq c.symm
      rw [if_neg hne]
      exact ⟨b1, b2, b3⟩
  · intro p hp hst
    have hp' := hsub'.subset hp
    simp only [mapGet_mapDelete] at hst ⊢
    have hids : ∀ id q, (if (m.heap min).Id = id then none else mapGet m.itemsById id) = some q →
        id ≠ (m.heap min).Id ∧ mapGet m.itemsById id = some q := by
      intro id q eq
      split at eq
      · simp at eq
      · rename_i hid
        exact ⟨fun c => hid c.symm, eq⟩
    by_cases hold : mapGet m.itemsByUrl (m.heap p).Img_url = some p
    · -- resident before: its key is the one deleted
      have hk : (m.heap min).Img_url = (m.heap p).Img_url := by
        by_contra c
        simp only [c, if_false] at hst
        exact hst hold
      by_cases hres : mapGet m.itemsByUrl (m.heap min).Img_url = some min
      · rw [hk, hold] at hres
        simp only [Option.some.injEq] at hres
        subst hres
        have hc : 2 ≤ (Node.toList m.sortedItems.root).count p := by
          have := hsub.count_le p
          have h1 : 0 < (Node.toList t.root).count p := List.count_pos_iff.2 hp
          simp only [List.count_cons_self] at this
          omega
        refine ⟨h.twice p hc, ?_⟩
        intro id q eq
        obtain ⟨hid, eq'⟩ := hids id q eq
        exact hkey id q hid eq'
      · obtain ⟨s1, s2⟩ := h.stale min hmin hres
        rw [← hk]
        refine ⟨s1, ?_⟩
        intro id q eq
        exact s2 id q (hids id q eq).2
    · obtain ⟨s1, s2⟩ := h.stale p hp' hold
      refine ⟨s1, ?_⟩
      intro id q eq
      exact s2 id q (hids id q eq).2
  · intro p hp
    have := hsub'.count_le p
    dsimp only at hp
    exact h.twice p (by omega)
  · intro p hp
    exact h.treeFresh p (hsub'.subset hp)
  · intro k p eq
    simp only [mapGet_mapDelete] at eq
    split at eq
    · simp at eq
    · exact h.keyed k p eq

theorem IdInv_removeTailLoop {H : List String} : ∀ (n : Nat) (m m1 : IManager), IdInv m H →
    removeTailLoop n m = .ok m1 → IdInv m1 H := by
  intro n
  induction n with
  | zero =>
    intro m m1 h e
    simp only [removeTailLoop, Except.ok.injEq] at e
    subst e; exact h
  | succ n ih =>
    intro m m1 h e
    simp only [removeTailLoop] at e
    split at e
    · simp at e
    · simp at e
    · rename_i t min e1
      exact ih _ _ (IdInv_evict h e1) e

theorem IdInv_removeTail {H : List String} {m m1 : IManager} (h : IdInv m H)
    (e : removeTail m = .ok m1) : IdInv m1 H := by
  unfold removeTail at e
  split at e
  · simp only [Except.ok.injEq] at e
    subst e; exact h
  · split at e
    · simp at e
    · rename_i m2 e2
      split at e
      · simp at e
      · simp only [Except.ok.injEq] at e
        subst e
        exact IdInv_removeTailLoop _ _ _ h e2

/-- Operation `Insert` keeps the invariant. -/
theorem IdInv_Insert {H : List String} {m m1 : IManager} (h : IdInv m H) {item : Item}
    {now : Int} {jitter : Fin 1000} {b : Bool} (e : Insert m item now jitter = .ok (m1, b)) :
    IdInv m1 H := by
  unfold Insert at e
  split at e
  · simp only [Except.ok.injEq, Prod.mk.injEq] at e
    obtain ⟨rfl, -⟩ := e
    exact h
  · rename_i hnew
    dsimp only at e
    split at e
    · simp at e
    · rename_i t et
      split at e
      · simp at e
      · rename_i m2 e2
        simp only [Except.ok.injEq, Prod.mk.injEq] at e
        obtain ⟨rfl, -⟩ := e
        refine IdInv_removeTail ?_ e2
        have hperm := LLRB_InsertNoReplace_perm et
        have hfresh : m.next ∉ Node.toList m.sortedItems.root := by
          intro c
          have := h.treeFresh _ c
          omega
        have hheap : ∀ q, q ≠ m.next →
            Function.update m.heap m.next (storedItem item now jitter) q = m.heap q :=
          fun q hq => Function.update_noteq hq _ _
        have hbl : ∀ id q, mapGet m.itemsById id = some q → q ≠ m.next := by
          intro id q eq
          have := (h.keyed _ _ (h.bound id q eq).1).1
          omega
        constructor
        · intro id q eq
          simp only at eq ⊢
          obtain ⟨b1, b2, b3⟩ := h.bound id q eq
          rw [hheap q (hbl id q eq), mapGet_mapSet]
          have : item.Img_url ≠ (m.heap q).Img_url := by
            intro c
            rw [c, b1] at hnew
            simp at hnew
          simp only [this, if_false]
          exact ⟨b1, b2, b3⟩
        · intro p hp hst
          simp only at hp hst ⊢
          rcases List.mem_cons.1 (hperm.subset hp) with hp | hp
          · exfalso
            subst hp
            apply hst
            simp [mapGet_mapSet, storedItem_url]
          · have hpn : p ≠ m.next := fun c => hfresh (c ▸ hp)
            rw [hheap p hpn] at hst ⊢
            have hold : mapGet m.itemsByUrl (m.heap p).Img_url ≠ some p := by
              intro c
              apply hst
              rw [mapGet_mapSet]
              have : item.Img_url ≠ (m.heap p).Img_url := by
                intro c2
                rw [c2, c] at hnew
                simp at hnew
              simp only [this, if_false]
              exact c
            obtain ⟨s1, s2⟩ := h.stale p hp hold
            refine ⟨s1, ?_⟩
            intro id q eq
            rw [hheap q (hbl id q eq)]
            exact s2 id q eq
        · intro p hp
          simp only at hp ⊢
          rw [hperm.count_eq] at hp
          by_cases hpn : p = m.next
          · subst hpn
            rw [List.count_cons_self, List.count_eq_zero_of_not_mem hfresh] at hp
            omega
          · rw [List.count_cons_of_ne hpn] at hp
            rw [hheap p hpn]
            exact h.twice p hp
        · intro p hp
          simp only at hp ⊢
          rcases List.mem_cons.1 (hperm.subset hp) with hp | hp
          · omega
          · have := h.treeFresh p hp
            omega
        · intro k p eq
          simp only [mapGet_mapSet] at eq ⊢
          split at eq
          · rename_i hk
            simp only [Option.some.injEq] at eq
            subst eq
            simp [storedItem_url, hk]
          · have := h.keyed k p eq
            rw [hheap p (by omega)]
            exact ⟨by omega, this.2⟩

end ItemManager

namespace ItemManager

theorem updateScore_id (item : Item) : (updateScore item).Id = item.Id := by
  unfold updateScore; split <;> rfl

theorem applyComment_url (item : Item) (c : Comment) :
    (applyComment item c).Img_url = item.Img_url := by
  unfold applyComment
  rw [updateScore_url]
  dsimp only
  split
  · rfl
  · split <;> rfl

theorem applyComment_id (item : Item) (c : Comment) : (applyComment item c).Id = item.Id := by
  unfold applyComment
  rw [updateScore_id]
  dsimp only
  split
  · rfl
  · split <;> rfl

theorem refreshJson_fields {m m1 : IManager} (e : refreshJson m = .ok m1) :
    m1.heap = m.heap ∧ m1.sortedItems = m.sortedItems ∧ m1.itemsByUrl = m.itemsByUrl ∧
      m1.itemsById = m.itemsById ∧ m1.next = m.next := by
  unfold refreshJson at e
  split at e
  · simp at e
  · simp only [Except.ok.injEq] at e
    subst e
    exact ⟨rfl, rfl, rfl, rfl, rfl⟩

/-- Operation `NotifyItemId` with a key never bound before keeps the invariant. -/
theorem IdInv_NotifyItemId {H : List String} {m : IManager} (h : IdInv m H) (url : String)
    (id : Int) (hk : url ∉ H) : IdInv (NotifyItemId m url id) (url :: H) := by
  unfold NotifyItemId
  cases hg : mapGet m.itemsByUrl url with
  | none => exact h.mono (List.subset_cons_self _ _)
  | some p =>
    dsimp only
    have hpu : (m.heap p).Img_url = url := (h.keyed url p hg).2
    have hurl : ∀ q, (Function.update m.heap p { m.heap p with Id := id } q).Img_url =
        (m.heap q).Img_url := by
      intro q
      by_cases hq : q = p
      · subst hq; simp
      · rw [Function.update_noteq hq]
    have hid : ∀ q, q ≠ p → (Function.update m.heap p { m.heap p with Id := id } q).Id =
        (m.heap q).Id := by
      intro q hq
      rw [Function.update_noteq hq]
    have hne : ∀ id1 q, mapGet m.itemsById id1 = some q → q ≠ p := by
      intro id1 q eq c
      subst c
      have := (h.bound id1 q eq).2.2
      rw [hpu] at this
      exact hk this
    constructor
    · intro id1 q eq
      simp only [mapGet_mapSet] at eq
      rw [hurl]
      split at eq
      · rename_i hi
        simp only [Option.some.injEq] at eq
        subst eq
        subst hi
        refine ⟨by rw [hpu]; exact hg, by simp, by rw [hpu]; exact List.mem_cons_self _ _⟩
      · obtain ⟨b1, b2, b3⟩ := h.bound id1 q eq
        rw [hid q (hne id1 q eq)]
        exact ⟨b1, b2, List.mem_cons_of_mem _ b3⟩
    · intro q hq hst
      rw [hurl] at hst ⊢
      obtain ⟨s1, s2⟩ := h.stale q hq hst
      refine ⟨List.mem_cons_of_mem _ s1, ?_⟩
      intro id1 q1 eq
      simp only [mapGet_mapSet] at eq
      rw [hurl]
      split at eq
      · simp only [Option.some.injEq] at eq
        subst eq
        rw [hpu]
        intro c
        rw [c] at hk
        exact hk s1
      · exact s2 id1 q1 eq
    · intro q hq
      rw [hurl]
      exact List.mem_cons_of_mem _ (h.twice q hq)
    · exact h.treeFresh
    · intro k q eq
      rw [hurl]
      exact h.keyed k q eq

/-- Operation `NotifyComment` keeps the invariant, whatever `Delete` took out of the index. -/
theorem IdInv_NotifyComment {H : List String} {m m1 : IManager} (h : IdInv m H) {c : Comment}
    (e : NotifyComment m c = .ok m1) : IdInv m1 H := by
  unfold NotifyComment at e
  split at e
  · simp only [Except.ok.injEq] at e
    subst e; exact h
  · rename_i p hb
    split at e
    · simp at e
    · rename_i t1 d e1
      dsimp only at e
      split at e
      · simp at e
      · rename_i t2 e2
        obtain ⟨f1, f2, f3, f4, f5⟩ := refreshJson_fields e
        have hsub := LLRB_Delete_subperm e1
        have hperm := LLRB_InsertNoReplace_perm e2
        obtain ⟨b1, b2, b3⟩ := h.bound _ p hb
        have hurl : ∀ q, (m1.heap q).Img_url = (m.heap q).Img_url := by
          intro q
          rw [f1]
          dsimp only
          by_cases hq : q = p
          · subst hq; simp [applyComment_url]
          · rw [Function.update_noteq hq]
        have hid : ∀ q, (m1.heap q).Id = (m.heap q).Id := by
          intro q
          rw [f1]
          dsimp only
          by_cases hq : q = p
          · subst hq; simp [applyComment_id]
          · rw [Function.update_noteq hq]
        have htree : Node.toList m1.sortedItems.root = Node.toList t2.root := by rw [f2]
        constructor
        · intro id q eq
          rw [f4] at eq
          rw [f3, hurl, hid]
          exact h.bound id q eq
        · intro q hq hst
          rw [htree] at hq
          rw [f3, hurl] at hst
          rw [hurl]
          rcases List.mem_cons.1 (hperm.subset hq) with hq | hq
          · subst hq
            exact absurd b1 hst
          · obtain ⟨s1, s2⟩ := h.stale q (hsub.subset hq) hst
            refine ⟨s1, ?_⟩
            intro id q1 eq
            rw [f4] at eq
            rw [hurl]
            exact s2 id q1 eq
        · intro q hq
          rw [htree, hperm.count_eq] at hq
          rw [hurl]
          by_cases hqp : q = p
          · subst hqp; exact b3
          · rw [List.count_cons_of_ne hqp] at hq
            have := hsub.count_le q
            exact h.twice q (by omega)
        · intro q hq
          rw [htree] at hq
          rw [f5]
          rcases List.mem_cons.1 (hperm.subset hq) with hq | hq
          · subst hq
            exact (h.keyed _ _ b1).1
          · exact h.treeFresh q (hsub.subset hq)
        · intro k q eq
          rw [f3] at eq
          rw [f5, hurl]
          exact h.keyed k q eq

/-- The invariant along a run in which no key is handed to `NotifyItemId` twice. -/
theorem IdInv_run : ∀ (calls : List Call) (m m1 : IManager) (H : List String), IdInv m H →
    (boundKeys calls).Nodup → (∀ k ∈ boundKeys calls, k ∉ H) → run m calls = .ok m1 →
    ∃ H1, IdInv m1 H1 := by
  intro calls
  induction calls with
  | nil =>
    intro m m1 H h _ _ e
    simp only [run, Except.ok.injEq] at e
    subst e
    exact ⟨H, h⟩
  | cons c cs ih =>
    intro m m1 H h hnd hdis e
    simp only [run] at e
    split at e
    · simp at e
    · rename_i m2 e2
      cases c with
      | insert item now jitter =>
        simp only [step] at e2
        split at e2
        · simp at e2
        · rename_i m3 b e3
          simp only [Except.ok.injEq] at e2
          subst e2
          exact ih _ _ H (IdInv_Insert h e3) (by simpa [boundKeys] using hnd)
            (by simpa [boundKeys] using hdis) e
      | notifyItemId url id =>
        simp only [step, Except.ok.injEq] at e2
        subst e2
        simp only [boundKeys, List.nodup_cons] at hnd
        have hk : url ∉ H := hdis url (by simp [boundKeys])
        refine ih _ _ (url :: H) (IdInv_NotifyItemId h url id hk) hnd.2 ?_ e
        intro k hkm
        simp only [List.mem_cons, not_or]
        refine ⟨?_, hdis k (by simp [boundKeys, hkm])⟩
        rintro rfl
        exact hnd.1 hkm
      | notifyComment cm =>
        simp only [step] at e2
        exact ih _ _ H (IdInv_NotifyComment h e2) (by simpa [boundKeys] using hnd)
          (by simpa [boundKeys] using hdis) e

end ItemManager

namespace ItemManager

theorem succeeds_ok {α : Type} {x : Except Fault α} (h : succeeds x = true) : ∃ a, x = .ok a := by
  cases x with
  | error e => simp [succeeds] at h
  | ok a => exact ⟨a, rfl⟩

theorem run_runState {m : IManager} {calls : List Call} (h : succeeds (run m calls) = true) :
    run m calls = .ok (runState m calls) := by
  obtain ⟨a, e⟩ := succeeds_ok h
  simp [runState, e]

theorem runState_of_ok {m m1 : IManager} {calls : List Call} (e : run m calls = .ok m1) :
    runState m calls = m1 := by
  simp [runState, e]

theorem run_append (m : IManager) (a b : List Call) :
    run m (a ++ b) = match run m a with
      | .error e => .error e
      | .ok m1 => run m1 b := by
  induction a generalizing m with
  | nil => simp [run]
  | cons c cs ih =>
    simp only [List.cons_append, run]
    cases step m c with
    | error e => simp
    | ok m1 => simp [ih]

/-- Inserts and id bindings never panic from a well-formed state and keep it well formed
and within capacity. -/
theorem run_structural_WF : ∀ (calls : List Call) (m : IManager), WF m →
    m.itemsByUrl.length ≤ max_items → (∀ c ∈ calls, c.isStructural = true) →
    ∃ m1, run m calls = .ok m1 ∧ WF m1 ∧ m1.itemsByUrl.length ≤ max_items := by
  intro calls
  induction calls with
  | nil => intro m hwf hl _; exact ⟨m, rfl, hwf, hl⟩
  | cons c cs ih =>
    intro m hwf hl hs
    have hcs : ∀ c ∈ cs, c.isStructural = true := fun c hc => hs c (List.mem_cons_of_mem _ hc)
    cases c with
    | insert item now jitter =>
      obtain ⟨m1, b, e, w, -, l⟩ := Insert_WF hwf item now jitter
      obtain ⟨m2, e2, w2, l2⟩ := ih m1 w (l hl) hcs
      exact ⟨m2, by simp [run, step, e, e2], w2, l2⟩
    | notifyItemId url id =>
      have w := NotifyItemId_WF hwf url id
      have l : (NotifyItemId m url id).itemsByUrl.length ≤ max_items := by
        unfold NotifyItemId
        split <;> exact hl
      obtain ⟨m2, e2, w2, l2⟩ := ih _ w l hcs
      exact ⟨m2, by simp [run, step, e2], w2, l2⟩
    | notifyComment cm =>
      have := hs _ (List.mem_cons_self _ _)
      simp [Call.isStructural] at this

theorem runState_structural_WF (calls : List Call) (hs : ∀ c ∈ calls, c.isStructural = true) :
    run NewManager calls = .ok (runState NewManager calls) ∧ WF (runState NewManager calls) := by
  obtain ⟨m1, e, w, -⟩ := run_structural_WF calls NewManager WF_NewManager
    (by simp [NewManager, max_items]) hs
  rw [runState_of_ok e]
  exact ⟨e, w⟩

theorem insertCalls_structural (ins : List (Item × Int × Fin 1000)) :
    ∀ c ∈ insertCalls ins, c.isStructural = true := by
  intro c hc
  obtain ⟨t, -, rfl⟩ := List.mem_map.1 hc
  rfl

theorem fillCalls_structural (n : Nat) (start ncomm : Int) :
    ∀ c ∈ fillCalls n start ncomm, c.isStructural = true := by
  intro c hc
  obtain ⟨t, -, rfl⟩ := List.mem_map.1 hc
  rfl

theorem WF.residents_nodup {m : IManager} (hwf : WF m) : (residents m).Nodup := by
  unfold residents
  refine List.Nodup.map_on ?_ (List.Nodup.of_map _ hwf.keysNodup)
  intro e1 h1 e2 h2 h
  have k1 := hwf.keys e1 h1
  have k2 := hwf.keys e2 h2
  rw [h] at k1
  exact Prod.ext (k1.symm.trans k2) h

theorem removeTailLoop_json : ∀ (n : Nat) (m m1 : IManager), removeTailLoop n m = .ok m1 →
    m1.json = m.json ∧ m1.json_zipped = m.json_zipped := by
  intro n
  induction n with
  | zero =>
    intro m m1 e
    simp only [removeTailLoop, Except.ok.injEq] at e
    subst e; exact ⟨rfl, rfl⟩
  | succ n ih =>
    intro m m1 e
    simp only [removeTailLoop] at e
    split at e
    · simp at e
    · simp at e
    · have := ih _ _ e
      exact this

theorem removeTail_json {m m1 : IManager} (e : removeTail m = .ok m1) :
    m1.json = m.json ∧ m1.json_zipped = m.json_zipped := by
  unfold removeTail at e
  split at e
  · simp only [Except.ok.injEq] at e
    subst e; exact ⟨rfl, rfl⟩
  · split at e
    · simp at e
    · rename_i m2 e2
      split at e
      · simp at e
      · simp only [Except.ok.injEq] at e
        subst e
        exact removeTailLoop_json _ _ _ e2

end ItemManager


namespace ItemManager

theorem updateScore_time (x : Item) : (updateScore x).time = x.time := by
  unfold updateScore
  cases x.BestComment <;> rfl

theorem updateScore_idem (x : Item) :
    (updateScore (updateScore x)).score = (updateScore x).score := by
  unfold updateScore
  cases h : x.BestComment <;> simp [h]

theorem storedItem_time (item : Item) (now : Int) (jitter : Fin 1000) :
    -4611686018427387904 ≤ (storedItem item now jitter).time ∧
      (storedItem item now jitter).time ≤ 4611686018427387904 := by
  unfold storedItem
  rw [updateScore_time]
  dsimp only
  have hj := jitter.isLt
  have hw : -9223372036854775808 ≤ wrap64 now ∧ wrap64 now < 9223372036854775808 := by
    unfold wrap64; omega
  by_cases h0 : 0 ≤ wrap64 now
  · rw [Int.tdiv_eq_ediv h0 (by decide)]
    rw [wrap64_id (by omega) (by omega)]
    omega
  · have e : wrap64 now = -(-(wrap64 now)) := by omega
    rw [e, Int.neg_tdiv, Int.tdiv_eq_ediv (by omega) (by decide)]
    rw [wrap64_id (by omega) (by omega)]
    omega

theorem Scored_NewManager : Scored NewManager := by
  have h : ((-4611686018427387904 : Int) ≤ (NewManager.heap 0).time ∧
      (NewManager.heap 0).time ≤ 4611686018427387904) ∧
      (NewManager.heap 0).score = (updateScore (NewManager.heap 0)).score := by decide!
  intro p
  exact h

theorem removeTailLoop_heap : ∀ (n : Nat) (m m1 : IManager), removeTailLoop n m = .ok m1 →
    m1.heap = m.heap := by
  intro n
  induction n with
  | zero =>
    intro m m1 e
    simp only [removeTailLoop, Except.ok.injEq] at e
    subst e; rfl
  | succ n ih =>
    intro m m1 e
    simp only [removeTailLoop] at e
    split at e
    · simp at e
    · simp at e
    · have := ih _ _ e
      exact this

theorem removeTail_heap {m m1 : IManager} (e : removeTail m = .ok m1) : m1.heap = m.heap := by
  unfold removeTail at e
  split at e
  · simp only [Except.ok.injEq] at e
    subst e; rfl
  · split at e
    · simp at e
    · rename_i m2 e2
      split at e
      · simp at e
      · simp only [Except.ok.injEq] at e
        subst e
        exact removeTailLoop_heap _ _ _ e2

theorem Scored_update {m : IManager} (h : Scored m) (p : Nat) (x : Item)
    (hx : (-4611686018427387904 ≤ x.time ∧ x.time ≤ 4611686018427387904) ∧
      x.score = (updateScore x).score) (heap : Nat → Item)
    (e : heap = Function.update m.heap p x) : ∀ q,
    (-4611686018427387904 ≤ (heap q).time ∧ (heap q).time ≤ 4611686018427387904) ∧
      (heap q).score = (updateScore (heap q)).score := by
  intro q
  subst e
  by_cases hq : q = p
  · subst hq; rw [Function.update_same]; exact hx
  · rw [Function.update_noteq hq]; exact h q

theorem Scored_Insert {m m1 : IManager} {item : Item} {now : Int} {jitter : Fin 1000} {b : Bool}
    (e : Insert m item now jitter = .ok (m1, b)) (h : Scored m) : Scored m1 := by
  unfold Insert at e
  split at e
  · simp only [Except.ok.injEq, Prod.mk.injEq] at e
    obtain ⟨rfl, -⟩ := e
    exact h
  · dsimp only at e
    split at e
    · simp at e
    · split at e
      · simp at e
      · rename_i m2 e2
        simp only [Except.ok.injEq, Prod.mk.injEq] at e
        obtain ⟨rfl, -⟩ := e
        have hh := removeTail_heap e2
        dsimp only at hh
        exact Scored_update h m.next (storedItem item now jitter)
          ⟨storedItem_time item now jitter, by
            unfold storedItem; exact (updateScore_idem _).symm⟩ _ hh

theorem Scored_NotifyItemId {m : IManager} (h : Scored m) (url : String) (id : Int) :
    Scored (NotifyItemId m url id) := by
  unfold NotifyItemId
  cases hg : mapGet m.itemsByUrl url with
  | none => exact h
  | some p =>
    dsimp only
    refine Scored_update h p { m.heap p with Id := id } ⟨(h p).1, ?_⟩ _ rfl
    have := (h p).2
    unfold updateScore at this ⊢
    cases hb : (m.heap p).BestComment <;> simp [hb] at this ⊢ <;> exact this

theorem applyComment_time (item : Item) (c : Comment) :
    (applyComment item c).time = item.time := by
  unfold applyComment
  rw [updateScore_time]
  cases h : item.BestComment with
  | none => rfl
  | some prev =>
    dsimp only
    split <;> rfl

theorem Scored_NotifyComment {m m1 : IManager} {c : Comment} (e : NotifyComment m c = .ok m1)
    (h : Scored m) : Scored m1 := by
  unfold NotifyComment at e
  split at e
  · simp only [Except.ok.injEq] at e
    subst e; exact h
  · rename_i p hp
    split at e
    · simp at e
    · dsimp only at e
      split at e
      · simp at e
      · have hh := (refreshJson_fields e).1
        dsimp only at hh
        refine Scored_update h p (applyComment (m.heap p) c) ⟨?_, ?_⟩ _ hh
        · rw [applyComment_time]; exact (h p).1
        · unfold applyComment; exact (updateScore_idem _).symm

theorem Scored_run : ∀ (calls : List Call) (m m1 : IManager), run m calls = .ok m1 →
    Scored m → Scored m1 := by
  intro calls
  induction calls with
  | nil =>
    intro m m1 e h
    simp only [run, Except.ok.injEq] at e
    subst e; exact h
  | cons c cs ih =>
    intro m m1 e h
    simp only [run] at e
    split at e
    · simp at e
    · rename_i m2 e2
      refine ih _ _ e ?_
      cases c with
      | insert item now jitter =>
        simp only [step] at e2
        split at e2
        · simp at e2
        · rename_i m3 b e3
          simp only [Except.ok.injEq] at e2
          subst e2
          exact Scored_Insert e3 h
      | notifyItemId url id =>
        simp only [step, Except.ok.injEq] at e2
        subst e2
        exact Scored_NotifyItemId h url id
      | notifyComment cm =>
        simp only [step] at e2
        exact Scored_NotifyComment e2 h

end ItemManager

namespace ItemManager
namespace Node
variable {α : Type}

theorem Removed.append_right {d : Option α} {a b : List α} (h : Removed d a b) (s : List α) :
    Removed d (a ++ s) (b ++ s) := by
  cases d with
  | none => simp only [Removed] at h ⊢; rw [h]
  | some y =>
    obtain ⟨l1, l2, e1, e2⟩ := h
    exact ⟨l1, l2 ++ s, by rw [e1]; simp, by rw [e2]; simp⟩

theorem Removed.append_left {d : Option α} {a b : List α} (h : Removed d a b) (p : List α) :
    Removed d (p ++ a) (p ++ b) := by
  cases d with
  | none => simp only [Removed] at h ⊢; rw [h]
  | some y =>
    obtain ⟨l1, l2, e1, e2⟩ := h
    exact ⟨p ++ l1, l2, by rw [e1]; simp, by rw [e2]; simp⟩

theorem Removed.sublist {d : Option α} {a b : List α} (h : Removed d a b) : b.Sublist a := by
  cases d with
  | none => simp only [Removed] at h; rw [h]
  | some y =>
    obtain ⟨l1, l2, e1, e2⟩ := h
    rw [e1, e2]
    exact List.Sublist.append (List.Sublist.refl _) (List.sublist_cons_self _ _)

theorem pw_left {R : α → α → Prop} {x : α} {l r : Node α} {b : Bool}
    (h : (toList (node x l r b)).Pairwise R) : (toList l).Pairwise R := by
  rw [toList_node] at h
  exact (List.pairwise_append.1 h).1

theorem pw_right {R : α → α → Prop} {x : α} {l r : Node α} {b : Bool}
    (h : (toList (node x l r b)).Pairwise R) : (toList r).Pairwise R := by
  rw [toList_node] at h
  exact (List.pairwise_cons.1 (List.pairwise_append.1 h).2.1).2

theorem pw_left_root {R : α → α → Prop} {x : α} {l r : Node α} {b : Bool}
    (h : (toList (node x l r b)).Pairwise R) : ∀ y ∈ toList l, R y x := by
  rw [toList_node] at h
  intro y hy
  exact (List.pairwise_append.1 h).2.2 y hy x (List.mem_cons_self _ _)

theorem pw_root_right {R : α → α → Prop} {x : α} {l r : Node α} {b : Bool}
    (h : (toList (node x l r b)).Pairwise R) : ∀ y ∈ toList r, R x y := by
  rw [toList_node] at h
  intro y hy
  exact (List.pairwise_cons.1 (List.pairwise_append.1 h).2.1).1 y hy

/-- Operation `fixUp` on a black node with valid children of the same height. -/
theorem fixUp_black_any {x : α} {l r : Node α} {k : Nat} (hl : LL l k) (hr : LL r k) :
    ∃ h2, fixUp (node x l r true) = .ok h2 ∧ LL h2 (k + 1) ∧
      (isRed l = false → isRed h2 = false) := by
  rcases r with _ | ⟨c, rl, rr, rb⟩ <;> rcases l with _ | ⟨y, ll, lr, lb⟩ <;>
    (try rcases ll with _ | ⟨u, lll, llr, llb⟩)
  all_goals (try cases rb) <;> (try cases lb) <;> (try cases llb) <;>
    (try simp_all [fixUp, left, right, rotateLeft, rotateRight, flip]) <;>
    (try (obtain ⟨rfl, _⟩ := hl; simp_all))

/-- Operation `moveRedRight` on a red node whose right child is a black 2-node. -/
theorem moveRedRight_red {x z : α} {l rl rr : Node α} {k : Nat}
    (hv : LL (node x l (node z rl rr true) false) (k + 1)) (hrl : isRed rl = false) :
    ∃ h2, moveRedRight (node x l (node z rl rr true) false) = .ok h2 ∧
      ((isRed h2 = true ∧ LL (left h2) (k + 1) ∧ isRed (left h2) = false ∧
          (∃ lr, right h2 = node x lr (node z rl rr false) true ∧ LL lr k ∧ isRed lr = false) ∧
          LL (node z rl rr false) k) ∨
       (∃ l', h2 = node x l' (node z rl rr false) true ∧ LL l' k ∧ isRed l' = true ∧
          LL (node z rl rr false) k)) := by
  rcases l with _ | ⟨y, ll, lr, lb⟩
  · simp_all
  · rcases ll with _ | ⟨u, lll, llr, llb⟩
    · cases lb <;> simp_all [moveRedRight, flip, left, right, rotateLeft, rotateRight]
      obtain ⟨⟨rfl, h2, h3⟩, h4, h5, h6⟩ := hv
      simp_all
    · cases lb <;> cases llb <;>
        simp_all [moveRedRight, flip, left, right, rotateLeft, rotateRight]

end Node
end ItemManager

namespace ItemManager
namespace Node
variable {α : Type}

/-- Operation `delete` below the root, for a key that at most one item of the sorted tree carries:
on a red node, on a black node with a red left child, and on the shape `moveRedRight` leaves on
the right, it returns a valid tree of the same black height, and the item it takes out carries
the key and leaves the order of the others as it was. -/
theorem delete_LL (key : α → Int) (item : α) : ∀ (fuel : Nat) (h : Node α) (n : Nat),
    size h < fuel →
    (toList h).Pairwise (fun a b => key a ≤ key b ∧ ¬(key a = key item ∧ key b = key item)) →
    ((LL h n ∧ (isRed h = true ∨ isRed (left h) = true)) ∨
      (∃ x l z rl rr k, h = node x l (node z rl rr false) true ∧ n = k + 1 ∧ LL l k ∧
        isRed l = false ∧ LL (node z rl rr false) k ∧ key x ≤ key item)) →
    ∃ h' d, delete (fun a b => decide (key a < key b)) fuel h item = .ok (h', d) ∧
      LL h' n ∧ (isRed h = false → isRed h' = false) ∧
      (∀ y, d = some y → key y = key item) ∧ Removed d (toList h) (toList h') := by
  intro fuel
  induction fuel with
  | zero => intro h n hs; omega
  | succ fuel ih =>
    intro h n hs hq hp
    rcases hp with ⟨hv, hc⟩ | ⟨x, l, z, rl, rr, k, rfl, rfl, hl, hlb, hr, hkx⟩
    · rcases h with _ | ⟨x, l, r, b⟩
      · simp [left] at hc
      · by_cases hlt : key item < key x
        · -- the key is less: go left
          have hd : decide (key item < key x) = true := by simpa using hlt
          rcases l with _ | ⟨y, ll, lr, lb⟩
          · refine ⟨node x nil r b, none, ?_, hv, fun h => h, by simp, rfl⟩
            simp [delete, hd]
          · have hsl : size (node y ll lr lb) < fuel := by simp [size] at hs ⊢; omega
            by_cases c : lb = true ∧ isRed ll = false
            · -- the left child is a black 2-node: the node is red, `moveRedLeft`
              obtain ⟨hlbt, hll⟩ := c
              subst hlbt
              have hb : b = false := by
                rcases hc with hc | hc
                · simpa using hc
                · simp [left] at hc
              subst hb
              cases n with
              | zero => simp at hv
              | succ k =>
                obtain ⟨h1, e1, c1⟩ := moveRedLeft_red hv hll
                have hne : h1 ≠ nil := by
                  rintro rfl
                  rcases c1 with c1 | c1 <;> simp [left] at c1
                obtain ⟨x1, l1, r1, b1, rfl⟩ := exists_node_of_ne_nil hne
                simp only [left, right, isRed_node] at c1
                have ht := moveRedLeft_toList e1
                have hsz := size_moveRedLeft e1
                have hs1 : size l1 < fuel := by simp [size] at hs hsz ⊢; omega
                have hq1 : (toList (node x1 l1 r1 b1)).Pairwise
                    (fun a b => key a ≤ key b ∧ ¬(key a = key item ∧ key b = key item)) := by
                  rw [ht]; exact hq
                rcases c1 with ⟨hb1, v1, bl1, rl1, vr1, br1⟩ | ⟨hb1, v1, rl1, vr1, rr1⟩
                · have hb1' : b1 = false := by simpa using hb1
                  subst hb1'
                  obtain ⟨l2, d, e, v2, b2, kd, rm⟩ :=
                    ih l1 (k + 1) hs1 (pw_left hq1) (Or.inl ⟨v1, Or.inr rl1⟩)
                  have fx : fixUp (node x1 l2 r1 false) = .ok (node x1 l2 r1 false) :=
                    fixUp_id br1 (fun h => by rw [b2 bl1] at h; cases h)
                  refine ⟨node x1 l2 r1 false, d, ?_, ?_, by simp, kd, ?_⟩
                  · simp only [delete]
                    simp [hd, hll, e1, e, fx]
                  · simp [v2, vr1, b2 bl1, br1]
                  · have := rm.append_right (x1 :: toList r1)
                    rw [← ht, toList_node, toList_node]
                    exact this
                · have hb1' : b1 = true := by simpa using hb1
                  subst hb1'
                  obtain ⟨l2, d, e, v2, -, kd, rm⟩ :=
                    ih l1 k hs1 (pw_left hq1) (Or.inl ⟨v1, Or.inl rl1⟩)
                  obtain ⟨h2, e2, v3, -⟩ := fixUp_black_any (x := x1) v2 vr1
                  refine ⟨h2, d, ?_, v3, by simp, kd, ?_⟩
                  · simp only [delete]
                    simp [hd, hll, e1, e, e2]
                  · have := rm.append_right (x1 :: toList r1)
                    rw [fixUp_toList e2, ← ht, toList_node, toList_node]
                    exact this
            · -- no move: the recursion goes to the left child as it is
              cases b
              · -- red node: the left child is black with a red left child
                simp only [LL_red] at hv
                obtain ⟨hl, hr, hlb, hrb⟩ := hv
                have hlbt : lb = true := by simpa using hlb
                subst hlbt
                have hll : isRed ll = true := by
                  cases hx : isRed ll
                  · exact absurd ⟨rfl, hx⟩ c
                  · rfl
                obtain ⟨l2, d, e, v2, b2, kd, rm⟩ :=
                  ih _ n hsl (pw_left hq) (Or.inl ⟨hl, Or.inr (by simpa [left] using hll)⟩)
                have b2' := b2 (by simp)
                have fx : fixUp (node x l2 r false) = .ok (node x l2 r false) :=
                  fixUp_id hrb (fun h => by rw [b2'] at h; cases h)
                refine ⟨node x l2 r false, d, ?_, ?_, by simp, kd, ?_⟩
                · simp only [delete]
                  simp [hd, hll, e, fx]
                · simp [v2, hr, b2', hrb]
                · have := rm.append_right (x :: toList r)
                  rw [toList_node, toList_node]
                  exact this
              · -- black node with a red left child
                have hlr : lb = false := by
                  rcases hc with hc | hc
                  · simp at hc
                  · simpa [left] using hc
                subst hlr
                cases n with
                | zero => simp at hv
                | succ k =>
                  simp only [LL_black_succ] at hv
                  obtain ⟨hl, hr, hrb⟩ := hv
                  obtain ⟨l2, d, e, v2, -, kd, rm⟩ :=
                    ih _ k hsl (pw_left hq) (Or.inl ⟨hl, Or.inl (by simp)⟩)
                  have fx : fixUp (node x l2 r true) = .ok (node x l2 r true) :=
                    fixUp_id hrb (fun h => LL_red_left_black v2 h)
                  refine ⟨node x l2 r true, d, ?_, ?_, by simp, kd, ?_⟩
                  · simp only [delete]
                    simp [hd, e, fx]
                  · simp [v2, hr, hrb]
                  · have := rm.append_right (x :: toList r)
                    rw [toList_node, toList_node]
                    exact this
        · -- the key is not less
          have hd : decide (key item < key x) = false := by simpa using hlt
          have hkx : key x ≤ key item := by omega
          by_cases hlred : isRed l = true
          · -- a red left child is rotated up; its item is before the key
            obtain ⟨y, ll, lr, rfl⟩ := exists_red_node hlred
            have hb : b = true := by
              cases b
              · simp only [LL_red] at hv
                simp at hv
              · rfl
            subst hb
            cases n with
            | zero => simp at hv
            | succ k =>
              simp only [LL_black_succ, LL_red] at hv
              obtain ⟨⟨vll, vlr, bll, blr⟩, hr, hrb⟩ := hv
              have vr1 : LL (node x lr r false) k := by simp [vlr, hr, blr, hrb]
              have hs1 : size (node x lr r false) < fuel := by simp [size] at hs ⊢; omega
              have hq1 : (toList (node y ll (node x lr r false) true)).Pairwise
                  (fun a b => key a ≤ key b ∧ ¬(key a = key item ∧ key b = key item)) := by
                have : toList (node y ll (node x lr r false) true) =
                    toList (node x (node y ll lr false) r true) := by simp [toList]
                rw [this]; exact hq
              have hyx := pw_left_root hq y (by simp [toList])
              have hdy : decide (key y < key item) = true := by
                have : key y < key item := by omega
                simpa using this
              obtain ⟨r3, d, e, v3, -, kd, rm⟩ :=
                ih _ k hs1 (pw_right hq1) (Or.inl ⟨vr1, Or.inl (by simp)⟩)
              obtain ⟨h3, e3, v4, c4⟩ := fixUp_black_any (x := y) vll v3
              refine ⟨h3, d, ?_, v4, fun _ => c4 bll, kd, ?_⟩
              · simp only [delete]
                simp [hd, rotateRight, hdy, e, e3]
              · have := rm.append_left (toList ll ++ [y])
                rw [fixUp_toList e3]
                simpa [toList] using this
          · have hlb : isRed l = false := by simpa using hlred
            have hb : b = false := by
              rcases hc with hc | hc
              · simpa using hc
              · simp only [left] at hc; rw [hlb] at hc; cases hc
            subst hb
            simp only [LL_red] at hv
            obtain ⟨hl, hr, -, hrb⟩ := hv
            rcases r with _ | ⟨z, rl, rr, rb⟩
            · -- a red leaf
              simp only [LL_nil] at hr
              subst hr
              have := LL_zero_black hl hlb
              subst this
              by_cases heq : key x < key item
              · have hdx : decide (key x < key item) = true := by simpa using heq
                cases fuel with
                | zero => simp [size] at hs
                | succ fuel =>
                  refine ⟨node x nil nil false, none, ?_, by simp, by simp, by simp, rfl⟩
                  simp [delete, hd, hdx, fixUp, left, right]
              · have hdx : decide (key x < key item) = false := by simpa using heq
                refine ⟨nil, some x, ?_, by simp, by simp, ?_, ⟨[], [], by simp [toList],
                  by simp [toList]⟩⟩
                · simp [delete, hd, hdx]
                · intro y hy
                  cases hy
                  omega
            · have hrbt : rb = true := by simpa using hrb
              subst hrbt
              have hsr : size (node z rl rr true) < fuel := by simp [size] at hs ⊢; omega
              by_cases c : isRed rl = false
              · -- the right child is a black 2-node: `moveRedRight`
                cases n with
                | zero => simp at hr
                | succ k =>
                  have hv : LL (node x l (node z rl rr true) false) (k + 1) := by
                    simp only [LL_red]; exact ⟨hl, hr, hlb, by simp⟩
                  obtain ⟨h2, e1, c2⟩ := moveRedRight_red hv c
                  have ht := moveRedRight_toList e1
                  have hsz := size_moveRedRight e1
                  rcases c2 with ⟨hb2, vl2, bl2, ⟨lr', er, vlr, blr⟩, vz⟩ | ⟨l', rfl, vl', rl', vz⟩
                  · -- rotated: the item on top is before the key
                    obtain ⟨x2, l2, r2, rfl⟩ := exists_red_node hb2
                    simp only [left, right] at vl2 bl2 er
                    subst er
                    have hq2 : (toList (node x2 l2 (node x lr' (node z rl rr false) true)
                        false)).Pairwise
                        (fun a b => key a ≤ key b ∧ ¬(key a = key item ∧ key b = key item)) := by
                      rw [ht]; exact hq
                    have hx2 := pw_root_right hq2 x (by simp [toList])
                    have hdx2 : decide (key x2 < key item) = true := by
                      have : key x2 < key item := by omega
                      simpa using this
                    have hs2 : size (node x lr' (node z rl rr false) true) < fuel := by
                      simp [size] at hs hsz ⊢; omega
                    obtain ⟨r3, d, e, v3, b3, kd, rm⟩ :=
                      ih _ (k + 1) hs2 (pw_right hq2)
                        (Or.inr ⟨x, lr', z, rl, rr, k, rfl, rfl, vlr, blr, vz, hkx⟩)
                    have b3' := b3 (by simp)
                    have fx : fixUp (node x2 l2 r3 false) = .ok (node x2 l2 r3 false) :=
                      fixUp_id b3' (fun h => by rw [bl2] at h; cases h)
                    refine ⟨node x2 l2 r3 false, d, ?_, ?_, by simp, kd, ?_⟩
                    · simp only [delete]
                      simp [hd, hlb, c, e1, hdx2, e, fx]
                    · simp [vl2, v3, bl2, b3']
                    · have := rm.append_left (toList l2 ++ [x2])
                      rw [← ht]
                      simpa [toList] using this
                  · -- not rotated: both children are red now
                    have hq2 : (toList (node x l' (node z rl rr false) true)).Pairwise
                        (fun a b => key a ≤ key b ∧ ¬(key a = key item ∧ key b = key item)) := by
                      rw [ht]; exact hq
                    have hs2 : size (node z rl rr false) < fuel := by
                      simp [size] at hs hsz ⊢; omega
                    by_cases heq : key x < key item
                    · have hdx : decide (key x < key item) = true := by simpa using heq
                      obtain ⟨r3, d, e, v3, -, kd, rm⟩ :=
                        ih _ k hs2 (pw_right hq2) (Or.inl ⟨vz, Or.inl (by simp)⟩)
                      obtain ⟨h3, e3, v4, -⟩ := fixUp_black_any (x := x) vl' v3
                      refine ⟨h3, d, ?_, v4, by simp, kd, ?_⟩
                      · simp only [delete]
                        simp [hd, hlb, c, e1, hdx, e, e3]
                      · have := rm.append_left (toList l' ++ [x])
                        rw [fixUp_toList e3, ← ht]
                        simpa [toList] using this
                    · have hdx : decide (key x < key item) = false := by simpa using heq
                      obtain ⟨r3, sub, e, v3, t3⟩ := (deleteMin_LL fuel _ k hs2 vz).1 (by simp)
                      obtain ⟨h3, e3, v4, -⟩ := fixUp_black_any (x := sub) vl' v3
                      refine ⟨h3, some x, ?_, v4, by simp, ?_, ?_⟩
                      · simp only [delete]
                        simp [hd, hlb, c, e1, hdx, e, e3]
                      · intro y hy
                        cases hy
                        omega
                      · refine ⟨toList l', sub :: toList r3, ?_, ?_⟩
                        · rw [← ht, toList_node, t3]
                        · rw [fixUp_toList e3, toList_node]
              · -- the right child is black with a red left child
                have hrl : isRed rl = true := by simpa using c
                by_cases heq : key x < key item
                · have hdx : decide (key x < key item) = true := by simpa using heq
                  obtain ⟨r3, d, e, v3, b3, kd, rm⟩ :=
                    ih _ n hsr (pw_right hq) (Or.inl ⟨hr, Or.inr (by simpa [left] using hrl)⟩)
                  have b3' := b3 (by simp)
                  have fx : fixUp (node x l r3 false) = .ok (node x l r3 false) :=
                    fixUp_id b3' (fun h => by rw [hlb] at h; cases h)
                  refine ⟨node x l r3 false, d, ?_, ?_, by simp, kd, ?_⟩
                  · simp only [delete]
                    simp [hd, hlb, hrl, hdx, e, fx]
                  · simp [hl, v3, hlb, b3']
                  · have := rm.append_left (toList l ++ [x])
                    simpa [toList] using this
                · have hdx : decide (key x < key item) = false := by simpa using heq
                  obtain ⟨r3, sub, e, v3, b3, t3⟩ :=
                    (deleteMin_LL fuel _ n hsr hr).2 (by simp) (by simpa [left] using hrl)
                  have fx : fixUp (node sub l r3 false) = .ok (node sub l r3 false) :=
                    fixUp_id b3 (fun h => by rw [hlb] at h; cases h)
                  refine ⟨node sub l r3 false, some x, ?_, ?_, by simp, ?_, ?_⟩
                  · simp only [delete]
                    simp [hd, hlb, hrl, hdx, e, fx]
                  · simp [hl, v3, hlb, b3]
                  · intro y hy
                    cases hy
                    omega
                  · refine ⟨toList l, sub :: toList r3, ?_, ?_⟩
                    · rw [toList_node, t3]
                    · rw [toList_node]
    · -- the shape `moveRedRight` leaves on the right: a black node with a red right child
      have hd : decide (key item < key x) = false := by
        have : ¬ key item < key x := by omega
        simpa using this
      have hsr : size (node z rl rr false) < fuel := by simp [size] at hs ⊢; omega
      by_cases heq : key x < key item
      · have hdx : decide (key x < key item) = true := by simpa using heq
        obtain ⟨r3, d, e, v3, -, kd, rm⟩ :=
          ih _ k hsr (pw_right hq) (Or.inl ⟨hr, Or.inl (by simp)⟩)
        obtain ⟨h3, e3, v4, c4⟩ := fixUp_black_any (x := x) hl v3
        refine ⟨h3, d, ?_, v4, fun _ => c4 hlb, kd, ?_⟩
        · simp only [delete]
          simp [hd, hlb, hdx, e, e3]
        · have := rm.append_left (toList l ++ [x])
          rw [fixUp_toList e3]
          simpa [toList] using this
      · have hdx : decide (key x < key item) = false := by simpa using heq
        obtain ⟨r3, sub, e, v3, t3⟩ := (deleteMin_LL fuel _ k hsr hr).1 (by simp)
        obtain ⟨h3, e3, v4, c4⟩ := fixUp_black_any (x := sub) hl v3
        refine ⟨h3, some x, ?_, v4, fun _ => c4 hlb, ?_, ?_⟩
        · simp only [delete]
          simp [hd, hlb, hdx, e, e3]
        · intro y hy
          cases hy
          omega
        · refine ⟨toList l, sub :: toList r3, ?_, ?_⟩
          · rw [toList_node, t3]
          · rw [fixUp_toList e3, toList_node]

end Node
end ItemManager

namespace ItemManager
namespace Node
variable {α : Type}

theorem fixUp_recolor {x : α} {l r : Node α} {b : Bool} (b' : Bool) {h : Node α}
    (e : fixUp (node x l r b) = .ok h) :
    ∃ h2, fixUp (node x l r b') = .ok h2 ∧ blacken h2 = blacken h := by
  rcases r with _ | ⟨c, rl, rr, rb⟩ <;> rcases l with _ | ⟨y, ll, lr, lb⟩ <;>
    (try rcases ll with _ | ⟨u, lll, llr, llb⟩) <;> (try rcases rr with _ | ⟨v, rrl, rrr, rrb⟩)
  all_goals (try cases rb) <;> (try cases lb) <;> (try cases llb) <;> (try cases rrb) <;>
    cases b <;> cases b' <;>
    (simp [fixUp, isRed, left, right, rotateLeft, rotateRight, flip] at e ⊢; subst e; simp)

theorem moveRedLeft_recolor {x : α} {l r : Node α} {b : Bool} (b' : Bool) (c : Bool)
    {x1 : α} {l1 r1 : Node α} {b1 : Bool}
    (e : (if c = true then moveRedLeft (node x l r b) else .ok (node x l r b)) =
      .ok (node x1 l1 r1 b1)) :
    ∃ b1', (if c = true then moveRedLeft (node x l r b') else .ok (node x l r b')) =
      .ok (node x1 l1 r1 b1') := by
  cases c
  · simp only [Bool.false_eq_true, if_false, Except.ok.injEq, node.injEq] at e ⊢
    obtain ⟨rfl, rfl, rfl, rfl⟩ := e
    exact ⟨b', rfl, rfl, rfl, rfl⟩
  · simp only [if_true] at e ⊢
    rcases l with _ | ⟨y, ll, lr, lb⟩ <;> rcases r with _ | ⟨z, rl, rr, rb⟩ <;>
      (try (simp [moveRedLeft, flip] at e; done))
    rcases rl with _ | ⟨w, rll, rlr, rlb⟩
    · simp [moveRedLeft, flip, left] at e ⊢
      obtain ⟨rfl, rfl, rfl, rfl⟩ := e
      simp
    · cases rlb <;> cases rb <;>
        simp [moveRedLeft, flip, left, rotateLeft, rotateRight] at e ⊢ <;>
        obtain ⟨rfl, rfl, rfl, rfl⟩ := e <;> simp

theorem moveRedRight_recolor {x : α} {l r : Node α} {b : Bool} (b' : Bool) (c : Bool)
    {x1 : α} {l1 r1 : Node α} {b1 : Bool}
    (e : (if c = true then moveRedRight (node x l r b) else .ok (node x l r b)) =
      .ok (node x1 l1 r1 b1)) :
    ∃ b1', (if c = true then moveRedRight (node x l r b') else .ok (node x l r b')) =
      .ok (node x1 l1 r1 b1') := by
  cases c
  · simp only [Bool.false_eq_true, if_false, Except.ok.injEq, node.injEq] at e ⊢
    obtain ⟨rfl, rfl, rfl, rfl⟩ := e
    exact ⟨b', rfl, rfl, rfl, rfl⟩
  · simp only [if_true] at e ⊢
    rcases l with _ | ⟨y, ll, lr, lb⟩ <;> rcases r with _ | ⟨z, rl, rr, rb⟩ <;>
      (try (simp [moveRedRight, flip] at e; done))
    rcases ll with _ | ⟨w, lll, llr, llb⟩
    · simp [moveRedRight, flip, left] at e ⊢
      obtain ⟨rfl, rfl, rfl, rfl⟩ := e
      simp
    · cases llb <;> cases lb <;>
        simp [moveRedRight, flip, left, rotateLeft, rotateRight] at e ⊢ <;>
        obtain ⟨rfl, rfl, rfl, rfl⟩ := e <;> simp

theorem rotateRight_recolor {x : α} {l r : Node α} {b : Bool} (b' : Bool) (c : Bool)
    {x1 : α} {l1 r1 : Node α} {b1 : Bool}
    (e : (if c = true then rotateRight (node x l r b) else .ok (node x l r b)) =
      .ok (node x1 l1 r1 b1)) :
    ∃ b1', (if c = true then rotateRight (node x l r b') else .ok (node x l r b')) =
      .ok (node x1 l1 r1 b1') := by
  cases c
  · simp only [Bool.false_eq_true, if_false, Except.ok.injEq, node.injEq] at e ⊢
    obtain ⟨rfl, rfl, rfl, rfl⟩ := e
    exact ⟨b', rfl, rfl, rfl, rfl⟩
  · simp only [if_true] at e ⊢
    rcases l with _ | ⟨y, ll, lr, lb⟩
    · simp [rotateRight] at e
    · cases lb <;> simp [rotateRight] at e ⊢
      obtain ⟨rfl, rfl, rfl, rfl⟩ := e
      simp

/-- The colour of the node `delete` starts from only decides the colour of the node it returns. -/
theorem delete_recolor (lt : α → α → Bool) (item : α) (fuel : Nat) {x : α} {l r : Node α}
    {b : Bool} (b' : Bool) {h' : Node α} {d : Option α}
    (e : delete lt fuel (node x l r b) item = .ok (h', d)) :
    ∃ h2, delete lt fuel (node x l r b') item = .ok (h2, d) ∧ blacken h2 = blacken h' := by
  cases fuel with
  | zero => simp [delete] at e
  | succ fuel =>
    simp only [delete] at e ⊢
    split at e
    · rename_i hlt
      rw [if_pos hlt]
      split at e
      · simp only [Except.ok.injEq, Prod.mk.injEq] at e
        obtain ⟨rfl, rfl⟩ := e
        exact ⟨_, rfl, by simp⟩
      · rename_i y ll lr lb
        split at e
        · simp at e
        · simp at e
        · rename_i x1 l1 r1 b1 e1
          obtain ⟨b1', e1'⟩ := moveRedLeft_recolor b' _ e1
          simp only [e1']
          split at e
          · simp at e
          · rename_i l2 deleted e2
            split at e
            · simp at e
            · rename_i h3 e3
              simp only [Except.ok.injEq, Prod.mk.injEq] at e
              obtain ⟨rfl, rfl⟩ := e
              obtain ⟨h4, e4, c4⟩ := fixUp_recolor b1' e3
              exact ⟨h4, by simp only [e4], c4⟩
    · rename_i hlt
      rw [if_neg hlt]
      split at e
      · simp at e
      · simp at e
      · rename_i x1 l1 r1 b1 e0
        obtain ⟨b1', e0'⟩ := rotateRight_recolor b' _ e0
        simp only [e0']
        split at e
        · -- no right child
          split at e
          · simp only [Except.ok.injEq, Prod.mk.injEq] at e
            obtain ⟨rfl, rfl⟩ := e
            rename_i hx
            exact ⟨nil, by simp only [hx, if_true], rfl⟩
          · rename_i hx
            rw [if_neg hx]
            split at e
            · simp at e
            · rename_i r2 deleted e2
              split at e
              · simp at e
              · rename_i h3 e3
                simp only [Except.ok.injEq, Prod.mk.injEq] at e
                obtain ⟨rfl, rfl⟩ := e
                obtain ⟨h4, e4, c4⟩ := fixUp_recolor b1' e3
                exact ⟨h4, by simp only [e4], c4⟩
        · rename_i z rl rr rb
          split at e
          · simp at e
          · simp at e
          · rename_i x2 l2 r2 b2 e1
            obtain ⟨b2', e1'⟩ := moveRedRight_recolor b1' _ e1
            simp only [e1']
            split at e
            · rename_i hx
              rw [if_pos hx]
              split at e
              · simp at e
              · simp at e
              · rename_i r3 sub e2
                split at e
                · simp at e
                · rename_i h3 e3
                  simp only [Except.ok.injEq, Prod.mk.injEq] at e
                  obtain ⟨rfl, rfl⟩ := e
                  obtain ⟨h4, e4, c4⟩ := fixUp_recolor b2' e3
                  exact ⟨h4, by simp only [e4], c4⟩
            · rename_i hx
              rw [if_neg hx]
              split at e
              · simp at e
              · rename_i r3 deleted e2
                split at e
                · simp at e
                · rename_i h3 e3
                  simp only [Except.ok.injEq, Prod.mk.injEq] at e
                  obtain ⟨rfl, rfl⟩ := e
                  obtain ⟨h4, e4, c4⟩ := fixUp_recolor b2' e3
                  exact ⟨h4, by simp only [e4], c4⟩

end Node
end ItemManager

namespace ItemManager
namespace Node
variable {α : Type}

theorem blacken_of_black {h : Node α} (hb : isRed h = false) : blacken h = h := by
  rcases h with _ | ⟨x, l, r, b⟩
  · rfl
  · cases b
    · simp at hb
    · rfl

theorem LL_blacken {h : Node α} {k : Nat} (hv : LL h k) : ∃ m, LL (blacken h) m := by
  rcases h with _ | ⟨x, l, r, b⟩
  · exact ⟨k, hv⟩
  · cases b
    · simp only [LL_red] at hv
      exact ⟨k + 1, by simp [hv.1, hv.2.1, hv.2.2.2]⟩
    · exact ⟨k, hv⟩

/-- Operation `delete` at the black root of a valid sorted tree, for a key that at most one item
carries: the blackened result is a valid tree, and the item taken out carries the key and leaves
the order of the others as it was. -/
theorem delete_root (key : α → Int) (item : α) (fuel : Nat) (h : Node α) (n : Nat)
    (hs : size h < fuel) (hv : LL h n) (hb : isRed h = false)
    (hq : (toList h).Pairwise
      (fun a b => key a ≤ key b ∧ ¬(key a = key item ∧ key b = key item))) :
    ∃ h' d m, delete (fun a b => decide (key a < key b)) fuel h item = .ok (h', d) ∧
      LL (blacken h') m ∧ (∀ y, d = some y → key y = key item) ∧
      Removed d (toList h) (toList h') := by
  rcases h with _ | ⟨x, l, r, b⟩
  · cases fuel with
    | zero => omega
    | succ fuel => exact ⟨nil, none, 0, by simp [delete], by simp, by simp, rfl⟩
  · have hbt : b = true := by simpa using hb
    subst hbt
    by_cases hlr : isRed l = true
    · obtain ⟨h', d, e, v, c, kd, rm⟩ := delete_LL key item fuel _ n hs hq
        (Or.inl ⟨hv, Or.inr (by simpa [left] using hlr)⟩)
      refine ⟨h', d, n, e, ?_, kd, rm⟩
      rw [blacken_of_black (c (by simp))]
      exact v
    · have hlb : isRed l = false := by simpa using hlr
      cases n with
      | zero => simp at hv
      | succ k =>
        simp only [LL_black_succ] at hv
        obtain ⟨hl, hr, hrb⟩ := hv
        have hred : LL (node x l r false) k := by simp [hl, hr, hlb, hrb]
        obtain ⟨h2, d, e, v, -, kd, rm⟩ := delete_LL key item fuel (node x l r false) k
          (by simpa [size] using hs) hq (Or.inl ⟨hred, Or.inl (by simp)⟩)
        obtain ⟨h', e', c⟩ := delete_recolor _ item fuel true e
        obtain ⟨m, vm⟩ := LL_blacken v
        refine ⟨h', d, m, e', by rw [c]; exact vm, kd, ?_⟩
        have t : toList h' = toList h2 := by
          rw [← toList_blacken h', c, toList_blacken]
        rw [t]
        exact rm

end Node
end ItemManager

namespace ItemManager

/-- Operation `NotifyComment` for a comment on a bound resident item whose rank no other
resident shares: no panic, the state stays well formed, the item is rewritten by `applyComment`,
nothing else in the heap or the maps changes. -/
theorem NotifyComment_WF {m : IManager} (hwf : WF m) (c : Comment) (p : Nat)
    (hb : mapGet m.itemsById c.Item_id = some p)
    (hres : mapGet m.itemsByUrl (m.heap p).Img_url = some p)
    (huniq : ∀ q ∈ residents m, rank m q = rank m p → q = p) :
    ∃ m1, NotifyComment m c = .ok m1 ∧ WF m1 ∧
      m1.heap = Function.update m.heap p (applyComment (m.heap p) c) ∧
      m1.itemsByUrl = m.itemsByUrl ∧ m1.itemsById = m.itemsById ∧ m1.next = m.next := by
  obtain ⟨n, hn⟩ := hwf.balanced
  have hp := hwf.resident_mem_tree hres
  have hnd : (Node.toList m.sortedItems.root).Nodup :=
    hwf.same.nodup_iff.2 hwf.residents_nodup
  have hs := hwf.sorted
  unfold Node.Sorted rank at hs
  have hq : (Node.toList m.sortedItems.root).Pairwise
      (fun a b => (fun q => (m.heap q).score) a ≤ (fun q => (m.heap q).score) b ∧
        ¬((fun q => (m.heap q).score) a = (fun q => (m.heap q).score) p ∧
          (fun q => (m.heap q).score) b = (fun q => (m.heap q).score) p)) := by
    have hboth := hs.and hnd
    refine List.Pairwise.imp_of_mem ?_ hboth
    intro a b ha hb' hab
    refine ⟨hab.1, fun he => hab.2 ?_⟩
    have ha' := huniq a (hwf.same.subset ha) he.1
    have hb'' := huniq b (hwf.same.subset hb') he.2
    rw [ha', hb'']
  obtain ⟨r, d, k, e, vk, kd, rm⟩ := Node.delete_root (fun q => (m.heap q).score) p
    (m.sortedItems.root.size + 1) _ n (by omega) hn hwf.blackRoot hq
  obtain ⟨x, rfl⟩ := Node.delete_found _ _ _ _ _ _ e hwf.sorted ⟨p, hp, rfl⟩
  obtain ⟨l1, l2, t1, t2⟩ := rm
  have hx : x = p := huniq x (hwf.same.subset (by rw [t1]; simp)) (kd x rfl)
  subst hx
  have hpn : x ∉ l1 ++ l2 := by
    rw [t1] at hnd
    have := List.nodup_middle.1 hnd
    exact (List.nodup_cons.1 this).1
  have hold : ∀ q ∈ l1 ++ l2,
      Function.update m.heap x (applyComment (m.heap x) c) q = m.heap q := by
    intro q hq'
    have hne : q ≠ x := by
      intro h
      rw [h] at hq'
      exact hpn hq'
    exact Function.update_noteq hne _ _
  obtain ⟨r2, k2, e2, v2, vb2⟩ := Node.insertNoReplace_root
    (less (Function.update m.heap x (applyComment (m.heap x) c))) x (Node.blacken r) k vk
    (Node.isRed_blacken r)
  have e2' := e2
  rw [less_eq] at e2'
  obtain ⟨a, b, s1, s2, s3⟩ := Node.insertNoReplace_split _ _ _ _ e2'
  rw [Node.toList_blacken, t2] at s1
  have hs12 : (l1 ++ l2).Pairwise (fun a b => (m.heap a).score ≤ (m.heap b).score) := by
    rw [t1] at hs
    exact hs.sublist (List.Sublist.append (List.Sublist.refl _) (List.sublist_cons_self _ _))
  have hsorted1 : (l1 ++ l2).Pairwise (fun u v =>
      (Function.update m.heap x (applyComment (m.heap x) c) u).score ≤
        (Function.update m.heap x (applyComment (m.heap x) c) v).score) := by
    refine List.Pairwise.imp_of_mem ?_ hs12
    intro u v hu hv huv
    rw [hold u hu, hold v hv]; exact huv
  obtain ⟨q1, q2⟩ := s3 (by
    unfold Node.Sorted
    rw [Node.toList_blacken, t2]
    exact hsorted1)
  have hlen : (a ++ x :: b).length = m.itemsByUrl.length := by
    have h1 := hwf.size_eq_len
    rw [Node.size_eq_length, t1] at h1
    have h2 := congrArg List.length s1
    simp at h1 h2 ⊢
    omega
  have hsz : (Node.blacken r2).size ≤ m.itemsByUrl.length := by
    rw [Node.size_blacken, Node.size_eq_length, s2, hlen]
  obtain ⟨ary, -, e3⟩ := refreshJson_ok
    { m with heap := Function.update m.heap x (applyComment (m.heap x) c),
             sortedItems := { count := m.sortedItems.count - 1 + 1, root := Node.blacken r2 } }
    hsz
  have key := e3
  have e0 : Node.delete (less m.heap) (m.sortedItems.root.size + 1) m.sortedItems.root x =
      .ok (r, some x) := by rw [less_eq]; exact e
  have : NotifyComment m c = refreshJson
      { m with heap := Function.update m.heap x (applyComment (m.heap x) c),
               sortedItems := { count := m.sortedItems.count - 1 + 1, root := Node.blacken r2 } } := by
    unfold NotifyComment
    simp only [hb, LLRB.Delete, e0, LLRB.InsertNoReplace, e2]
  rw [← this] at key
  refine ⟨_, key, ?_, rfl, rfl, rfl, rfl⟩
  constructor
  · exact ⟨k2, v2⟩
  · exact vb2
  · show Node.Sorted _ (Node.blacken r2)
    unfold Node.Sorted rank
    rw [Node.toList_blacken, s2]
    rw [s1, List.pairwise_append] at hsorted1
    obtain ⟨p1, p2, p12⟩ := hsorted1
    rw [List.pairwise_append]
    refine ⟨p1, List.pairwise_cons.2 ⟨fun y hy => ?_, p2⟩, fun u hu v hv => ?_⟩
    · exact le_of_lt (q2 y hy)
    · rcases List.mem_cons.1 hv with rfl | hv
      · exact q1 u hu
      · exact p12 u hu v hv
  · show m.sortedItems.count - 1 + 1 = ((Node.blacken r2).size : Int)
    rw [Node.size_blacken, Node.size_eq_length, s2, hlen, ← hwf.size_eq_len, hwf.count_eq]
    omega
  · show (Node.toList (Node.blacken r2)).Perm (residents m)
    rw [Node.toList_blacken, s2]
    refine List.Perm.trans ?_ hwf.same
    rw [t1]
    refine List.perm_middle.trans (List.Perm.trans ?_ List.perm_middle.symm)
    rw [s1]
  · intro e he
    show (Function.update m.heap x (applyComment (m.heap x) c) e.2).Img_url = e.1
    by_cases h : e.2 = x
    · rw [h, Function.update_same, applyComment_url, ← h]
      exact hwf.keys e he
    · rw [Function.update_noteq h]
      exact hwf.keys e he
  · exact hwf.keysNodup
  · exact hwf.fresh

end ItemManager

namespace ItemManager

/-- A run of untied calls from a well-formed state within capacity never panics and ends in a
well-formed state within capacity. -/
theorem untiedRun_WF : ∀ (calls : List Call) (m : IManager), WF m →
    m.itemsByUrl.length ≤ max_items → untiedRun m calls = true →
    ∃ m1, run m calls = .ok m1 ∧ WF m1 ∧ m1.itemsByUrl.length ≤ max_items := by
  intro calls
  induction calls with
  | nil => intro m hwf hl _; exact ⟨m, rfl, hwf, hl⟩
  | cons c cs ih =>
    intro m hwf hl hu
    simp only [untiedRun, Bool.and_eq_true] at hu
    obtain ⟨hc, hrest⟩ := hu
    cases c with
    | insert item now jitter =>
      obtain ⟨m1, b, e, w, -, l⟩ := Insert_WF hwf item now jitter
      simp only [step, e] at hrest
      obtain ⟨m2, e2, w2, l2⟩ := ih m1 w (l hl) hrest
      exact ⟨m2, by simp [run, step, e, e2], w2, l2⟩
    | notifyItemId url id =>
      have w := NotifyItemId_WF hwf url id
      have l : (NotifyItemId m url id).itemsByUrl.length ≤ max_items := by
        unfold NotifyItemId
        split <;> exact hl
      simp only [step] at hrest
      obtain ⟨m2, e2, w2, l2⟩ := ih _ w l hrest
      exact ⟨m2, by simp [run, step, e2], w2, l2⟩
    | notifyComment cm =>
      have hstep : ∃ m1, NotifyComment m cm = .ok m1 ∧ WF m1 ∧
          m1.itemsByUrl.length ≤ max_items := by
        cases hg : mapGet m.itemsById cm.Item_id with
        | none => exact ⟨m, by unfold NotifyComment; simp only [hg], hwf, hl⟩
        | some p =>
          simp only [Call.untied, hg, Bool.and_eq_true, decide_eq_true_eq, List.all_eq_true,
            Bool.or_eq_true] at hc
          obtain ⟨hres, hall⟩ := hc
          obtain ⟨m1, e, w, -, hmap, -, -⟩ := NotifyComment_WF hwf cm p hg hres (by
            intro q hq hr
            rcases hall q hq with h | h
            · exact h
            · exact absurd hr h)
          exact ⟨m1, e, w, by rw [hmap]; exact hl⟩
      obtain ⟨m1, e, w, l⟩ := hstep
      simp only [step, e] at hrest
      obtain ⟨m2, e2, w2, l2⟩ := ih m1 w l hrest
      exact ⟨m2, by simp [run, step, e, e2], w2, l2⟩

/-- The state an untied run from `NewManager` reaches is well formed and within capacity. -/
theorem untied_reach_WF {calls : List Call} {m : IManager}
    (hu : untiedRun NewManager calls = true) (hrun : run NewManager calls = .ok m) :
    WF m ∧ m.itemsByUrl.length ≤ 100 := by
  obtain ⟨m1, e, w, l⟩ := untiedRun_WF calls NewManager WF_NewManager
    (by simp [NewManager, max_items]) hu
  rw [e] at hrun
  cases hrun
  exact ⟨w, l⟩

end ItemManager

namespace ItemManager

/-- Operation `Insert` of a new key below capacity: the item is stored and stays. -/
theorem Insert_below {m : IManager} (hwf : WF m) (item : Item) (now : Int) (jitter : Fin 1000)
    (hlen : m.itemsByUrl.length < 100) (hnew : mapGet m.itemsByUrl item.Img_url = none) :
    ∃ m1, Insert m item now jitter = .ok (m1, true) ∧ WF m1 ∧
      mapGet m1.itemsByUrl item.Img_url = some m.next := by
  obtain ⟨t, et, w1, -⟩ := insertPhase_WF hwf item now jitter hnew
  have habs : mapDelete m.itemsByUrl item.Img_url = m.itemsByUrl :=
    mapDelete_absent (mapGet_none hnew)
  have hset : mapSet m.itemsByUrl item.Img_url m.next = (item.Img_url, m.next) :: m.itemsByUrl := by
    unfold mapSet; rw [habs]
  refine ⟨_, ?_, w1, ?_⟩
  · unfold Insert
    simp only [hnew, et]
    unfold removeTail
    have : (mapSet m.itemsByUrl item.Img_url m.next).length ≤ max_items := by
      rw [hset]; simp [max_items]; omega
    simp only [this, if_true]
  · show mapGet (mapSet m.itemsByUrl item.Img_url m.next) item.Img_url = some m.next
    rw [mapGet_mapSet]; simp

/-- Operation `Insert` of a new key at capacity: exactly one item goes, the first of the index; it
is the new item itself exactly when its rank is below the rank of every resident, and then
its key is not resident afterwards; otherwise the new item stays. -/
theorem Insert_full {m : IManager} (hwf : WF m) (item : Item) (now : Int) (jitter : Fin 1000)
    (hfull : m.itemsByUrl.length = 100) (hnew : mapGet m.itemsByUrl item.Img_url = none) :
    ∃ m1, Insert m item now jitter = .ok (m1, true) ∧ WF m1 ∧ m1.itemsByUrl.length = 100 ∧
      (((∀ q ∈ residents m, (storedItem item now jitter).score < rank m q) ∧
          mapGet m1.itemsByUrl item.Img_url = none) ∨
        ((∃ q ∈ residents m, rank m q ≤ (storedItem item now jitter).score) ∧
          mapGet m1.itemsByUrl item.Img_url = some m.next)) := by
  obtain ⟨t, et, w1, l1, l2, s1, s2, s3, s4⟩ := insertPhase_WF hwf item now jitter hnew
  have habs : mapDelete m.itemsByUrl item.Img_url = m.itemsByUrl :=
    mapDelete_absent (mapGet_none hnew)
  have hset : mapSet m.itemsByUrl item.Img_url m.next = (item.Img_url, m.next) :: m.itemsByUrl := by
    unfold mapSet; rw [habs]
  rw [hset] at w1
  obtain ⟨t', min, a, b, ed, tl, ha, hb, w2⟩ := evict_WF w1 (by simp)
  dsimp only at ed tl ha hb w2
  have hins : Insert m item now jitter = .ok
      ({ heap := Function.update m.heap m.next (storedItem item now jitter),
         next := m.next + 1, sortedItems := t',
         itemsByUrl := mapDelete ((item.Img_url, m.next) :: m.itemsByUrl)
           (Function.update m.heap m.next (storedItem item now jitter) min).Img_url,
         itemsById := mapDelete m.itemsById
           (Function.update m.heap m.next (storedItem item now jitter) min).Id,
         json := m.json, json_zipped := m.json_zipped }, true) := by
    unfold Insert
    simp only [hnew, et, hset]
    unfold removeTail
    have h101 : ¬ ((item.Img_url, m.next) :: m.itemsByUrl).length ≤ max_items := by
      simp [max_items, hfull]
    have h1 : ((item.Img_url, m.next) :: m.itemsByUrl).length - max_items = 1 := by
      simp [max_items, hfull]
    simp only [h101, if_false, h1, removeTailLoop, ed]
    have := w2.len_eq
    dsimp only at this
    simp [this]
  have hlen : (mapDelete ((item.Img_url, m.next) :: m.itemsByUrl)
      (Function.update m.heap m.next (storedItem item now jitter) min).Img_url).length = 100 := by
    rw [hb]
    have := congrArg List.length ha
    simp at this ⊢
    omega
  refine ⟨_, hins, w2, hlen, ?_⟩
  dsimp only
  rw [s2] at tl
  by_cases hmin : min = m.next
  · -- the new item goes
    left
    have hl1 : l1 = [] := by
      rcases l1 with _ | ⟨y, l1'⟩
      · rfl
      · simp only [List.cons_append, List.cons.injEq] at tl
        have hy : y ∈ Node.toList m.sortedItems.root := by rw [s1]; simp
        have := hwf.mem_tree_lt hy
        omega
    subst hl1
    refine ⟨fun q hq => ?_, ?_⟩
    · have : q ∈ l2 := by
        have := hwf.same.symm.subset hq
        rw [s1] at this
        simpa using this
      exact s4 q this
    · rw [hmin, Function.update_same, storedItem_url, mapDelete_cons_eq, habs]
      exact hnew
  · -- a resident goes
    right
    have hmem : min ∈ l1 := by
      rcases l1 with _ | ⟨y, l1'⟩
      · simp only [List.nil_append, List.cons.injEq] at tl
        exact absurd tl.1.symm hmin
      · simp only [List.cons_append, List.cons.injEq] at tl
        rw [← tl.1]; simp
    have hmt : min ∈ Node.toList m.sortedItems.root := by rw [s1]; exact List.mem_append_left _ hmem
    have hmr : min ∈ residents m := hwf.same.subset hmt
    refine ⟨⟨min, hmr, s3 min hmem⟩, ?_⟩
    rw [Function.update_noteq hmin]
    obtain ⟨e, he, he2⟩ := List.mem_map.1 hmr
    have hk := hwf.keys e he
    rw [he2] at hk
    have hne : item.Img_url ≠ (m.heap min).Img_url := by
      intro h
      have : (m.heap min).Img_url ∈ m.itemsByUrl.map Prod.fst := by
        rw [hk]; exact List.mem_map.2 ⟨e, he, rfl⟩
      rw [← h] at this
      exact mapGet_none hnew this
    rw [mapDelete_cons_ne _ _ hne]
    simp [mapGet]

end ItemManager

namespace ItemManager

/-- C1 (capacity invariant): from `NewManager`, after each call of any sequence of `Insert`
calls, whatever keys, clocks and jitters they draw, no call panics and at most 100 items are
resident. -/
theorem capacity_invariant (ins : List (Item × Int × Fin 1000)) (k : Nat) :
    ∃ m, run NewManager (insertCalls (ins.take k)) = .ok m ∧ m.itemsByUrl.length ≤ 100 := by
  obtain ⟨m, e, -, l⟩ := run_structural_WF (insertCalls (ins.take k)) NewManager WF_NewManager
    (by simp [NewManager, max_items]) (insertCalls_structural _)
  exact ⟨m, e, l⟩

/-- Eviction of the minimum in a well-formed state: `Insert` of a new key into a well-formed
state with exactly 100 residents returns true and leaves exactly 100 residents; exactly one of
the 101 candidates (the residents and the new item, stored at address `m.next`) is gone from
the rank index and from the key map, its rank is at most the rank of every item that remains,
and all the others are still resident. -/
theorem insert_evicts_minimum (m : IManager) (item : Item) (now : Int) (jitter : Fin 1000)
    (hwf : WF m) (hfull : m.itemsByUrl.length = 100)
    (hnew : mapGet m.itemsByUrl item.Img_url = none) :
    ∃ m1 victim, Insert m item now jitter = .ok (m1, true) ∧ m1.itemsByUrl.length = 100 ∧
      (m.next :: residents m).Nodup ∧ victim ∈ m.next :: residents m ∧
      (residents m1).Perm ((m.next :: residents m).erase victim) ∧
      (Node.toList m1.sortedItems.root).Perm ((m.next :: residents m).erase victim) ∧
      (∀ q ∈ residents m1, rank m1 victim ≤ rank m1 q) ∧
      m1.heap m.next = storedItem item now jitter ∧
      (∀ q ∈ residents m, m1.heap q = m.heap q) := by
  obtain ⟨t, et, w1, l1, l2, s1, s2, -⟩ := insertPhase_WF hwf item now jitter hnew
  have habs : mapDelete m.itemsByUrl item.Img_url = m.itemsByUrl :=
    mapDelete_absent (mapGet_none hnew)
  have hset : mapSet m.itemsByUrl item.Img_url m.next = (item.Img_url, m.next) :: m.itemsByUrl := by
    unfold mapSet; rw [habs]
  rw [hset] at w1
  obtain ⟨t', min, a, b, ed, tl, ha, hb, w2⟩ := evict_WF w1 (by simp)
  dsimp only at ed tl ha hb w2
  have hres1 : m.next :: residents m =
      a.map Prod.snd ++ min :: b.map Prod.snd := by
    have := congrArg (List.map Prod.snd) ha
    simpa [residents] using this
  have hnd : (m.next :: residents m).Nodup := by
    have := w1.residents_nodup
    simpa [residents] using this
  have hmin : min ∈ m.next :: residents m := by rw [hres1]; simp
  have herase : ((m.next :: residents m).erase min).Perm (a.map Prod.snd ++ b.map Prod.snd) := by
    rw [hres1]
    have p : (a.map Prod.snd ++ min :: b.map Prod.snd).Perm
        (min :: (a.map Prod.snd ++ b.map Prod.snd)) := List.perm_middle
    have := p.erase min
    simpa using this
  have hins : Insert m item now jitter = .ok
      ({ heap := Function.update m.heap m.next (storedItem item now jitter),
         next := m.next + 1, sortedItems := t',
         itemsByUrl := mapDelete ((item.Img_url, m.next) :: m.itemsByUrl)
           (Function.update m.heap m.next (storedItem item now jitter) min).Img_url,
         itemsById := mapDelete m.itemsById
           (Function.update m.heap m.next (storedItem item now jitter) min).Id,
         json := m.json, json_zipped := m.json_zipped }, true) := by
    unfold Insert
    simp only [hnew, et, hset]
    unfold removeTail
    have h101 : ¬ ((item.Img_url, m.next) :: m.itemsByUrl).length ≤ max_items := by
      simp [max_items, hfull]
    have h1 : ((item.Img_url, m.next) :: m.itemsByUrl).length - max_items = 1 := by
      simp [max_items, hfull]
    simp only [h101, if_false, h1, removeTailLoop, ed]
    have := w2.len_eq
    dsimp only at this
    simp [this]
  refine ⟨_, min, hins, ?_, hnd, hmin, ?_, ?_, ?_, ?_, ?_⟩
  · dsimp only
    rw [hb]
    have := congrArg List.length ha
    simp at this ⊢
    omega
  · show (List.map Prod.snd _).Perm _
    rw [hb]
    simpa using herase.symm
  · have := w2.same
    dsimp only [residents] at this
    rw [hb] at this
    dsimp only
    exact this.trans (by simpa using herase.symm)
  · intro q hq
    have hq' : q ∈ Node.toList t'.root := by
      have := w2.same
      exact this.symm.subset hq
    have hs := w1.sorted
    unfold Node.Sorted at hs
    dsimp only at hs
    rw [tl] at hs
    exact (List.pairwise_cons.1 hs).1 q hq'
  · simp
  · intro q hq
    have : q < m.next := by
      obtain ⟨e, he, rfl⟩ := List.mem_map.1 hq
      exact hwf.fresh e he
    dsimp only
    exact Function.update_noteq (by omega) _ _

/-- Eviction of the minimum in the states untied calls reach from `NewManager`. -/
theorem insert_evicts_minimum_untied (calls : List Call) (m : IManager) (item : Item)
    (now : Int) (jitter : Fin 1000) (hu : untiedRun NewManager calls = true)
    (hrun : run NewManager calls = .ok m) (hfull : m.itemsByUrl.length = 100)
    (hnew : mapGet m.itemsByUrl item.Img_url = none) :
    ∃ m1 victim, Insert m item now jitter = .ok (m1, true) ∧ m1.itemsByUrl.length = 100 ∧
      (m.next :: residents m).Nodup ∧ victim ∈ m.next :: residents m ∧
      (residents m1).Perm ((m.next :: residents m).erase victim) ∧
      (Node.toList m1.sortedItems.root).Perm ((m.next :: residents m).erase victim) ∧
      (∀ q ∈ residents m1, rank m1 victim ≤ rank m1 q) ∧
      m1.heap m.next = storedItem item now jitter ∧
      (∀ q ∈ residents m, m1.heap q = m.heap q) :=
  insert_evicts_minimum m item now jitter (untied_reach_WF hu hrun).1 hfull hnew

end ItemManager

namespace ItemManager

set_option maxRecDepth 100000 in
/-- C2 (code defect, evaluation): three items draw the same time stamp, a fourth an earlier
one, and each gets one comment; `Delete`, which finds its target by rank, takes out tied items
in place of the commented ones and drops a node without counting it, so that in the end the
index holds the four residents, each once and in rank order, while its counter says six. After
96 more inserts the manager holds a hundred residents and the index exactly these, in rank
order; the `Insert` of a new key then does not evict the minimum and return true, it panics in
the length check of `removeTail`. -/
theorem eviction_panics_after_rank_ties :
    (match run NewManager (driftCalls ++ fillCalls 96 100000000000000 0) with
      | .ok m =>
        decide (m.itemsByUrl.length = 100) && sameItems m && rankOrdered m &&
        decide (m.sortedItems.Len = 102) &&
        decide (mapGet m.itemsByUrl (plainItem "x" 0).Img_url = none) &&
        failsWith (Insert m (plainItem "x" 0) 200000000000000 0) Fault.lengthMismatch
      | .error _ => false) = true := by decide!

set_option maxRecDepth 100000 in
/-- Counterexample to C3: (1) a manager holds a hundred items with one comment each; an item
without comments, inserted a thousand seconds later, ranks below all of them, so `Insert`
returns true and `removeTail` evicts that very item; the same key inserted again is accepted
again: both calls return true, with 100 residents after each. (2) In the state reached by a
comment on one of two tied items and 99 inserts, the first of two inserts of a new key panics
in the length check of `removeTail`. -/
theorem duplicate_accepted_after_own_eviction :
    insertTwice (runState NewManager (fillCalls 100 1000000000000000 1))
      (plainItem "x" 0) 1001000000000000 0 (plainItem "x" 0) 1001000001000000 0 =
      some (true, 100, true, 100) ∧
    (match run NewManager (tieCalls ++ fillCalls 99 100000000000000000 0) with
      | .ok m =>
        decide (m.itemsByUrl.length = 100) &&
        failsWith (Insert m (plainItem "x" 0) 200000000000000000 0) Fault.lengthMismatch &&
        decide (insertTwice m (plainItem "x" 0) 200000000000000000 0 (plainItem "x" 0)
          200000001000000000 0 = none)
      | .error _ => false) = true := by
  constructor <;> decide!

/-- C3 (duplicate rejection, amended): in a state reached from `NewManager` by untied calls,
two `Insert` calls in a row with the same key both return; the second returns false and leaves
the whole state (resident count, rank index, both identity maps) as the first left it, except
when the manager held 100 residents, the key was not resident and the rank of the first item
was below the rank of every resident: then the first call returns true, its own item is the
one evicted, the key is not resident afterwards, and the second call returns true again. -/
theorem duplicate_rejected (calls : List Call) (m : IManager) (i1 i2 : Item) (n1 n2 : Int)
    (j1 j2 : Fin 1000) (hu : untiedRun NewManager calls = true)
    (hrun : run NewManager calls = .ok m) (hk : i2.Img_url = i1.Img_url) :
    ∃ m1 b, Insert m i1 n1 j1 = .ok (m1, b) ∧
      ((m.itemsByUrl.length = 100 ∧ mapGet m.itemsByUrl i1.Img_url = none ∧
          (∀ q ∈ residents m, (storedItem i1 n1 j1).score < rank m q)) →
        b = true ∧ mapGet m1.itemsByUrl i1.Img_url = none ∧
          ∃ m2, Insert m1 i2 n2 j2 = .ok (m2, true)) ∧
      (¬(m.itemsByUrl.length = 100 ∧ mapGet m.itemsByUrl i1.Img_url = none ∧
          (∀ q ∈ residents m, (storedItem i1 n1 j1).score < rank m q)) →
        Insert m1 i2 n2 j2 = .ok (m1, false)) := by
  obtain ⟨hwf, hl⟩ := untied_reach_WF hu hrun
  have hrej : ∀ (m1 : IManager) (p : Nat), mapGet m1.itemsByUrl i1.Img_url = some p →
      Insert m1 i2 n2 j2 = .ok (m1, false) := by
    intro m1 p h
    unfold Insert
    rw [hk, h]
  by_cases hg : mapGet m.itemsByUrl i1.Img_url = none
  · by_cases hfull : m.itemsByUrl.length = 100
    · obtain ⟨m1, e, w1, l1, hcase⟩ := Insert_full hwf i1 n1 j1 hfull hg
      refine ⟨m1, true, e, fun h => ?_, fun h => ?_⟩
      · rcases hcase with ⟨-, hn⟩ | ⟨⟨q, hq, hle⟩, -⟩
        · refine ⟨rfl, hn, ?_⟩
          have hn2 : mapGet m1.itemsByUrl i2.Img_url = none := by rw [hk]; exact hn
          obtain ⟨m2, e2, -⟩ := Insert_full w1 i2 n2 j2 l1 hn2
          exact ⟨m2, e2⟩
        · have := h.2.2 q hq
          omega
      · rcases hcase with ⟨hall, -⟩ | ⟨-, hs⟩
        · exact absurd ⟨hfull, hg, hall⟩ h
        · exact hrej m1 _ hs
    · have hlt : m.itemsByUrl.length < 100 := by
        have : m.itemsByUrl.length ≤ 100 := hl
        omega
      obtain ⟨m1, e, -, hs⟩ := Insert_below hwf i1 n1 j1 hlt hg
      exact ⟨m1, true, e, fun h => absurd h.1 hfull, fun _ => hrej m1 _ hs⟩
  · obtain ⟨p, hp⟩ := Option.ne_none_iff_exists'.1 hg
    refine ⟨m, false, ?_, fun h => absurd h.2.1 hg, fun _ => hrej m p hp⟩
    unfold Insert
    rw [hp]

end ItemManager

namespace ItemManager

/-- The first insert into a new manager returns true and leaves the state of the run. -/
theorem first_insert_ok : Insert NewManager (plainItem "a" 0) 1000000000 0 =
    .ok (runState NewManager [Call.insert (plainItem "a" 0) 1000000000 0], true) := by
  obtain ⟨m1, b, e, -⟩ := Insert_WF WF_NewManager (plainItem "a" 0) 1000000000 0
  have hb : b = true := by
    have hd : (match Insert NewManager (plainItem "a" 0) 1000000000 0 with
      | .ok (_, b) => b | .error _ => false) = true := by decide!
    rw [e] at hd
    exact hd
  subst hb
  have : runState NewManager [Call.insert (plainItem "a" 0) 1000000000 0] = m1 := by
    simp [runState, run, step, e]
  rw [this]; exact e

/-- Witness of C3: after an insert, a binding and a comment, the key `b` is inserted
twice. -/
theorem duplicate_rejected_witness :
    untiedRun NewManager commentedCalls = true ∧
    run NewManager commentedCalls = .ok (runState NewManager commentedCalls) ∧
    (plainItem "b" 5).Img_url = (plainItem "b" 0).Img_url ∧
    ∃ m1 b, Insert (runState NewManager commentedCalls) (plainItem "b" 0) 2000000000 7 =
        .ok (m1, b) ∧
      (((runState NewManager commentedCalls).itemsByUrl.length = 100 ∧
          mapGet (runState NewManager commentedCalls).itemsByUrl (plainItem "b" 0).Img_url =
            none ∧
          (∀ q ∈ residents (runState NewManager commentedCalls),
            (storedItem (plainItem "b" 0) 2000000000 7).score <
              rank (runState NewManager commentedCalls) q)) →
        b = true ∧ mapGet m1.itemsByUrl (plainItem "b" 0).Img_url = none ∧
          ∃ m2, Insert m1 (plainItem "b" 5) 3000000000 9 = .ok (m2, true)) ∧
      (¬((runState NewManager commentedCalls).itemsByUrl.length = 100 ∧
          mapGet (runState NewManager commentedCalls).itemsByUrl (plainItem "b" 0).Img_url =
            none ∧
          (∀ q ∈ residents (runState NewManager commentedCalls),
            (storedItem (plainItem "b" 0) 2000000000 7).score <
              rank (runState NewManager commentedCalls) q)) →
        Insert m1 (plainItem "b" 5) 3000000000 9 = .ok (m1, false)) := by
  have hu : untiedRun NewManager commentedCalls = true := by decide!
  have hrun : run NewManager commentedCalls = .ok (runState NewManager commentedCalls) :=
    run_runState (by decide!)
  exact ⟨hu, hrun, rfl,
    duplicate_rejected commentedCalls _ (plainItem "b" 0) (plainItem "b" 5) 2000000000
      3000000000 7 9 hu hrun rfl⟩

set_option maxRecDepth 100000 in
/-- C4 (code defect, evaluation): two items draw the same time stamp, the second is bound
and commented, so that `Delete` takes the first one out of the index and the second is in it
twice; a hundred inserts later the second copy is evicted, the key map has nothing to delete,
and the length check of `removeTail` panics. -/
theorem length_check_fails_after_rank_tie :
    failsWith (run NewManager (tieCalls ++ fillCalls 100 100000000000000000 0))
      Fault.lengthMismatch = true := by decide!

set_option maxRecDepth 100000 in
/-- Counterexample to C5: the key `a` is bound to id 1 and then to id 2; when the item is
evicted only id 2 is pruned, and id 1 still leads to the item, whose key is no longer
resident. -/
theorem stale_id_after_rebinding :
    (match run NewManager rebindCalls with
      | .ok m => decide (mapGet m.itemsById 1 = some 0) &&
          decide (mapGet m.itemsByUrl (m.heap 0).Img_url = none)
      | .error _ => false) = true := by decide!

/-- C5 (id-map containment, amended): along every sequence of `Insert`, `NotifyItemId` and
`NotifyComment` calls from `NewManager` that hands no key to `NotifyItemId` twice, after each
completed call every item of the id map is resident in the key map under its key. -/
theorem id_map_contained (calls : List Call) (k : Nat) (m : IManager)
    (hnd : (boundKeys calls).Nodup) (e : run NewManager (calls.take k) = .ok m) (id : Int)
    (p : Nat) (hid : mapGet m.itemsById id = some p) :
    mapGet m.itemsByUrl (m.heap p).Img_url = some p := by
  have hsub : (boundKeys (calls.take k)).Sublist (boundKeys calls) := by
    have : ∀ (cs : List Call) (k : Nat), (boundKeys (cs.take k)).Sublist (boundKeys cs) := by
      intro cs
      induction cs with
      | nil => intro k; simp [boundKeys]
      | cons c cs ih =>
        intro k
        cases k with
        | zero => simp [boundKeys]
        | succ k =>
          cases c with
          | insert i n j => simpa [boundKeys] using ih k
          | notifyItemId u i => simpa [boundKeys] using (ih k)
          | notifyComment cm => simpa [boundKeys] using ih k
    exact this calls k
  obtain ⟨H, h⟩ := IdInv_run (calls.take k) NewManager m [] IdInv_NewManager (hnd.sublist hsub)
    (by simp) e
  exact (h.bound id p hid).1

/-- Witness of C5: an insert, a binding and a comment. -/
theorem id_map_contained_witness :
    (boundKeys commentedCalls).Nodup ∧
    run NewManager (commentedCalls.take 3) = .ok (runState NewManager commentedCalls) ∧
    mapGet (runState NewManager commentedCalls).itemsById 1 = some 0 ∧
    mapGet (runState NewManager commentedCalls).itemsByUrl
      ((runState NewManager commentedCalls).heap 0).Img_url = some 0 := by
  have h1 : (boundKeys commentedCalls).Nodup := by decide
  have ht : commentedCalls.take 3 = commentedCalls := rfl
  have h2 : run NewManager (commentedCalls.take 3) =
      .ok (runState NewManager commentedCalls) := by
    rw [ht]
    exact run_runState (by decide!)
  have h3 : mapGet (runState NewManager commentedCalls).itemsById 1 = some 0 := by decide!
  exact ⟨h1, h2, h3, id_map_contained _ 3 _ h1 h2 1 0 h3⟩

/-- Counterexample to C6: after the first `Insert` into a new manager, which returns true
and leaves one resident, the cached snapshot is still the empty one of a manager never
refreshed, although a refresh at that point produces a different snapshot. -/
theorem snapshot_stale_after_insert :
    (match Insert NewManager (plainItem "a" 0) 1000000000 0 with
      | .ok (m, b) => b && decide (GetJson m = none) && decide (GetZippedJson m = none) &&
          decide (m.itemsByUrl.length = 1) &&
          (match refreshJson m with
            | .ok m2 => decide (GetJson m2 = some [some (toJson m.heap 0)])
            | .error _ => false)
      | .error _ => false) = true := by decide!

/-- C6 (snapshot and insert, amended): `Insert` leaves the cached snapshot, plain and
compressed, exactly as it was before the call; it is `refreshJson`, which `NotifyComment` and
the exported `RefreshJson` run, that rebuilds it. -/
theorem insert_keeps_snapshot (m m1 : IManager) (item : Item) (now : Int) (jitter : Fin 1000)
    (b : Bool) (e : Insert m item now jitter = .ok (m1, b)) :
    GetJson m1 = GetJson m ∧ GetZippedJson m1 = GetZippedJson m := by
  unfold Insert at e
  split at e
  · simp only [Except.ok.injEq, Prod.mk.injEq] at e
    obtain ⟨rfl, -⟩ := e
    exact ⟨rfl, rfl⟩
  · dsimp only at e
    split at e
    · simp at e
    · split at e
      · simp at e
      · rename_i m2 e2
        simp only [Except.ok.injEq, Prod.mk.injEq] at e
        obtain ⟨rfl, -⟩ := e
        have := removeTail_json e2
        exact this

/-- Witness of C6: the first insert into a new manager. -/
theorem insert_keeps_snapshot_witness :
    Insert NewManager (plainItem "a" 0) 1000000000 0 =
      .ok (runState NewManager [Call.insert (plainItem "a" 0) 1000000000 0], true) ∧
    GetJson (runState NewManager [Call.insert (plainItem "a" 0) 1000000000 0]) =
      GetJson NewManager ∧
    GetZippedJson (runState NewManager [Call.insert (plainItem "a" 0) 1000000000 0]) =
      GetZippedJson NewManager :=
  ⟨first_insert_ok, insert_keeps_snapshot _ _ _ _ _ _ first_insert_ok⟩

end ItemManager

namespace ItemManager

set_option maxRecDepth 100000 in
/-- Counterexample to C7: (1) two residents with the same rank are adjacent in the
sequence, which therefore is not strictly descending; (2) a resident with a negative rank (a
clock before 1970) is below the zero-score pivot of the traversal, so the sequence holds a
nil entry instead of it; (3) after comments on tied items the index holds the six residents,
each once, with ranks that are not negative, but not in rank order, and the sequence is not
descending: the item of rank 1900 comes before the one of rank 43201900. -/
theorem snapshot_not_strict_nor_complete :
    (match run NewManager (tieCalls.take 2) with
      | .ok m => decide (Node.toList m.sortedItems.root = [0, 1]) &&
          decide (residents m = [1, 0]) &&
          (match rankedArray m with
            | .ok ary => decide (ary = [some 1, some 0])
            | .error _ => false) &&
          decide (rank m 1 = rank m 0)
      | .error _ => false) = true ∧
    (match run NewManager [Call.insert (plainItem "a" 0) (-1000000000000000000) 0] with
      | .ok m => decide (Node.toList m.sortedItems.root = [0]) && decide (residents m = [0]) &&
          (match rankedArray m with
            | .ok ary => decide (ary = [none])
            | .error _ => false) &&
          decide (rank m 0 = -1000000000000)
      | .error _ => false) = true ∧
    (match run NewManager unsortedCalls with
      | .ok m => sameItems m && decide (m.itemsByUrl.length = 6) &&
          (residents m).all (fun p => decide (0 ≤ rank m p)) &&
          (match rankedArray m with
            | .ok ary => decide (ary = [some 4, some 5, some 3, some 2, some 1, some 0])
            | .error _ => false) &&
          decide (rank m 1 = 1900) && decide (rank m 0 = 43201900) &&
          decide (rank m 2 = 43201000)
      | .error _ => false) = true := by
  refine ⟨?_, ?_, ?_⟩ <;> decide!

/-- C7 (snapshot ordering, amended): in a state reached from `NewManager` by untied calls
whose resident ranks are all non-negative, the sequence `refreshJson` builds, serializes and
caches holds every resident item exactly once, has the length of the resident count, and is
sorted by rank descending, equal ranks side by side. -/
theorem snapshot_sorted (calls : List Call) (m : IManager)
    (hu : untiedRun NewManager calls = true) (hrun : run NewManager calls = .ok m)
    (hpos : ∀ p ∈ residents m, 0 ≤ rank m p) :
    ∃ seq : List Nat, rankedArray m = .ok (seq.map some) ∧
      (∃ m1, refreshJson m = .ok m1 ∧
        GetJson m1 = some (seq.map (fun p => some (toJson m.heap p))) ∧
        GetZippedJson m1 = some (seq.map (fun p => some (toJson m.heap p)))) ∧
      seq.Perm (residents m) ∧ (residents m).Nodup ∧ seq.length = m.itemsByUrl.length ∧
      seq.Pairwise (fun a b => rank m b ≤ rank m a) := by
  have hwf := (untied_reach_WF hu hrun).1
  have hall : ∀ x ∈ Node.toList m.sortedItems.root,
      (fun p => decide ((m.heap p).score < 0)) x = false := by
    intro x hx
    have := hpos x (hwf.same.subset hx)
    unfold rank at this
    simpa using this
  have hvis := Node.visited_all _ _ hall
  have hlen : (Node.toList m.sortedItems.root).length = m.itemsByUrl.length := by
    rw [← Node.size_eq_length]; exact hwf.size_eq_len
  have e := rankedArray_ok m (by rw [hvis, hlen])
  rw [hvis, hlen] at e
  simp only [Nat.sub_self, List.replicate_zero, List.nil_append] at e
  refine ⟨(Node.toList m.sortedItems.root).reverse, e, ?_, ?_, hwf.residents_nodup, ?_, ?_⟩
  · refine ⟨_, by unfold refreshJson; rw [e], ?_, ?_⟩ <;>
      simp [GetJson, GetZippedJson, List.map_map, Function.comp_def]
  · exact (List.reverse_perm _).trans hwf.same
  · simpa using hlen
  · rw [List.pairwise_reverse]
    exact hwf.sorted

/-- Witness of C7: three inserts, the last two with the same time stamp, and a comment on the
first item. -/
theorem snapshot_sorted_witness :
    untiedRun NewManager feedCalls = true ∧
    run NewManager feedCalls = .ok (runState NewManager feedCalls) ∧
    (∀ p ∈ residents (runState NewManager feedCalls),
      0 ≤ rank (runState NewManager feedCalls) p) ∧
    ∃ seq : List Nat, rankedArray (runState NewManager feedCalls) = .ok (seq.map some) ∧
      (∃ m1, refreshJson (runState NewManager feedCalls) = .ok m1 ∧
        GetJson m1 = some (seq.map (fun p =>
          some (toJson (runState NewManager feedCalls).heap p))) ∧
        GetZippedJson m1 = some (seq.map (fun p =>
          some (toJson (runState NewManager feedCalls).heap p)))) ∧
      seq.Perm (residents (runState NewManager feedCalls)) ∧
      (residents (runState NewManager feedCalls)).Nodup ∧
      seq.length = (runState NewManager feedCalls).itemsByUrl.length ∧
      seq.Pairwise (fun a b => rank (runState NewManager feedCalls) b ≤
        rank (runState NewManager feedCalls) a) := by
  have hu : untiedRun NewManager feedCalls = true := by decide!
  have hrun : run NewManager feedCalls = .ok (runState NewManager feedCalls) :=
    run_runState (by decide!)
  have hpos : ∀ p ∈ residents (runState NewManager feedCalls),
      0 ≤ rank (runState NewManager feedCalls) p := by decide!
  exact ⟨hu, hrun, hpos, snapshot_sorted feedCalls _ hu hrun hpos⟩

end ItemManager

namespace ItemManager

theorem updateScore_best (item : Item) : (updateScore item).BestComment = item.BestComment := by
  unfold updateScore; split <;> simp_all

theorem updateScore_count (item : Item) : (updateScore item).Ncomments = item.Ncomments := by
  unfold updateScore; split <;> rfl

theorem applyComment_best (item : Item) (c : Comment) :
    (applyComment item c).BestComment =
      match item.BestComment with
      | none => some c
      | some prev => if prev.Likes = 0 then some c else some prev := by
  unfold applyComment
  rw [updateScore_best]
  dsimp only
  cases h : item.BestComment with
  | none => rfl
  | some prev =>
    dsimp only
    split
    · rfl
    · exact h

theorem applyComment_count (item : Item) (c : Comment) :
    (applyComment item c).Ncomments = wrap64 (item.Ncomments + 1) := by
  unfold applyComment
  rw [updateScore_count]
  dsimp only
  cases h : item.BestComment with
  | none => rfl
  | some prev =>
    dsimp only
    split <;> rfl

set_option maxRecDepth 100000 in
/-- Counterexample to C8: (1) an item that carries the largest comment count of an `int` is
resident and bound to id 1; after `NotifyComment` its count is the smallest `int`, not one
more. (2) After a comment on the second of two tied items the first one, resident and bound
to id 5, gets a comment: `NotifyComment` panics, index out of range in `refreshJson`. -/
theorem comment_count_wraps :
    (match run NewManager maxCountCalls with
      | .ok m =>
        decide (mapGet m.itemsById 1 = some 0) &&
        decide (mapGet m.itemsByUrl (m.heap 0).Img_url = some 0) &&
        decide ((m.heap 0).Ncomments = 9223372036854775807) &&
        (match NotifyComment m (commentOn 1 0) with
          | .ok m1 => decide ((m1.heap 0).Ncomments = -9223372036854775808)
          | .error _ => false)
      | .error _ => false) = true ∧
    (match run NewManager tiedBoundCalls with
      | .ok m =>
        decide (mapGet m.itemsById 5 = some 0) &&
        decide (mapGet m.itemsByUrl (m.heap 0).Img_url = some 0) &&
        decide ((m.heap 0).Ncomments = 0) &&
        failsWith (NotifyComment m (commentOn 5 0)) Fault.indexRange
      | .error _ => false) = true := by
  constructor <;> decide!

/-- C8 (best-comment policy, amended): in a state reached from `NewManager` by untied calls,
for a comment whose `Item_id` is bound to a resident item with fewer than 2^63 - 1 comments,
`NotifyComment` returns, the item's best comment becomes the new comment exactly when it had
none or one with zero likes and is unchanged otherwise, and the comment count grows by
exactly 1. -/
theorem best_comment_policy (calls : List Call) (m : IManager) (c : Comment) (p : Nat)
    (hu : untiedRun NewManager calls = true) (hrun : run NewManager calls = .ok m)
    (hb : mapGet m.itemsById c.Item_id = some p)
    (hres : mapGet m.itemsByUrl (m.heap p).Img_url = some p)
    (hlo : -9223372036854775808 ≤ (m.heap p).Ncomments)
    (hhi : (m.heap p).Ncomments < 9223372036854775807) :
    ∃ m1, NotifyComment m c = .ok m1 ∧
      (m1.heap p).BestComment =
        (match (m.heap p).BestComment with
          | none => some c
          | some prev => if prev.Likes = 0 then some c else some prev) ∧
      (m1.heap p).Ncomments = (m.heap p).Ncomments + 1 := by
  have hwf := (untied_reach_WF hu hrun).1
  obtain ⟨m1, e, hh, -⟩ := NotifyComment_WF_ok hwf c p hb hres
  refine ⟨m1, e, ?_, ?_⟩
  · rw [hh, Function.update_same, applyComment_best]
  · rw [hh, Function.update_same, applyComment_count]
    exact wrap64_id (by omega) (by omega)

/-- The run of `commentedCalls` is untied and does not panic. -/
theorem commentedCalls_run : untiedRun NewManager commentedCalls = true ∧
    run NewManager commentedCalls = .ok (runState NewManager commentedCalls) :=
  ⟨by decide!, run_runState (by decide!)⟩

/-- Witness of C8: an item that has a best comment with two likes gets a comment with five. -/
theorem best_comment_policy_witness :
    untiedRun NewManager commentedCalls = true ∧
    run NewManager commentedCalls = .ok (runState NewManager commentedCalls) ∧
    mapGet (runState NewManager commentedCalls).itemsById (commentOn 1 5).Item_id = some 0 ∧
    mapGet (runState NewManager commentedCalls).itemsByUrl
      ((runState NewManager commentedCalls).heap 0).Img_url = some 0 ∧
    -9223372036854775808 ≤ ((runState NewManager commentedCalls).heap 0).Ncomments ∧
    ((runState NewManager commentedCalls).heap 0).Ncomments < 9223372036854775807 ∧
    ∃ m1, NotifyComment (runState NewManager commentedCalls) (commentOn 1 5) = .ok m1 ∧
      (m1.heap 0).BestComment =
        (match ((runState NewManager commentedCalls).heap 0).BestComment with
          | none => some (commentOn 1 5)
          | some prev => if prev.Likes = 0 then some (commentOn 1 5) else some prev) ∧
      (m1.heap 0).Ncomments = ((runState NewManager commentedCalls).heap 0).Ncomments + 1 := by
  have h1 : mapGet (runState NewManager commentedCalls).itemsById (commentOn 1 5).Item_id =
      some 0 := by decide!
  have h2 : mapGet (runState NewManager commentedCalls).itemsByUrl
      ((runState NewManager commentedCalls).heap 0).Img_url = some 0 := by decide!
  have h3 : -9223372036854775808 ≤ ((runState NewManager commentedCalls).heap 0).Ncomments := by
    decide!
  have h4 : ((runState NewManager commentedCalls).heap 0).Ncomments < 9223372036854775807 := by
    decide!
  exact ⟨commentedCalls_run.1, commentedCalls_run.2, h1, h2, h3, h4,
    best_comment_policy commentedCalls _ (commentOn 1 5) 0 commentedCalls_run.1
      commentedCalls_run.2 h1 h2 h3 h4⟩

set_option maxRecDepth 100000 in
/-- Counterexample to C9: (1) for the resident item with 2^63 - 1 comments the increment
wraps to a negative count, whose square root is NaN, and the recomputed rank is below the rank
before the call. (2) After a comment on the second of two tied items, `NotifyComment` for the
first one, resident, bound, without comments, panics and recomputes no rank for the caller. -/
theorem rank_drops_at_count_overflow :
    (match run NewManager maxCountCalls with
      | .ok m =>
        decide (mapGet m.itemsById 1 = some 0) &&
        decide (mapGet m.itemsByUrl (m.heap 0).Img_url = some 0) &&
        decide (0 ≤ (m.heap 0).Ncomments) &&
        decide (rank m 0 = 131198421598966360) &&
        (match NotifyComment m (commentOn 1 0) with
          | .ok m1 => decide (rank m1 0 < rank m 0)
          | .error _ => false)
      | .error _ => false) = true ∧
    (match run NewManager tiedBoundCalls with
      | .ok m =>
        decide (mapGet m.itemsById 5 = some 0) &&
        decide (mapGet m.itemsByUrl (m.heap 0).Img_url = some 0) &&
        decide (0 ≤ (m.heap 0).Ncomments) && decide ((m.heap 0).BestComment = none) &&
        decide (rank m 0 = 1005) &&
        !succeeds (NotifyComment m (commentOn 5 3))
      | .error _ => false) = true := by
  constructor <;> decide!

/-- C9 (rank monotonicity, amended): in a state reached from `NewManager` by untied calls,
for a comment with a non-negative like count on a bound resident item whose comment count is
non-negative and below 2^63 - 1 and whose best comment, if any, has a non-negative like count,
`NotifyComment` returns and the recomputed rank is at least the rank before. -/
theorem rank_monotone (calls : List Call) (m : IManager) (c : Comment) (p : Nat)
    (hu : untiedRun NewManager calls = true) (hrun : run NewManager calls = .ok m)
    (hb : mapGet m.itemsById c.Item_id = some p)
    (hres : mapGet m.itemsByUrl (m.heap p).Img_url = some p)
    (hn : 0 ≤ (m.heap p).Ncomments ∧ (m.heap p).Ncomments < 9223372036854775807)
    (hbest : ∀ prev, (m.heap p).BestComment = some prev →
      0 ≤ prev.Likes ∧ prev.Likes < 9223372036854775808)
    (hc : 0 ≤ c.Likes ∧ c.Likes < 9223372036854775808) :
    ∃ m1, NotifyComment m c = .ok m1 ∧ rank m p ≤ rank m1 p := by
  have hwf := (untied_reach_WF hu hrun).1
  obtain ⟨htime, hscore⟩ := Scored_run calls _ _ hrun Scored_NewManager p
  obtain ⟨m1, e, hh, -⟩ := NotifyComment_WF_ok hwf c p hb hres
  refine ⟨m1, e, ?_⟩
  unfold rank
  rw [hh, Function.update_same, hscore]
  have f0 := sqrtTerm_nonneg hn.1
  have f1 := sqrtTerm_le hn.1 (by omega : (m.heap p).Ncomments < 9223372036854775808)
  have g0 := sqrtTerm_nonneg (show (0 : Int) ≤ (m.heap p).Ncomments + 1 by omega)
  have g1 := sqrtTerm_le (show (0 : Int) ≤ (m.heap p).Ncomments + 1 by omega) (by omega)
  have gm := sqrtTerm_mono hn.1 (show (m.heap p).Ncomments ≤ (m.heap p).Ncomments + 1 by omega)
  have c0 := sqrtTerm_nonneg hc.1
  have c1 := sqrtTerm_le hc.1 hc.2
  have hw : wrap64 ((m.heap p).Ncomments + 1) = (m.heap p).Ncomments + 1 :=
    wrap64_id (by omega) (by omega)
  have w1 : wrap64 ((m.heap p).time + sqrtTerm (m.heap p).Ncomments) =
      (m.heap p).time + sqrtTerm (m.heap p).Ncomments := wrap64_id (by omega) (by omega)
  have w2 : wrap64 ((m.heap p).time + sqrtTerm ((m.heap p).Ncomments + 1)) =
      (m.heap p).time + sqrtTerm ((m.heap p).Ncomments + 1) := wrap64_id (by omega) (by omega)
  unfold applyComment updateScore
  cases hbc : (m.heap p).BestComment with
  | none =>
    simp only [hbc, hw, w1, w2]
    rw [wrap64_id (by omega) (by omega)]
    omega
  | some prev =>
    obtain ⟨p0, p1⟩ := hbest prev hbc
    have q0 := sqrtTerm_nonneg p0
    have q1 := sqrtTerm_le p0 p1
    by_cases hz : prev.Likes = 0
    · have qc := sqrtTerm_mono p0 (show prev.Likes ≤ c.Likes by omega)
      simp only [hbc, hz, if_true, hw, w1, w2]
      rw [hz] at q0 q1 qc
      rw [wrap64_id (by omega) (by omega), wrap64_id (by omega) (by omega)]
      omega
    · simp only [hbc, hz, if_false, hw, w1, w2]
      rw [wrap64_id (by omega) (by omega), wrap64_id (by omega) (by omega)]
      omega

end ItemManager

namespace ItemManager

/-- Witness of C9: an item with four comments and a best comment with two likes gets a comment
with five likes. -/
theorem rank_monotone_witness :
    untiedRun NewManager commentedCalls = true ∧
    run NewManager commentedCalls = .ok (runState NewManager commentedCalls) ∧
    mapGet (runState NewManager commentedCalls).itemsById (commentOn 1 5).Item_id = some 0 ∧
    mapGet (runState NewManager commentedCalls).itemsByUrl
      ((runState NewManager commentedCalls).heap 0).Img_url = some 0 ∧
    (0 ≤ ((runState NewManager commentedCalls).heap 0).Ncomments ∧
      ((runState NewManager commentedCalls).heap 0).Ncomments < 9223372036854775807) ∧
    (∀ prev, ((runState NewManager commentedCalls).heap 0).BestComment = some prev →
      0 ≤ prev.Likes ∧ prev.Likes < 9223372036854775808) ∧
    (0 ≤ (commentOn 1 5).Likes ∧ (commentOn 1 5).Likes < 9223372036854775808) ∧
    ∃ m1, NotifyComment (runState NewManager commentedCalls) (commentOn 1 5) = .ok m1 ∧
      rank (runState NewManager commentedCalls) 0 ≤ rank m1 0 := by
  have hu : untiedRun NewManager commentedCalls = true := by decide!
  have hrun : run NewManager commentedCalls = .ok (runState NewManager commentedCalls) :=
    run_runState (by decide!)
  have h1 : mapGet (runState NewManager commentedCalls).itemsById (commentOn 1 5).Item_id =
      some 0 := by decide!
  have h2 : mapGet (runState NewManager commentedCalls).itemsByUrl
      ((runState NewManager commentedCalls).heap 0).Img_url = some 0 := by decide!
  have h5 : 0 ≤ ((runState NewManager commentedCalls).heap 0).Ncomments ∧
      ((runState NewManager commentedCalls).heap 0).Ncomments < 9223372036854775807 := by
    decide!
  have h6 : ∀ prev, ((runState NewManager commentedCalls).heap 0).BestComment = some prev →
      0 ≤ prev.Likes ∧ prev.Likes < 9223372036854775808 := by
    have hbc : ((runState NewManager commentedCalls).heap 0).BestComment =
        some (commentOn 1 2) := by decide!
    intro prev hp
    rw [hbc] at hp
    cases hp
    decide
  have h7 : 0 ≤ (commentOn 1 5).Likes ∧ (commentOn 1 5).Likes < 9223372036854775808 := by
    decide
  exact ⟨hu, hrun, h1, h2, h5, h6, h7,
    rank_monotone commentedCalls _ (commentOn 1 5) 0 hu hrun h1 h2 h5 h6 h7⟩

/-- C10 (code defect, evaluation): items 0 and 1 are resident with equal ranks, the index
holding each once; `NotifyComment` for item 1 makes `Delete` take item 0 out of the index, so
that afterwards item 1 is in the index twice and the resident item 0 not at all, and the
cached snapshot lists item 1 twice. -/
theorem rerank_removes_the_tied_item :
    (match run NewManager (tieCalls.take 3) with
      | .ok m =>
        decide (Node.toList m.sortedItems.root = [0, 1]) && decide (residents m = [1, 0]) &&
        decide (rank m 0 = rank m 1) && decide (mapGet m.itemsById 1 = some 1) &&
        (match NotifyComment m (commentOn 1 0) with
          | .ok m1 =>
            decide (Node.toList m1.sortedItems.root = [1, 1]) &&
            decide (residents m1 = [1, 0]) &&
            decide (GetJson m1 = some [some (toJson m1.heap 1), some (toJson m1.heap 1)])
          | .error _ => false)
      | .error _ => false) = true := by decide!

end ItemManager
